import Mathlib

/-!
JMake: dependency graph and post-order build traversal

A shallow embedding of `graphs.c` (with the call site in `mymake2.c`).

* The intrusive singly linked lists become Lean lists: the vertex list
  starting at `head` is a `List VertexNode`, a `struct VertexNode*` is the
  position of the vertex in that list, `NULL`-terminated edge and command
  lists are `List Nat` and `List String`.
* The C `int` flags are kept as integers (`if (x)` is `x ≠ 0`), because the
  code stores values other than 0 and 1 in them.
* `double fileDate` holds a `time_t`; it is modelled as an integer (exact for
  every time stamp below `2 ^ 53`).
* The operating system (`stat`, `system`, the contents of a fresh heap
  buffer) is a parameter `OS W` over an arbitrary world type `W`.
* `exit(1)` is an explicit outcome carrying the state at the point of exit.
* What the program prints, together with the moments at which a vertex is
  entered and finished, is collected in a log carried by the state.
-/

namespace JMake

/-- One vertex, `struct VertexNode` of `graphs.h`.  The `next` pointer is the
list structure of the graph; `edgeList` holds the positions the `to` pointers
point at and `cmdList` the command strings. -/
structure VertexNode where
  name : String
  visited : Int
  processed : Int
  isTarget : Int
  fileExists : Int
  toBuild : Int
  fileDate : Int
  edgeList : List Nat
  cmdList : List String
deriving DecidableEq

/-- The graph is the vertex list starting at `head`; `[]` is `NULL`. -/
abbrev Graph := List VertexNode

/-- Observable steps of a traversal.  `enter t fe` is logged when vertex `t`
gets `visited = 1` and its file has been looked up (`fe` is the value stored
in `fileExists`); `cycle t c` is the "Dependency cycle found" message printed
by `t` about its child `c`; `seen t c` marks the other branch, in which `t`
found its child `c` processed; `cmd t c rt pre` is the call `system(c)` made
for vertex `t`, returning `rt`, with `pre` the graph at the moment of the
call; `finish t` is the assignment `processed = 1`. -/
inductive Event where
  | enter (t : Nat) (fe : Int)
  | cycle (t : Nat) (c : Nat)
  | seen (t : Nat) (c : Nat)
  | cmd (t : Nat) (c : String) (rt : Int) (pre : Graph)
  | finish (t : Nat)
deriving DecidableEq

/-- The three `exit(1)` sites of `postOrder`. -/
inductive Err where
  | noTarget (name : String)
  | noFile (name : String)
  | cmdFailed (c : String)
deriving DecidableEq

/-- The environment of the program.  `stat w n` is `none` when `stat(n, _)`
fails and `some m` when it succeeds with `st_mtime = m`; `system w c` is the
return value of `system(c)` and the world it leaves behind; `WEXITSTATUS` is
the libc macro; `uninit w` is what is read from the `st_mtime` field of a
`struct stat` buffer that was allocated and never written. -/
structure OS (W : Type) where
  stat : W → String → Option Int
  system : W → String → Int × W
  WEXITSTATUS : Int → Int
  uninit : W → Int

/-- Everything a traversal reads and writes: the graph, the world outside,
the function-static `returnCode` of `postOrder`, and the log. -/
structure State (W : Type) where
  graph : Graph
  world : W
  returnCode : Int
  log : List Event

/-- How a call ends: it returns (the C return value is `returnCode` of the
state), the process exits with status 1, the model ran out of fuel, or the
code followed a pointer that points at no vertex (`dangling`, not possible for a
graph built by `addVertex` and `addEdge`). -/
inductive Outcome (W : Type) where
  | ret (s : State W)
  | exit (e : Err) (s : State W)
  | outOfFuel
  | dangling

/-- Sequencing with the propagation of `exit(1)`: the rest of the function
runs only when the first part returned. -/
def Outcome.bind {W : Type} (o : Outcome W) (f : State W → Outcome W) : Outcome W :=
  match o with
  | .ret s => f s
  | .exit e s => .exit e s
  | .outOfFuel => .outOfFuel
  | .dangling => .dangling

/-- The state in which a call returned or exited, if it did either. -/
def Outcome.final? {W : Type} : Outcome W → Option (State W)
  | .ret s => some s
  | .exit _ s => some s
  | .outOfFuel => none
  | .dangling => none

/-- The function `findNode`: position of the first vertex named `name`. -/
def findNode (name : String) : Graph → Option Nat
  | [] => none
  | v :: rest => if v.name = name then some 0 else (findNode name rest).map (· + 1)

/-- The function `unmarkNodes`: clears the three traversal flags. -/
def unmarkNodes (g : Graph) : Graph :=
  g.map fun v => { v with visited := 0, processed := 0, toBuild := 0 }

/-- Lines 204-224 of `postOrder` for the vertex `target` found at position
`t`: `visited = 1`, the first `stat`, and the missing-file branch. -/
def enter {W : Type} (os : OS W) (t : Nat) (targetName : String) (target : VertexNode)
    (s : State W) : Outcome W :=
  match os.stat s.world targetName with
  | some m =>
    .ret { s with
      graph := s.graph.set t { target with visited := 1, fileExists := 1, fileDate := m },
      log := s.log ++ [Event.enter t 1] }
  | none =>
    if target.isTarget = 0 then
      .exit (.noFile targetName) { s with
        graph := s.graph.set t { target with visited := 1, fileExists := 0 },
        log := s.log ++ [Event.enter t 0] }
    else
      .ret { s with
        graph := s.graph.set t
          { target with visited := 1, fileExists := 0, fileDate := 0, toBuild := 1 },
        log := s.log ++ [Event.enter t 0] }

/-- Lines 235-244: what vertex `t` does with its child `c` once the recursive
call has returned. -/
def examine {W : Type} (t c : Nat) (child target : VertexNode) (s : State W) : State W :=
  if child.processed = 0 then { s with log := s.log ++ [Event.cycle t c] }
  else if target.toBuild = 0 then
    if child.fileExists = 0 ∨ child.fileDate > target.fileDate then
      { s with graph := s.graph.set t { target with toBuild := 1 },
               log := s.log ++ [Event.seen t c] }
    else { s with log := s.log ++ [Event.seen t c] }
  else { s with log := s.log ++ [Event.seen t c] }

/-- The dependency loop of `postOrder` (lines 227-247) for vertex `t`;
`self` is the recursive call, made with the name of the child. -/
def visitEdges {W : Type} (self : String → State W → Outcome W) (t : Nat) :
    List Nat → State W → Outcome W
  | [], s => .ret s
  | c :: es, s =>
    match s.graph[c]? with
    | none => .dangling
    | some child =>
      (self child.name s).bind fun s1 =>
        match s1.graph[c]?, s1.graph[t]? with
        | some child1, some target1 => visitEdges self t es (examine t c child1 target1 s1)
        | _, _ => .dangling

/-- The command loop of `postOrder` (lines 251-264) for vertex `t`. -/
def runCmds {W : Type} (os : OS W) (t : Nat) : List String → State W → Outcome W
  | [], s => .ret s
  | c :: cs, s =>
    let r := os.system s.world c
    let s1 : State W := { s with world := r.2, log := s.log ++ [Event.cmd t c r.1 s.graph] }
    if r.1 = -1 ∨ os.WEXITSTATUS r.1 ≠ 0 then .exit (.cmdFailed c) s1
    else runCmds os t cs { s1 with returnCode := 2 }

/-- Lines 266-270: the second `stat`.  Its return value (0 on success, -1 on
failure) is stored in `fileExists`, and `fileDate` is assigned from the
buffer exactly when that value is non-zero.  `buf` is what the buffer holds
when the call does not write it. -/
def restat {W : Type} (os : OS W) (targetName : String) (buf : Int) (w : W)
    (v : VertexNode) : VertexNode :=
  match os.stat w targetName with
  | some _ => { v with fileExists := 0 }
  | none => { v with fileExists := -1, fileDate := buf }

/-- Line 274, `target->processed = 1`, followed by the return. -/
def finish {W : Type} (t : Nat) (v : VertexNode) (s : State W) : Outcome W :=
  .ret { s with graph := s.graph.set t { v with processed := 1 },
                log := s.log ++ [Event.finish t] }

/-- What the `fileInfo` buffer holds after the dependency loop: the loop
frees and reallocates it at every iteration, so the result of the first
`stat` survives only when there was no dependency. -/
def statBuf {W : Type} (os : OS W) (w : W) (targetName : String) (edges : List Nat) :
    Option Int :=
  match edges, os.stat w targetName with
  | [], some m => some m
  | _, _ => none

/-- Lines 249-275 for the vertex at position `t`: run the commands when
`toBuild` is set, look the file up again, mark the vertex processed. -/
def buildStep {W : Type} (os : OS W) (t : Nat) (targetName : String) (buf : Option Int)
    (s : State W) : Outcome W :=
  match s.graph[t]? with
  | none => .dangling
  | some target =>
    if target.toBuild ≠ 0 then
      (runCmds os t target.cmdList s).bind fun s3 =>
        match s3.graph[t]? with
        | none => .dangling
        | some target3 =>
          finish t (restat os targetName (buf.getD (os.uninit s3.world)) s3.world target3) s3
    else finish t target s

/-- The function `postOrder`.  The first argument bounds the recursion depth. -/
def postOrder {W : Type} (os : OS W) : Nat → String → State W → Outcome W
  | 0, _, _ => .outOfFuel
  | fuel + 1, targetName, s =>
    match findNode targetName s.graph with
    | none => .exit (.noTarget targetName) s
    | some t =>
      match s.graph[t]? with
      | none => .dangling
      | some target =>
        if target.visited ≠ 0 then .ret s
        else
          (enter os t targetName target s).bind fun s1 =>
            (visitEdges (postOrder os fuel) t target.edgeList s1).bind fun s2 =>
              buildStep os t targetName (statBuf os s.world targetName target.edgeList) s2

/-- Lines 104-105 of `main`: `unmarkNodes(head)` and the top-level call
`postOrder(aTarget, head, aTarget)`, in a fresh process (`returnCode` still
has its initial value 0, nothing has been printed). -/
def build {W : Type} (os : OS W) (fuel : Nat) (g : Graph) (w : W) (aTarget : String) :
    Outcome W :=
  postOrder os fuel aTarget { graph := unmarkNodes g, world := w, returnCode := 0, log := [] }

variable {W : Type}

/-! ## Relations between the states of a traversal -/

/-- The part of a vertex that no traversal step changes, and the three flags
that only ever go from zero to non-zero. -/
structure VExt (v v' : VertexNode) : Prop where
  name : v'.name = v.name
  isTarget : v'.isTarget = v.isTarget
  edgeList : v'.edgeList = v.edgeList
  cmdList : v'.cmdList = v.cmdList
  visited : v.visited ≠ 0 → v'.visited ≠ 0
  processed : v.processed ≠ 0 → v'.processed ≠ 0
  toBuild : v.toBuild ≠ 0 → v'.toBuild ≠ 0

/-- State `s'` is a later state of the traversal that was in state `s`. -/
structure Ext (s s' : State W) : Prop where
  len : s'.graph.length = s.graph.length
  vert : ∀ (i : Nat) (v : VertexNode), s.graph[i]? = some v →
    ∃ v', s'.graph[i]? = some v' ∧ VExt v v'
  log : ∃ l, s'.log = s.log ++ l

/-- Vertices that were already visited in `s` are the same in `s'`. -/
def Unt (s s' : State W) : Prop :=
  ∀ (i : Nat) (v : VertexNode), s.graph[i]? = some v → v.visited ≠ 0 → s'.graph[i]? = some v

/-- Visited vertices other than `t` are the same in `s'`. -/
def UntBut (t : Nat) (s s' : State W) : Prop :=
  ∀ (i : Nat) (v : VertexNode), i ≠ t → s.graph[i]? = some v → v.visited ≠ 0 →
    s'.graph[i]? = some v

/-- The visited vertex `t` differs between `s` and `s'` at most in `toBuild`,
which can only have been raised from 0 to 1. -/
def Own (t : Nat) (s s' : State W) : Prop :=
  ∀ v : VertexNode, s.graph[t]? = some v → v.visited ≠ 0 →
    ∃ x, s'.graph[t]? = some { v with toBuild := x } ∧ (x = v.toBuild ∨ (v.toBuild = 0 ∧ x = 1))

/-- Only position `t` of the graph differs between `s` and `s'`. -/
def OnlyAt (t : Nat) (s s' : State W) : Prop :=
  ∀ i : Nat, i ≠ t → s'.graph[i]? = s.graph[i]?

/-- The positions of the vertices that have not been visited yet. -/
def unvisited (g : Graph) : Finset Nat :=
  (Finset.range g.length).filter fun i => (g[i]?).map (·.visited) = some 0

/-- Every edge of the graph points at a vertex of the graph. -/
def EdgesOK (g : Graph) : Prop :=
  ∀ (i : Nat) (v : VertexNode), g[i]? = some v → ∀ c ∈ v.edgeList, c < g.length

/-! ## A concrete environment for the examples -/

/-- A small file system: the files with their time stamps, and a clock. -/
structure Disk where
  files : List (String × Int)
  clock : Int
deriving DecidableEq

/-- Creates or updates the file `n` with the current time and advances the clock. -/
def Disk.touch (d : Disk) (n : String) : Disk :=
  { files := (n, d.clock) :: d.files.filter (fun p => p.1 ≠ n), clock := d.clock + 1 }

/-- An operating system over `Disk`.  The command `touch X` touches the file
`X`, the command `false` exits with status 1 (so `system` returns 256), every
other command does nothing and succeeds.  Fresh memory reads as 0. -/
def toyOS : OS Disk where
  stat d n := d.files.lookup n
  system d c :=
    if c = "false" then (256, d)
    else if c.data.take 6 = "touch ".data then (0, d.touch (String.mk (c.data.drop 6)))
    else (0, d)
  WEXITSTATUS rt := (rt / 256) % 256
  uninit _ := 0

/-- A vertex as `addVertex` creates it (`calloc` zeroes every field). -/
def mkVertex (name : String) (isTarget : Int) (edges : List Nat) (cmds : List String) :
    VertexNode :=
  { name := name, visited := 0, processed := 0, isTarget := isTarget, fileExists := 0,
    toBuild := 0, fileDate := 0, edgeList := edges, cmdList := cmds }

/-- The commands run, in order, according to a log. -/
def cmdsOf : List Event → List String
  | [] => []
  | Event.cmd _ c _ _ :: l => c :: cmdsOf l
  | _ :: l => cmdsOf l

/-- The log of an outcome (empty if there is no final state). -/
def Outcome.log (o : Outcome W) : List Event :=
  match o.final? with
  | some s => s.log
  | none => []

/-! ## Flags and log of a run -/

/-- Recognises the log entries `enter i _`. -/
def isEnter (i : Nat) : Event → Bool
  | Event.enter t _ => t == i
  | _ => false

/-- The `processed` flag of the vertex at position `i` (0 if there is none). -/
def procAt (g : Graph) (i : Nat) : Int := ((g[i]?).map (·.processed)).getD 0

/-- The `visited` flag of the vertex at position `i` (0 if there is none). -/
def visAt (g : Graph) (i : Nat) : Int := ((g[i]?).map (·.visited)).getD 0

/-- The flags and the log agree, as they do in every state of a traversal
started by `build`: the two flags are 0 or 1, a processed vertex is visited,
a vertex has been entered once if it is visited and never otherwise, and has
been finished once if it is processed and never otherwise. -/
structure Sane (s : State W) : Prop where
  flags : ∀ (i : Nat) (v : VertexNode), s.graph[i]? = some v →
    (v.visited = 0 ∨ v.visited = 1) ∧ (v.processed = 0 ∨ v.processed = 1) ∧
      (v.processed = 1 → v.visited = 1)
  entered : ∀ i : Nat, s.log.countP (isEnter i) = if visAt s.graph i = 0 then 0 else 1
  finished : ∀ i : Nat, s.log.count (Event.finish i) = if procAt s.graph i = 0 then 0 else 1

/-- The dependency-cycle diagnostics of a log, in order: the pairs of the
reporting vertex and the child it found unprocessed. -/
def cyclesOf : List Event → List (Nat × Nat)
  | [] => []
  | Event.cycle t c :: l => (t, c) :: cyclesOf l
  | _ :: l => cyclesOf l

/-- The graph of the rules `a: b` and `b: a`. -/
def cycleAB : Graph := [mkVertex "a" 1 [1] [], mkVertex "b" 1 [0] []]

/-- How `returnCode` changes over a part of the run that appended `l` to the
log: it becomes 2 if a command was run and stays what it was otherwise. -/
def RC (s s' : State W) : Prop :=
  ∃ l, s'.log = s.log ++ l ∧ s'.returnCode = if cmdsOf l = [] then s.returnCode else 2

/-- The graph of the rule `app: util` with the two commands of the example,
`touch app` for `app` and `touch util` for `util`. -/
def appUtil : Graph :=
  [mkVertex "app" 1 [1] ["touch app"], mkVertex "util" 1 [] ["touch util"]]

/-- A vertex with all its fields given in the order name, flags `visited`,
`processed`, `isTarget`, `fileExists`, `toBuild`, then `fileDate`, edges and
commands. -/
def vtx (name : String) (visited processed isTarget fileExists toBuild fileDate : Int)
    (edges : List Nat) (cmds : List String) : VertexNode :=
  { name := name, visited := visited, processed := processed, isTarget := isTarget,
    fileExists := fileExists, toBuild := toBuild, fileDate := fileDate, edgeList := edges,
    cmdList := cmds }

/-- The state in which the build of `appUtil` from `app` ends when neither
file exists and the clock shows 10. -/
def appUtilDone : State Disk :=
  { graph := [vtx "app" 1 1 1 0 1 0 [1] ["touch app"], vtx "util" 1 1 1 0 1 0 [] ["touch util"]],
    world := { files := [("app", 11), ("util", 10)], clock := 12 },
    returnCode := 2,
    log := [Event.enter 0 0, Event.enter 1 0,
      Event.cmd 1 "touch util" 0
        [vtx "app" 1 0 1 0 1 0 [1] ["touch app"], vtx "util" 1 0 1 0 1 0 [] ["touch util"]],
      Event.finish 1, Event.seen 0 1,
      Event.cmd 0 "touch app" 0
        [vtx "app" 1 0 1 0 1 0 [1] ["touch app"], vtx "util" 1 1 1 0 1 0 [] ["touch util"]],
      Event.finish 0] }

/-- The part of a vertex that the construction of the graph fixes: its name,
its target flag, its dependencies and its commands. -/
def VertexNode.rule (v : VertexNode) : String × Int × List Nat × List String :=
  (v.name, v.isTarget, v.edgeList, v.cmdList)

/-- Two graphs with the same vertices up to the traversal flags. -/
def SameRules (g g' : Graph) : Prop :=
  ∀ i : Nat, (g'[i]?).map VertexNode.rule = (g[i]?).map VertexNode.rule

/-- The log entry of a vertex that was entered with no file and no rule. -/
def missingPrereq (g : Graph) : Event → Prop
  | Event.enter t fe => fe = 0 ∧ (g[t]?).map (·.isTarget) = some 0
  | _ => False

/-- The log entry of a command that failed: `system` returned -1 or an exit
status other than 0. -/
def failedCmd (os : OS W) : Event → Prop
  | Event.cmd _ _ rt _ => rt = -1 ∨ os.WEXITSTATUS rt ≠ 0
  | _ => False

/-- The two log entries after which `postOrder` calls `exit(1)`. -/
def Fatal (os : OS W) (g : Graph) (ev : Event) : Prop :=
  missingPrereq g ev ∨ failedCmd os ev

/-- The error with which the process exits names the vertex or the command
of the log entry. -/
def Reports (g : Graph) : Err → Event → Prop
  | Err.noFile n, Event.enter t _ => (g[t]?).map (·.name) = some n
  | Err.cmdFailed c, Event.cmd _ c' _ _ => c' = c
  | _, _ => False

/-- What a part of the run that starts in state `s` and ends as `o` adds to
the log: no fatal entry if it returns, and if it exits no fatal entry except
possibly the last one, which the error then reports. -/
def TL (os : OS W) (g : Graph) (s : State W) (o : Outcome W) : Prop :=
  (∀ s', o = .ret s' → ∃ l, s'.log = s.log ++ l ∧ ∀ ev ∈ l, ¬ Fatal os g ev) ∧
  (∀ e s', o = .exit e s' → ∃ l, s'.log = s.log ++ l ∧ (∀ ev ∈ l.dropLast, ¬ Fatal os g ev) ∧
    ∀ ev, l.getLast? = some ev → Fatal os g ev → Reports g e ev)

/-- Looking a vertex up by its own name finds that very vertex: the vertex
names are pairwise different. -/
def NamesOK (g : Graph) : Prop :=
  ∀ (c : Nat) (v : VertexNode), g[c]? = some v → findNode v.name g = some c

/-- The dependencies of every processed vertex have been visited. -/
def Closed (g : Graph) : Prop :=
  ∀ (i : Nat) (v : VertexNode), g[i]? = some v → v.processed ≠ 0 →
    ∀ c ∈ v.edgeList, visAt g c ≠ 0

/-- The set `R` of positions contains the dependencies of its members. -/
def EdgeClosed (g : Graph) (R : Nat → Prop) : Prop :=
  ∀ (i : Nat) (v : VertexNode), g[i]? = some v → R i → ∀ c ∈ v.edgeList, R c

/-- Vertex `v` can be reached from vertex `i` along dependency edges. -/
inductive Reach (g : Graph) (i : Nat) : Nat → Prop where
  | base : Reach g i i
  | step {u c : Nat} {x : VertexNode} : Reach g i u → g[u]? = some x → c ∈ x.edgeList →
      Reach g i c

/-- A graph as `addVertex` and `addEdge` build it: the names are pairwise
different and every edge points at a vertex of the graph. -/
def WF (g : Graph) : Prop := (g.map (·.name)).Nodup ∧ EdgesOK g

/-- The dependency list of the vertex at position `t` (empty if there is
none). -/
def depsOf (g : Graph) (t : Nat) : List Nat := ((g[t]?).map (·.edgeList)).getD []

/-- A property of every entry of a log, given the entries before it. -/
def LogAll (Q : List Event → Event → Prop) (l : List Event) : Prop :=
  ∀ l1 ev l2, l = l1 ++ ev :: l2 → Q l1 ev

/-- What holds when an entry is logged, in terms of the entries `l1` logged
before it.  A cycle is reported about a child that has been entered and not
finished; a child is seen processed after it was finished.  A command of `t` is run before `t` is finished, when every
dependency of `t` is visited and is either processed (and finished) or has
been reported by `t` as a cycle.  A vertex is finished after it was entered,
when each of its dependencies is finished or has been reported by it as a
cycle. -/
def Step (g : Graph) (l1 : List Event) : Event → Prop
  | Event.enter _ _ => True
  | Event.cycle _ c => (∃ fe, Event.enter c fe ∈ l1) ∧ Event.finish c ∉ l1
  | Event.seen _ c => Event.finish c ∈ l1
  | Event.cmd t _ _ pre =>
    Event.finish t ∉ l1 ∧ SameRules g pre ∧
      ∀ d ∈ depsOf g t, visAt pre d ≠ 0 ∧
        ((procAt pre d = 1 ∧ Event.finish d ∈ l1) ∨ Event.cycle t d ∈ l1)
  | Event.finish t =>
    (∃ fe, Event.enter t fe ∈ l1) ∧
      ∀ d ∈ depsOf g t, Event.finish d ∈ l1 ∨ Event.cycle t d ∈ l1

/-- The log of state `s` is ordered as `Step` says. -/
def Hist (g : Graph) (s : State W) : Prop := LogAll (Step g) s.log

/-- Vertex `t` may run its commands in state `s`: it is not finished, and
every dependency is visited and either processed and finished or reported
by `t` as a cycle. -/
def Ready (g : Graph) (t : Nat) (s : State W) : Prop :=
  Event.finish t ∉ s.log ∧ SameRules g s.graph ∧
    ∀ d ∈ depsOf g t, visAt s.graph d ≠ 0 ∧
      ((procAt s.graph d = 1 ∧ Event.finish d ∈ s.log) ∨ Event.cycle t d ∈ s.log)

/-- The graph of the rules `a: b` and `b: a`, each with one command. -/
def cycleCmds : Graph :=
  [mkVertex "a" 1 [1] ["touch a"], mkVertex "b" 1 [0] ["touch b"]]

/-- The graph at the moment the command of `b` is run in the build of
`cycleCmds` from `a` with no file present: `a` is entered and not processed. -/
def cycleCmdsAtB : Graph :=
  [vtx "a" 1 0 1 0 1 0 [1] ["touch a"], vtx "b" 1 0 1 0 1 0 [0] ["touch b"]]

/-- The state in which the build of `cycleCmds` from `a` ends when no file
exists and the clock shows 0. -/
def cycleCmdsDone : State Disk :=
  { graph := [vtx "a" 1 1 1 0 1 0 [1] ["touch a"], vtx "b" 1 1 1 0 1 0 [0] ["touch b"]],
    world := { files := [("a", 1), ("b", 0)], clock := 2 },
    returnCode := 2,
    log := [Event.enter 0 0, Event.enter 1 0, Event.cycle 1 0,
      Event.cmd 1 "touch b" 0 cycleCmdsAtB, Event.finish 1, Event.seen 0 1,
      Event.cmd 0 "touch a" 0
        [vtx "a" 1 0 1 0 1 0 [1] ["touch a"], vtx "b" 1 1 1 0 1 0 [0] ["touch b"]],
      Event.finish 0] }

/-- The graph of the rule `app: main.o` with commands `cs` for `app`, where
`main.o` has no rule. -/
def appMain (cs : List String) : Graph :=
  [mkVertex "app" 1 [1] cs, mkVertex "main.o" 0 [] []]

/-- The graph of the single rule `app:` whose first command fails. -/
def appFails : Graph := [mkVertex "app" 1 [] ["false", "touch app"]]

/-- The state in which the build of `appMain ["touch app"]` from `app` exits
when no file exists. -/
def appMainExit : State Disk :=
  { graph := [vtx "app" 1 0 1 0 1 0 [1] ["touch app"], vtx "main.o" 1 0 0 0 0 0 [] []],
    world := { files := [], clock := 0 },
    returnCode := 0,
    log := [Event.enter 0 0, Event.enter 1 0] }

/-- The state in which the build of `appFails` exits when no file exists. -/
def appFailsExit : State Disk :=
  { graph := [vtx "app" 1 0 1 0 1 0 [] ["false", "touch app"]],
    world := { files := [], clock := 0 },
    returnCode := 0,
    log := [Event.enter 0 0,
      Event.cmd 0 "false" 256 [vtx "app" 1 0 1 0 1 0 [] ["false", "touch app"]]] }

/-- The `toBuild` flag of the vertex at position `i` (0 if there is none). -/
def toBuildAt (g : Graph) (i : Nat) : Int := ((g[i]?).map (·.toBuild)).getD 0

/-- The `fileExists` field of the vertex at position `i` (0 if there is none). -/
def fileExistsAt (g : Graph) (i : Nat) : Int := ((g[i]?).map (·.fileExists)).getD 0

/-- The `fileDate` field of the vertex at position `i` (0 if there is none). -/
def fileDateAt (g : Graph) (i : Nat) : Int := ((g[i]?).map (·.fileDate)).getD 0

/-- A state of a run in which nothing had to be built so far: the world is
still `w`, no command has been run, no vertex is marked stale, and every
visited vertex belongs to `R` and carries the time stamp `m` of its file. -/
def Calm (w : W) (m : Nat → Int) (R : Nat → Prop) (s : State W) : Prop :=
  s.world = w ∧ cmdsOf s.log = [] ∧
    ∀ (v : Nat) (u : VertexNode), s.graph[v]? = some u →
      u.toBuild = 0 ∧ (u.visited ≠ 0 → R v ∧ u.fileExists = 1 ∧ u.fileDate = m v)

/-- The graph of the rule `app: main.c` with one command; `main.c` has no
rule. -/
def appSrc : Graph := [mkVertex "app" 1 [1] ["touch app"], mkVertex "main.c" 0 [] []]

/-- The graph of the rules `d: t` (with the command `touch d`) and `t: d`. -/
def cycleDT : Graph := [mkVertex "d" 1 [1] ["touch d"], mkVertex "t" 1 [0] []]

/-- The state in which the build of `cycleDT` from `d` ends when only the
file `t` exists, with time stamp 5, and the clock shows 10. -/
def cycleDTDone : State Disk :=
  { graph := [vtx "d" 1 1 1 0 1 0 [1] ["touch d"], vtx "t" 1 1 1 1 0 5 [0] []],
    world := { files := [("d", 10), ("t", 5)], clock := 11 },
    returnCode := 2,
    log := [Event.enter 0 0, Event.enter 1 1, Event.cycle 1 0, Event.finish 1, Event.seen 0 1,
      Event.cmd 0 "touch d" 0
        [vtx "d" 1 0 1 0 1 0 [1] ["touch d"], vtx "t" 1 1 1 1 0 5 [0] []],
      Event.finish 0] }

/-- The commands run for vertex `t`, in order, according to a log. -/
def cmdsOfV (t : Nat) : List Event → List String
  | [] => []
  | Event.cmd t' c _ _ :: l => if t' = t then c :: cmdsOfV t l else cmdsOfV t l
  | _ :: l => cmdsOfV t l

/-- The command list of the vertex at position `t` (empty if there is none). -/
def cmdsAt (g : Graph) (t : Nat) : List String := ((g[t]?).map (·.cmdList)).getD []

/-- The commands logged for a vertex are none while it is not processed, and
afterwards all its commands, in order, if it was stale, and none if not. -/
def CmdsDone (s : State W) : Prop :=
  ∀ t : Nat, cmdsOfV t s.log =
    if procAt s.graph t = 0 then [] else if toBuildAt s.graph t = 0 then []
    else cmdsAt s.graph t

/-- A vertex that was entered without a file is marked stale. -/
def MissingStale (s : State W) : Prop :=
  ∀ t : Nat, Event.enter t 0 ∈ s.log → toBuildAt s.graph t ≠ 0

/-- The graph of the single rule `app:` without commands. -/
def phony : Graph := [mkVertex "app" 1 [] []]

/-- The state in which the build of `phony` ends when no file exists. -/
def phonyDone : State Disk :=
  { graph := [vtx "app" 1 1 1 (-1) 1 0 [] []],
    world := { files := [], clock := 0 },
    returnCode := 0,
    log := [Event.enter 0 0, Event.finish 0] }

/-- The commands of graph `g` behave like build commands in the worlds that
satisfy `I`: a command of a vertex that succeeds leaves a world that
satisfies `I` again, in which the file of that vertex exists with a time
stamp that no file exceeds, and in which every other file is as it was. -/
def Updates (os : OS W) (I : W → Prop) (g : Graph) : Prop :=
  ∀ (w : W) (t : Nat) (u : VertexNode) (c : String), I w → g[t]? = some u → c ∈ u.cmdList →
    (os.system w c).1 ≠ -1 → os.WEXITSTATUS (os.system w c).1 = 0 →
    I (os.system w c).2 ∧
    (∃ m, os.stat (os.system w c).2 u.name = some m ∧
      ∀ (n : String) (k : Int), os.stat (os.system w c).2 n = some k → k ≤ m) ∧
    ∀ n : String, n ≠ u.name → os.stat (os.system w c).2 n = os.stat w n

/-- The time stamp of the file of the vertex at position `i` in world `w`, if
the vertex and the file exist. -/
def mtime (os : OS W) (w : W) (g : Graph) (i : Nat) : Option Int :=
  (g[i]?).bind fun u => os.stat w u.name

/-- In world `w` the files of the vertices `d` and `v` exist and the file of
`d` is not newer than the file of `v`. -/
def NotNewer (os : OS W) (w : W) (g : Graph) (d v : Nat) : Prop :=
  ∃ md mv, mtime os w g d = some md ∧ mtime os w g v = some mv ∧ md ≤ mv

/-- Vertex `x` is marked stale and has no command. -/
def NoCmd (g : Graph) (x : Nat) : Prop := toBuildAt g x ≠ 0 ∧ cmdsAt g x = []

/-- What is known in state `s` about a comparison of vertex `v` with its
processed dependency `d`: one of the two is stale without commands, or `v` is
marked stale and not processed yet (its commands are still to be run), or
the file of `d` is not newer than the file of `v`. -/
def Settled (os : OS W) (s : State W) (v d : Nat) : Prop :=
  NoCmd s.graph v ∨ NoCmd s.graph d ∨ (procAt s.graph v = 0 ∧ toBuildAt s.graph v ≠ 0) ∨
    NotNewer os s.world s.graph d v

/-- The files agree with the state `s` of a run whose commands behave as
`Updates` says: a visited vertex that is not marked stale has its file, with
the recorded time stamp; a processed vertex that was stale and has commands
has its file, and its `fileExists` holds the 0 that the second `stat`
returned; every comparison logged is settled. -/
structure Fresh (os : OS W) (I : W → Prop) (s : State W) : Prop where
  world : I s.world
  kept : ∀ (v : Nat) (u : VertexNode), s.graph[v]? = some u → u.visited ≠ 0 → u.toBuild = 0 →
    u.fileExists = 1 ∧ os.stat s.world u.name = some u.fileDate
  built : ∀ (v : Nat) (u : VertexNode), s.graph[v]? = some u → u.processed ≠ 0 →
    u.toBuild ≠ 0 → u.cmdList ≠ [] → u.fileExists = 0 ∧ ∃ m, os.stat s.world u.name = some m
  seen : ∀ v d : Nat, Event.seen v d ∈ s.log →
    procAt s.graph d ≠ 0 ∧ visAt s.graph v ≠ 0 ∧ Settled os s v d

/-- State `a` of a second run is at the same point of the traversal as state
`s` of the first one: the graphs have the same rules and the same `visited`
and `processed` flags. -/
def Sim (s a : State W) : Prop :=
  a.graph.length = s.graph.length ∧
  ∀ (i : Nat) (u : VertexNode), s.graph[i]? = some u →
    ∃ x, a.graph[i]? = some x ∧ x.rule = u.rule ∧ x.visited = u.visited ∧
      x.processed = u.processed

/-- No file of the disk has a time stamp after the clock. -/
def Disk.inOrder (d : Disk) : Prop :=
  ∀ (n : String) (k : Int), toyOS.stat d n = some k → k ≤ d.clock

/-! ## Building the graph -/

/-- The function `addVertex` (lines 21-59) on the vertex list that starts at
`head`; the result is the list that starts at `*hp` afterwards.  A vertex
with this name that exists already is kept, and becomes a target if
`isTarget` is non-zero; otherwise a vertex that `calloc` has zeroed is linked
after the last one.  The calls in which `calloc` or `strdup` fail end the
process and are not part of the model. -/
def addVertex (name : String) (isTarget : Int) (g : Graph) : Graph :=
  match g with
  | [] => [mkVertex name isTarget [] []]
  | _ :: _ =>
    match findNode name g with
    | some i =>
      if isTarget ≠ 0 then
        match g[i]? with
        | some dup => g.set i { dup with isTarget := 1 }
        | none => g
      else g
    | none => g ++ [mkVertex name isTarget [] []]

/-- The function `addEdge` (lines 64-113): an edge from the vertex named
`name1` to the vertex named `name2`, appended to the edge list of the first
unless one of the two vertices is missing or the edge exists already. -/
def addEdge (name1 name2 : String) (g : Graph) : Graph :=
  match findNode name1 g, findNode name2 g with
  | some i, some j =>
    match g[i]? with
    | none => g
    | some vert1 =>
      match vert1.edgeList with
      | [] => g.set i { vert1 with edgeList := [j] }
      | e :: es =>
        if j ∈ e :: es then g
        else g.set i { vert1 with edgeList := (e :: es) ++ [j] }
  | _, _ => g

/-- The function `addCmd` (lines 118-152): the command is appended to the
command list of the vertex named `name`, if there is one. -/
def addCmd (name command : String) (g : Graph) : Graph :=
  match findNode name g with
  | none => g
  | some i =>
    match g[i]? with
    | none => g
    | some target =>
      match target.cmdList with
      | [] => g.set i { target with cmdList := [command] }
      | c :: cs => g.set i { target with cmdList := (c :: cs) ++ [command] }

/-- One call of a construction function. -/
inductive Call where
  | vertex (name : String) (isTarget : Int)
  | edge (name1 name2 : String)
  | command (name command : String)
deriving DecidableEq

/-- The graph after a construction call. -/
def Call.run : Call → Graph → Graph
  | Call.vertex n t, g => addVertex n t g
  | Call.edge a b, g => addEdge a b g
  | Call.command n c, g => addCmd n c g

/-- The graph after a sequence of construction calls, made in order. -/
def construct (calls : List Call) (g : Graph) : Graph :=
  calls.foldl (fun g c => c.run g) g

/-- The names passed to `addVertex` by a sequence of calls, in order. -/
def declared : List Call → List String
  | [] => []
  | Call.vertex n _ :: cs => n :: declared cs
  | _ :: cs => declared cs

/-- A list of names with every repetition after the first removed. -/
def firstRefs : List String → List String
  | [] => []
  | n :: ns => n :: (firstRefs ns).filter (· ≠ n)

/-- The vertex names of a graph, in list order. -/
def names (g : Graph) : List String := g.map (·.name)

/-- What every graph built by construction calls satisfies: the names are
pairwise different, every edge points at a vertex of the graph, and no edge
list holds the same vertex twice. -/
def Built (g : Graph) : Prop :=
  (names g).Nodup ∧ EdgesOK g ∧
    ∀ (i : Nat) (v : VertexNode), g[i]? = some v → v.edgeList.Nodup

/-- The graph of the rule `a: b`, built by four construction calls. -/
def ruleAB : Graph :=
  construct [Call.vertex "a" 1, Call.vertex "b" 0, Call.edge "a" "b", Call.command "a" "cc"] []

/-- The graph of the single rule `app:` with the command `touch app`. -/
def appOnly : Graph := [mkVertex "app" 1 [] ["touch app"]]

/-- State `sM` is the state in which the recursive call on dependency `c`
returned, in the dependency loop of vertex `t` over the edge list `es` that
started in state `s`: the loop went through the dependencies `pre` that come
before `c`, reached state `sB`, and made the call with the name of `c`. -/
def Moment (self : String → State W → Outcome W) (t : Nat) (es : List Nat) (s : State W)
    (c : Nat) (sM : State W) : Prop :=
  ∃ (pre post : List Nat) (sB : State W) (child : VertexNode), es = pre ++ c :: post ∧
    visitEdges self t pre s = .ret sB ∧ sB.graph[c]? = some child ∧
    self child.name sB = .ret sM

/-- A walk along dependency edges from `u` to `v` with at least one edge. -/
inductive Walk (g : Graph) : Nat → Nat → Prop where
  | edge {u v : Nat} : v ∈ depsOf g u → Walk g u v
  | cons {u v w : Nat} : v ∈ depsOf g u → Walk g v w → Walk g u w

/-- The part of the graph that can be reached from vertex `i` holds a
directed cycle. -/
def HasCycle (g : Graph) (i : Nat) : Prop := ∃ v, Reach g i v ∧ Walk g v v

/-- Vertex `u` has been entered and is not processed yet in state `s`. -/
def Open (s : State W) (u : Nat) : Prop := visAt s.graph u ≠ 0 ∧ procAt s.graph u = 0

/-- Every dependency-cycle diagnostic of the log is about an edge of the
graph whose end is its start or a vertex from which its start is reached. -/
def CycOK (g : Graph) (l : List Event) : Prop :=
  ∀ t c : Nat, Event.cycle t c ∈ l → c ∈ depsOf g t ∧ (c = t ∨ Walk g c t)

/-- The graph of the rules `a: b c`, `b: d`, `c: d`, in which `d` is reached
along two paths. -/
def diamond : Graph :=
  [mkVertex "a" 1 [1, 2] [], mkVertex "b" 1 [3] [], mkVertex "c" 1 [3] [],
    mkVertex "d" 1 [] []]

/-! # Theorems -/

/-! ## Sequencing -/

theorem Outcome.bind_eq_ret {o : Outcome W} {f : State W → Outcome W} {s' : State W} :
    o.bind f = .ret s' ↔ ∃ s1, o = .ret s1 ∧ f s1 = .ret s' := by
  cases o <;> simp [Outcome.bind]

theorem Outcome.bind_eq_exit {o : Outcome W} {f : State W → Outcome W} {e : Err}
    {s' : State W} :
    o.bind f = .exit e s' ↔ o = .exit e s' ∨ ∃ s1, o = .ret s1 ∧ f s1 = .exit e s' := by
  cases o <;> simp [Outcome.bind]

theorem Outcome.bind_eq_outOfFuel {o : Outcome W} {f : State W → Outcome W} :
    o.bind f = .outOfFuel ↔ o = .outOfFuel ∨ ∃ s1, o = .ret s1 ∧ f s1 = .outOfFuel := by
  cases o <;> simp [Outcome.bind]

theorem Outcome.bind_final {o : Outcome W} {f : State W → Outcome W} {s' : State W} :
    (o.bind f).final? = some s' ↔
      (∃ e, o = .exit e s') ∨ ∃ s1, o = .ret s1 ∧ (f s1).final? = some s' := by
  cases o <;> simp [Outcome.bind, Outcome.final?]

theorem Outcome.final_ret {o : Outcome W} {s' : State W} (h : o = .ret s') :
    o.final? = some s' := by
  subst h; rfl

theorem Outcome.final_exit {o : Outcome W} {e : Err} {s' : State W} (h : o = .exit e s') :
    o.final? = some s' := by
  subst h; rfl

/-! ## `findNode` -/

theorem findNode_some {name : String} : ∀ {g : Graph} {t : Nat},
    findNode name g = some t → ∃ v, g[t]? = some v ∧ v.name = name := by
  intro g
  induction g with
  | nil => intro t h; simp [findNode] at h
  | cons v rest ih =>
    intro t h
    simp only [findNode] at h
    split at h
    · simp at h; subst h; exact ⟨v, by simp, by assumption⟩
    · simp only [Option.map_eq_some'] at h
      obtain ⟨a, ha, rfl⟩ := h
      obtain ⟨w, hw, hn⟩ := ih ha
      exact ⟨w, by simpa using hw, hn⟩

theorem findNode_congr {name : String} : ∀ {g g' : Graph},
    g.map (·.name) = g'.map (·.name) → findNode name g = findNode name g' := by
  intro g
  induction g with
  | nil => intro g' h; cases g' <;> simp_all [findNode]
  | cons v rest ih =>
    intro g' h
    cases g' with
    | nil => simp at h
    | cons v' rest' =>
      simp only [List.map_cons, List.cons.injEq] at h
      simp only [findNode, h.1, ih h.2]

theorem findNode_of_nodup : ∀ {g : Graph} {c : Nat} {v : VertexNode},
    (g.map (·.name)).Nodup → g[c]? = some v → findNode v.name g = some c := by
  intro g
  induction g with
  | nil => intro c v _ h; simp at h
  | cons u rest ih =>
    intro c v hnd h
    simp only [List.map_cons, List.nodup_cons] at hnd
    cases c with
    | zero => simp at h; subst h; simp [findNode]
    | succ c =>
      simp only [List.getElem?_cons_succ] at h
      have hne : u.name ≠ v.name := by
        intro heq
        apply hnd.1
        rw [heq]
        exact List.mem_map.mpr ⟨v, List.getElem?_mem h, rfl⟩
      simp [findNode, hne, ih hnd.2 h]

/-! ## What a traversal preserves -/

theorem VExt.vrefl (v : VertexNode) : VExt v v :=
  ⟨rfl, rfl, rfl, rfl, id, id, id⟩

theorem VExt.vtrans {a b c : VertexNode} (h1 : VExt a b) (h2 : VExt b c) : VExt a c :=
  ⟨h2.name.trans h1.name, h2.isTarget.trans h1.isTarget, h2.edgeList.trans h1.edgeList,
    h2.cmdList.trans h1.cmdList, fun h => h2.visited (h1.visited h),
    fun h => h2.processed (h1.processed h), fun h => h2.toBuild (h1.toBuild h)⟩

theorem Ext.refl (s : State W) : Ext s s :=
  ⟨rfl, fun _ v h => ⟨v, h, VExt.vrefl v⟩, ⟨[], by simp⟩⟩

theorem Ext.trans {a b c : State W} (h1 : Ext a b) (h2 : Ext b c) : Ext a c := by
  refine ⟨h2.len.trans h1.len, ?_, ?_⟩
  · intro i v hv
    obtain ⟨v1, hv1, e1⟩ := h1.vert i v hv
    obtain ⟨v2, hv2, e2⟩ := h2.vert i v1 hv1
    exact ⟨v2, hv2, e1.vtrans e2⟩
  · obtain ⟨l1, hl1⟩ := h1.log
    obtain ⟨l2, hl2⟩ := h2.log
    exact ⟨l1 ++ l2, by rw [hl2, hl1, List.append_assoc]⟩

/-- A step that replaces the vertex at `t` by a compatible one and appends to
the log. -/
theorem Ext.of_set {s s' : State W} {t : Nat} {v v' : VertexNode}
    (hv : s.graph[t]? = some v) (hvv : VExt v v') (hg : s'.graph = s.graph.set t v')
    (hl : ∃ l, s'.log = s.log ++ l) : Ext s s' := by
  refine ⟨by rw [hg, List.length_set], ?_, hl⟩
  intro i u hu
  rw [hg]
  by_cases hi : t = i
  · subst hi
    have hlt : t < s.graph.length := (List.getElem?_eq_some.mp hv).1
    rw [hv] at hu
    cases hu
    exact ⟨v', List.getElem?_set_self hlt, hvv⟩
  · exact ⟨u, by rw [List.getElem?_set_ne hi]; exact hu, VExt.vrefl u⟩

theorem Ext.of_graph_eq {s s' : State W} (hg : s'.graph = s.graph)
    (hl : ∃ l, s'.log = s.log ++ l) : Ext s s' :=
  ⟨by rw [hg], fun i v h => ⟨v, by rw [hg]; exact h, VExt.vrefl v⟩, hl⟩

theorem OnlyAt.at_set {s s' : State W} {t : Nat} {v' : VertexNode}
    (hg : s'.graph = s.graph.set t v') : OnlyAt t s s' := by
  intro i hi
  rw [hg, List.getElem?_set_ne (Ne.symm hi)]

theorem OnlyAt.at_graph_eq {s s' : State W} {t : Nat} (hg : s'.graph = s.graph) :
    OnlyAt t s s' := by
  intro i _
  rw [hg]

/-! ### The pieces of `postOrder` -/

theorem enter_final {os : OS W} {t : Nat} {name : String} {target : VertexNode}
    {s s' : State W} (h : (enter os t name target s).final? = some s') :
    ∃ v', s'.graph = s.graph.set t v' ∧ VExt target v' ∧ v'.visited = 1 ∧
      v'.processed = target.processed ∧ s'.world = s.world ∧
      s'.returnCode = s.returnCode ∧ ∃ fe, s'.log = s.log ++ [Event.enter t fe] := by
  unfold enter at h
  split at h
  · simp only [Outcome.final?, Option.some.injEq] at h
    subst h
    exact ⟨_, rfl, ⟨rfl, rfl, rfl, rfl, by simp, id, by simp⟩, rfl, rfl, rfl, rfl, _, rfl⟩
  · split at h <;>
    · simp only [Outcome.final?, Option.some.injEq] at h
      subst h
      exact ⟨_, rfl, ⟨rfl, rfl, rfl, rfl, by simp, id, by simp⟩, rfl, rfl, rfl, rfl, _, rfl⟩

theorem examine_spec (t c : Nat) (child target : VertexNode) (s : State W)
    (ht : s.graph[t]? = some target) :
    (examine t c child target s).world = s.world ∧
    (examine t c child target s).returnCode = s.returnCode ∧
    (∃ l, (examine t c child target s).log = s.log ++ l) ∧
    ∃ x, (examine t c child target s).graph = s.graph.set t { target with toBuild := x } ∧
      (x = target.toBuild ∨ (target.toBuild = 0 ∧ x = 1)) := by
  have hself : s.graph = s.graph.set t { target with toBuild := target.toBuild } := by
    apply List.ext_getElem?
    intro i
    by_cases hi : t = i
    · subst hi
      rw [List.getElem?_set_self (List.getElem?_eq_some.mp ht).1, ht]
    · rw [List.getElem?_set_ne hi]
  unfold examine
  split
  · exact ⟨rfl, rfl, ⟨_, rfl⟩, _, hself, Or.inl rfl⟩
  · split
    · split
      · exact ⟨rfl, rfl, ⟨_, rfl⟩, 1, rfl, Or.inr ⟨by assumption, rfl⟩⟩
      · exact ⟨rfl, rfl, ⟨_, rfl⟩, _, hself, Or.inl rfl⟩
    · exact ⟨rfl, rfl, ⟨_, rfl⟩, _, hself, Or.inl rfl⟩

theorem runCmds_final {os : OS W} {t : Nat} : ∀ {cs : List String} {s s' : State W},
    (runCmds os t cs s).final? = some s' →
    s'.graph = s.graph ∧ ∃ l, s'.log = s.log ++ l := by
  intro cs
  induction cs with
  | nil =>
    intro s s' h
    simp only [runCmds, Outcome.final?, Option.some.injEq] at h
    subst h
    exact ⟨rfl, [], by simp⟩
  | cons c cs ih =>
    intro s s' h
    simp only [runCmds] at h
    split at h
    · simp only [Outcome.final?, Option.some.injEq] at h
      subst h
      exact ⟨rfl, _, rfl⟩
    · obtain ⟨hg, l, hl⟩ := ih h
      exact ⟨hg, Event.cmd t c (os.system s.world c).1 s.graph :: l, by rw [hl]; simp⟩

theorem buildStep_final {os : OS W} {t : Nat} {name : String} {buf : Option Int}
    {s s' : State W} (h : (buildStep os t name buf s).final? = some s') :
    ∃ v v', s.graph[t]? = some v ∧ s'.graph = s.graph.set t v' ∧ VExt v v' ∧
      (∃ l, s'.log = s.log ++ l) := by
  unfold buildStep at h
  split at h
  · simp [Outcome.final?] at h
  · rename_i target htg
    split at h
    · rw [Outcome.bind_final] at h
      rcases h with ⟨e, he⟩ | ⟨s3, h3, h⟩
      · obtain ⟨hg, hl⟩ := runCmds_final (Outcome.final_exit he)
        refine ⟨target, target, htg, ?_, VExt.vrefl _, hl⟩
        rw [hg]
        apply List.ext_getElem?
        intro i
        by_cases hi : t = i
        · subst hi
          rw [List.getElem?_set_self (List.getElem?_eq_some.mp htg).1, htg]
        · rw [List.getElem?_set_ne hi]
      · obtain ⟨hg, l, hl⟩ := runCmds_final (Outcome.final_ret h3)
        split at h
        · simp [Outcome.final?] at h
        · rename_i target3 htg3
          rw [hg, htg] at htg3
          cases htg3
          simp only [finish, Outcome.final?, Option.some.injEq] at h
          subst h
          refine ⟨target, _, htg, by show s3.graph.set t _ = _; rw [hg], ?_,
            l ++ [Event.finish t], by simp [hl]⟩
          unfold restat
          split <;> exact ⟨rfl, rfl, rfl, rfl, id, by simp, id⟩
    · simp only [finish, Outcome.final?, Option.some.injEq] at h
      subst h
      exact ⟨target, _, htg, rfl, ⟨rfl, rfl, rfl, rfl, id, by simp, id⟩, _, rfl⟩

/-! ### The two loops and the recursion -/

theorem visitEdges_cons_final {self : String → State W → Outcome W} {t c : Nat}
    {es : List Nat} {s s' : State W}
    (h : (visitEdges self t (c :: es) s).final? = some s') :
    ∃ child, s.graph[c]? = some child ∧
      ((∃ e, self child.name s = .exit e s') ∨
        ∃ s1 child1 target1, self child.name s = .ret s1 ∧ s1.graph[c]? = some child1 ∧
          s1.graph[t]? = some target1 ∧
          (visitEdges self t es (examine t c child1 target1 s1)).final? = some s') := by
  simp only [visitEdges] at h
  split at h
  · simp [Outcome.final?] at h
  · rename_i child hc
    refine ⟨child, hc, ?_⟩
    rw [Outcome.bind_final] at h
    rcases h with h | ⟨s1, h1, h⟩
    · exact Or.inl h
    · split at h
      · rename_i child1 target1 hc1 ht1
        exact Or.inr ⟨s1, child1, target1, h1, hc1, ht1, h⟩
      · simp [Outcome.final?] at h

theorem visitEdges_cons_ret {self : String → State W → Outcome W} {t c : Nat}
    {es : List Nat} {s s' : State W}
    (h : visitEdges self t (c :: es) s = .ret s') :
    ∃ child s1 child1 target1, s.graph[c]? = some child ∧ self child.name s = .ret s1 ∧
      s1.graph[c]? = some child1 ∧ s1.graph[t]? = some target1 ∧
      visitEdges self t es (examine t c child1 target1 s1) = .ret s' := by
  simp only [visitEdges] at h
  split at h
  · simp at h
  · rename_i child hc
    rw [Outcome.bind_eq_ret] at h
    obtain ⟨s1, h1, h⟩ := h
    split at h
    · rename_i child1 target1 hc1 ht1
      exact ⟨child, s1, child1, target1, hc, h1, hc1, ht1, h⟩
    · simp at h

theorem examine_ext {t : Nat} (c : Nat) (child : VertexNode) {target : VertexNode}
    {s : State W} (ht : s.graph[t]? = some target) : Ext s (examine t c child target s) := by
  obtain ⟨_, _, hl, x, hg, hx⟩ := examine_spec t c child target s ht
  refine Ext.of_set ht
    (VExt.mk rfl rfl rfl rfl id id ?_ : VExt target { target with toBuild := x }) hg hl
  intro h0
  rcases hx with rfl | ⟨h1, _⟩
  · exact h0
  · exact absurd h1 h0

theorem examine_onlyAt {t : Nat} (c : Nat) (child : VertexNode) {target : VertexNode}
    {s : State W} (ht : s.graph[t]? = some target) :
    OnlyAt t s (examine t c child target s) := by
  obtain ⟨_, _, _, x, hg, _⟩ := examine_spec t c child target s ht
  exact OnlyAt.at_set hg

theorem Own.orefl (t : Nat) (s : State W) : Own t s s :=
  fun v hv _ => ⟨v.toBuild, hv, Or.inl rfl⟩

theorem Own.ocall {t : Nat} {s a b : State W} (h : Own t s a) (hab : Unt a b) : Own t s b := by
  intro v hv hvis
  obtain ⟨x, hx, hor⟩ := h v hv hvis
  exact ⟨x, hab t _ hx hvis, hor⟩

theorem Own.oexamine {t : Nat} {target : VertexNode} {s b : State W}
    (h : Own t s b) (c : Nat) (child : VertexNode) (ht : b.graph[t]? = some target) :
    Own t s (examine t c child target b) := by
  intro v hv hvis
  obtain ⟨x, hx, hor⟩ := h v hv hvis
  rw [ht] at hx
  cases hx
  obtain ⟨_, _, _, y, hg, hy⟩ := examine_spec t c child { v with toBuild := x } b ht
  refine ⟨y, ?_, ?_⟩
  · rw [hg, List.getElem?_set_self (List.getElem?_eq_some.mp ht).1]
  · simp only at hy
    rcases hy with rfl | ⟨hx0, rfl⟩
    · exact hor
    · rcases hor with rfl | ⟨h0, rfl⟩
      · exact Or.inr ⟨hx0, rfl⟩
      · simp at hx0

theorem UntBut.urefl (t : Nat) (s : State W) : UntBut t s s :=
  fun _ _ _ h _ => h

theorem UntBut.ucall {t : Nat} {s a b : State W} (h : UntBut t s a) (hab : Unt a b) :
    UntBut t s b :=
  fun i v hi hv hvis => hab i v (h i v hi hv hvis) hvis

theorem UntBut.onlyAt {t : Nat} {s a b : State W} (h : UntBut t s a) (hab : OnlyAt t a b) :
    UntBut t s b :=
  fun i v hi hv hvis => by rw [hab i hi]; exact h i v hi hv hvis

/-- The dependency loop of vertex `t`: what it preserves, given that the
recursive calls do. -/
theorem visitEdges_loop {self : String → State W → Outcome W} {t : Nat}
    (hself : ∀ n s s', (self n s).final? = some s' → Ext s s' ∧ Unt s s') :
    ∀ (es : List Nat) (s s' : State W), (visitEdges self t es s).final? = some s' →
      Ext s s' ∧ UntBut t s s' ∧ Own t s s' := by
  intro es
  induction es with
  | nil =>
    intro s s' h
    simp only [visitEdges, Outcome.final?, Option.some.injEq] at h
    subst h
    exact ⟨Ext.refl _, UntBut.urefl _ _, Own.orefl _ _⟩
  | cons c es ih =>
    intro s s' h
    obtain ⟨child, _, h | ⟨s1, child1, target1, h1, _, ht1, h⟩⟩ := visitEdges_cons_final h
    · obtain ⟨e, he⟩ := h
      obtain ⟨hx, hu⟩ := hself _ _ _ (Outcome.final_exit he)
      exact ⟨hx, (UntBut.urefl t s).ucall hu, (Own.orefl t s).ocall hu⟩
    · obtain ⟨hx, hu⟩ := hself _ _ _ (Outcome.final_ret h1)
      obtain ⟨hx2, hu2, ho2⟩ := ih _ _ h
      refine ⟨hx.trans ((examine_ext c child1 ht1).trans hx2), ?_, ?_⟩
      · intro i v hi hv hvis
        exact hu2 i v hi
          ((((UntBut.urefl t s).ucall hu).onlyAt (examine_onlyAt c child1 ht1)) i v hi hv hvis) hvis
      · intro v hv hvis
        obtain ⟨x, hx1, hor1⟩ := (((Own.orefl t s).ocall hu).oexamine c child1 ht1)
          v hv hvis
        obtain ⟨y, hy, hor2⟩ := ho2 _ hx1 hvis
        refine ⟨y, hy, ?_⟩
        simp only at hor2
        rcases hor2 with rfl | ⟨hx0, rfl⟩
        · exact hor1
        · rcases hor1 with rfl | ⟨h0, rfl⟩
          · exact Or.inr ⟨hx0, rfl⟩
          · simp at hx0

/-- Every call of `postOrder` that returns or exits leaves a later state of
the same traversal, in which the vertices that were already visited when the
call was made are untouched. -/
theorem postOrder_call (os : OS W) : ∀ (fuel : Nat) (n : String) (s s' : State W),
    (postOrder os fuel n s).final? = some s' → Ext s s' ∧ Unt s s' := by
  intro fuel
  induction fuel with
  | zero => intro n s s' h; simp [postOrder, Outcome.final?] at h
  | succ fuel ih =>
    intro n s s' h
    simp only [postOrder] at h
    split at h
    · simp only [Outcome.final?, Option.some.injEq] at h
      subst h
      exact ⟨Ext.refl _, fun _ _ h _ => h⟩
    · rename_i t hfind
      split at h
      · simp [Outcome.final?] at h
      · rename_i target htg
        split at h
        · simp only [Outcome.final?, Option.some.injEq] at h
          subst h
          exact ⟨Ext.refl _, fun _ _ h _ => h⟩
        · rename_i hvis
          simp only [ne_eq, Decidable.not_not] at hvis
          rw [Outcome.bind_final] at h
          rcases h with ⟨e, he⟩ | ⟨s1, h1, h⟩
          · obtain ⟨v', hg, hvv, _, _, _, _, fe, hl⟩ := enter_final (Outcome.final_exit he)
            refine ⟨Ext.of_set htg hvv hg ⟨_, hl⟩, ?_⟩
            intro i v hv hne
            have hi : i ≠ t := by rintro rfl; rw [htg] at hv; cases hv; exact hne hvis
            rw [OnlyAt.at_set hg i hi]; exact hv
          · obtain ⟨v', hg, hvv, _, _, _, _, fe, hl⟩ := enter_final (Outcome.final_ret h1)
            have hx1 : Ext s s1 := Ext.of_set htg hvv hg ⟨_, hl⟩
            have hu1 : UntBut t s s1 := (UntBut.urefl t s).onlyAt (OnlyAt.at_set hg)
            have key : ∀ s2, (visitEdges (postOrder os fuel) t target.edgeList s1).final?
                = some s2 → Ext s s2 ∧ UntBut t s s2 := by
              intro s2 h2
              obtain ⟨hx2, hu2, _⟩ := visitEdges_loop ih _ _ _ h2
              exact ⟨hx1.trans hx2,
                fun i v hi hv hne => hu2 i v hi (hu1 i v hi hv hne) hne⟩
            have fin : ∀ s2, Ext s s2 ∧ UntBut t s s2 → Ext s s2 ∧ Unt s s2 := by
              intro s2 ⟨hx, hu⟩
              refine ⟨hx, fun i v hv hne => hu i v ?_ hv hne⟩
              rintro rfl; rw [htg] at hv; cases hv; exact hne hvis
            rw [Outcome.bind_final] at h
            rcases h with ⟨e, he⟩ | ⟨s2, h2, h⟩
            · exact fin _ (key _ (Outcome.final_exit he))
            · obtain ⟨hx2, hu2⟩ := key _ (Outcome.final_ret h2)
              obtain ⟨v, v', hv, hg', hvv', hl'⟩ := buildStep_final h
              exact fin _ ⟨hx2.trans (Ext.of_set hv hvv' hg' hl'),
                hu2.onlyAt (OnlyAt.at_set hg')⟩

theorem postOrder_ext (os : OS W) {fuel : Nat} {n : String} {s s' : State W}
    (h : (postOrder os fuel n s).final? = some s') : Ext s s' :=
  (postOrder_call os fuel n s s' h).1

theorem postOrder_unt (os : OS W) {fuel : Nat} {n : String} {s s' : State W}
    (h : (postOrder os fuel n s).final? = some s') : Unt s s' :=
  (postOrder_call os fuel n s s' h).2

/-! ## Termination -/

theorem mem_unvisited {g : Graph} {i : Nat} :
    i ∈ unvisited g ↔ ∃ v, g[i]? = some v ∧ v.visited = 0 := by
  simp only [unvisited, Finset.mem_filter, Finset.mem_range, Option.map_eq_some']
  constructor
  · rintro ⟨_, v, hv, h0⟩
    exact ⟨v, hv, h0⟩
  · rintro ⟨v, hv, h0⟩
    exact ⟨(List.getElem?_eq_some.mp hv).1, v, hv, h0⟩

theorem Ext.unvisited_subset {s s' : State W} (h : Ext s s') :
    unvisited s'.graph ⊆ unvisited s.graph := by
  intro i hi
  obtain ⟨v', hv', h0⟩ := mem_unvisited.mp hi
  have hlt : i < s.graph.length := h.len ▸ (List.getElem?_eq_some.mp hv').1
  obtain ⟨v, hv⟩ : ∃ v, s.graph[i]? = some v := ⟨_, List.getElem?_eq_getElem hlt⟩
  obtain ⟨v'', hv'', hvv⟩ := h.vert i v hv
  rw [hv'] at hv''
  cases hv''
  refine mem_unvisited.mpr ⟨v, hv, ?_⟩
  by_contra hne
  exact hvv.visited hne h0

theorem Ext.card_unvisited_le {s s' : State W} (h : Ext s s') :
    (unvisited s'.graph).card ≤ (unvisited s.graph).card :=
  Finset.card_le_card h.unvisited_subset

theorem Ext.edgesOK {s s' : State W} (h : Ext s s') (hok : EdgesOK s.graph) :
    EdgesOK s'.graph := by
  intro i v' hv' c hc
  have hlt : i < s.graph.length := h.len ▸ (List.getElem?_eq_some.mp hv').1
  obtain ⟨v, hv⟩ : ∃ v, s.graph[i]? = some v := ⟨_, List.getElem?_eq_getElem hlt⟩
  obtain ⟨v'', hv'', hvv⟩ := h.vert i v hv
  rw [hv'] at hv''
  cases hv''
  rw [h.len]
  exact hok i v hv c (hvv.edgeList ▸ hc)

theorem Ext.getElem?_isSome {s s' : State W} (h : Ext s s') {i : Nat} (hi : i < s.graph.length) :
    ∃ v', s'.graph[i]? = some v' :=
  ⟨_, List.getElem?_eq_getElem (h.len ▸ hi)⟩

/-- Entering an unvisited vertex makes the set of unvisited vertices smaller. -/
theorem card_unvisited_enter {s s1 : State W} {t : Nat} {target v' : VertexNode}
    (htg : s.graph[t]? = some target) (hvis : target.visited = 0)
    (hg : s1.graph = s.graph.set t v') (hv' : v'.visited = 1) (hx : Ext s s1) :
    (unvisited s1.graph).card < (unvisited s.graph).card := by
  apply Finset.card_lt_card
  refine ⟨hx.unvisited_subset, fun hsub => ?_⟩
  have ht : t ∈ unvisited s.graph := mem_unvisited.mpr ⟨target, htg, hvis⟩
  obtain ⟨u, hu, h0⟩ := mem_unvisited.mp (hsub ht)
  rw [hg, List.getElem?_set_self (List.getElem?_eq_some.mp htg).1] at hu
  cases hu
  rw [hv'] at h0
  exact absurd h0 (by decide)

theorem runCmds_halts (os : OS W) (t : Nat) : ∀ (cs : List String) (s : State W),
    ∃ s', (runCmds os t cs s).final? = some s' := by
  intro cs
  induction cs with
  | nil => intro s; exact ⟨s, rfl⟩
  | cons c cs ih =>
    intro s
    simp only [runCmds]
    split
    · exact ⟨_, rfl⟩
    · exact ih _

theorem buildStep_halts (os : OS W) {t : Nat} (name : String) (buf : Option Int) {s : State W}
    (ht : t < s.graph.length) : ∃ s', (buildStep os t name buf s).final? = some s' := by
  unfold buildStep
  rw [List.getElem?_eq_getElem ht]
  simp only
  split
  · obtain ⟨s3, h3⟩ := runCmds_halts os t (s.graph[t]).cmdList s
    cases hr : runCmds os t (s.graph[t]).cmdList s with
    | ret s3' =>
      have hg := (runCmds_final (Outcome.final_ret hr)).1
      simp only [Outcome.bind]
      rw [hg, List.getElem?_eq_getElem ht]
      exact ⟨_, rfl⟩
    | exit e s3' => exact ⟨s3', rfl⟩
    | outOfFuel => rw [hr] at h3; simp [Outcome.final?] at h3
    | dangling => rw [hr] at h3; simp [Outcome.final?] at h3
  · exact ⟨_, rfl⟩

/-- The dependency loop does not run out of fuel when the recursive calls do
not, and follows no dangling pointer when the edges are in range. -/
theorem visitEdges_progress {self : String → State W → Outcome W} {t fuel : Nat}
    (hext : ∀ n s s', (self n s).final? = some s' → Ext s s')
    (hfuel : ∀ n s, (unvisited s.graph).card < fuel → self n s ≠ .outOfFuel)
    (hdang : ∀ n s, (unvisited s.graph).card < fuel → EdgesOK s.graph → self n s ≠ .dangling) :
    ∀ (es : List Nat) (s : State W), (unvisited s.graph).card < fuel →
      visitEdges self t es s ≠ .outOfFuel ∧
      (EdgesOK s.graph → t < s.graph.length → (∀ c ∈ es, c < s.graph.length) →
        visitEdges self t es s ≠ .dangling) := by
  intro es
  induction es with
  | nil => intro s _; simp [visitEdges]
  | cons c es ih =>
    intro s hs
    simp only [visitEdges]
    split
    · rename_i hc
      refine ⟨by simp, fun _ _ hes => ?_⟩
      have := hes c (List.mem_cons_self _ _)
      rw [List.getElem?_eq_getElem this] at hc
      simp at hc
    · rename_i child hc
      cases hr : self child.name s with
      | ret s1 =>
        simp only [Outcome.bind]
        have hx := hext _ _ _ (Outcome.final_ret hr)
        split
        · rename_i child1 target1 hc1 ht1
          have hx' := hx.trans (examine_ext c child1 ht1)
          obtain ⟨h1, h2⟩ := ih (examine t c child1 target1 s1)
            (lt_of_le_of_lt hx'.card_unvisited_le hs)
          refine ⟨h1, fun hok ht hes => h2 (hx'.edgesOK hok) (hx'.len ▸ ht) ?_⟩
          intro c' hc'
          rw [hx'.len]
          exact hes c' (List.mem_cons_of_mem _ hc')
        · rename_i hnone
          refine ⟨by simp, fun _ ht hes => ?_⟩
          exfalso
          obtain ⟨c1, hc1⟩ := hx.getElem?_isSome (hes c (List.mem_cons_self _ _))
          obtain ⟨t1, ht1⟩ := hx.getElem?_isSome ht
          exact hnone c1 t1 hc1 ht1
      | exit e s1 => simp [Outcome.bind]
      | outOfFuel => exact absurd hr (hfuel _ _ hs)
      | dangling =>
        simp only [Outcome.bind]
        exact ⟨by simp, fun hok _ _ => absurd hr (hdang _ _ hs hok)⟩

/-- The recursion depth of `postOrder` is bounded by the number of unvisited
vertices: with more fuel than that, the model never runs out of fuel, and on
a graph whose edges are in range it never follows a dangling pointer. -/
theorem postOrder_progress (os : OS W) : ∀ (fuel : Nat) (n : String) (s : State W),
    (unvisited s.graph).card < fuel →
      postOrder os fuel n s ≠ .outOfFuel ∧ (EdgesOK s.graph → postOrder os fuel n s ≠ .dangling) := by
  intro fuel
  induction fuel with
  | zero => intro n s h; simp at h
  | succ fuel ih =>
    intro n s hs
    simp only [postOrder]
    split
    · simp
    · rename_i t hfind
      obtain ⟨v, hv, _⟩ := findNode_some hfind
      rw [hv]
      simp only
      split
      · simp
      · rename_i hvis
        simp only [ne_eq, Decidable.not_not] at hvis
        cases he : enter os t n v s with
        | ret s1 =>
          simp only [Outcome.bind]
          obtain ⟨v', hg, hvv, hv1, _, _, _, fe, hl⟩ := enter_final (Outcome.final_ret he)
          have hx1 : Ext s s1 := Ext.of_set hv hvv hg ⟨_, hl⟩
          have hlt : (unvisited s1.graph).card < fuel := by
            have := card_unvisited_enter hv hvis hg hv1 hx1
            omega
          have htlen : t < s.graph.length := (List.getElem?_eq_some.mp hv).1
          obtain ⟨p1, p2⟩ := visitEdges_progress (t := t)
            (fun n s s' h => postOrder_ext os h) (fun n s h => (ih n s h).1)
            (fun n s h hok => (ih n s h).2 hok) v.edgeList s1 hlt
          cases hr : visitEdges (postOrder os fuel) t v.edgeList s1 with
          | ret s2 =>
            simp only [Outcome.bind]
            have hx2 := (visitEdges_loop (fun n s s' h => postOrder_call os fuel n s s' h)
              _ _ _ (Outcome.final_ret hr)).1
            obtain ⟨s', hs'⟩ := buildStep_halts os n (statBuf os s.world n v.edgeList)
              (s := s2) (by rw [hx2.len, hx1.len]; exact htlen)
            constructor
            · intro h; rw [h] at hs'; simp [Outcome.final?] at hs'
            · intro _ h; rw [h] at hs'; simp [Outcome.final?] at hs'
          | exit e s2 => simp [Outcome.bind]
          | outOfFuel => exact absurd hr p1
          | dangling =>
            simp only [Outcome.bind]
            refine ⟨by simp, fun hok => ?_⟩
            exfalso
            refine p2 (hx1.edgesOK hok) (hx1.len ▸ htlen) ?_ hr
            intro c hc
            rw [hx1.len]
            exact hok t v hv c hc
        | exit e s1 => simp [Outcome.bind]
        | outOfFuel =>
          unfold enter at he
          split at he
          · simp at he
          · split at he <;> simp at he
        | dangling =>
          unfold enter at he
          split at he
          · simp at he
          · split at he <;> simp at he

/-! ## Flags and log of a run -/

theorem visAt_set {g : Graph} {t : Nat} {v v' : VertexNode} (hv : g[t]? = some v) (i : Nat) :
    visAt (g.set t v') i = if i = t then v'.visited else visAt g i := by
  unfold visAt
  split
  · rename_i h; subst h
    rw [List.getElem?_set_self (List.getElem?_eq_some.mp hv).1]; rfl
  · rename_i h
    rw [List.getElem?_set_ne (Ne.symm h)]

theorem procAt_set {g : Graph} {t : Nat} {v v' : VertexNode} (hv : g[t]? = some v) (i : Nat) :
    procAt (g.set t v') i = if i = t then v'.processed else procAt g i := by
  unfold procAt
  split
  · rename_i h; subst h
    rw [List.getElem?_set_self (List.getElem?_eq_some.mp hv).1]; rfl
  · rename_i h
    rw [List.getElem?_set_ne (Ne.symm h)]

theorem visAt_of_getElem? {g : Graph} {i : Nat} {v : VertexNode} (hv : g[i]? = some v) :
    visAt g i = v.visited := by
  simp [visAt, hv]

theorem procAt_of_getElem? {g : Graph} {i : Nat} {v : VertexNode} (hv : g[i]? = some v) :
    procAt g i = v.processed := by
  simp [procAt, hv]

/-- A step that rewrites vertex `t` without touching its `visited` and
`processed` flags, and logs neither an entry nor a finish. -/
theorem Sane.step_quiet {s s' : State W} {t : Nat} {v v' : VertexNode} {l : List Event}
    (h : Sane s) (hv : s.graph[t]? = some v) (hg : s'.graph = s.graph.set t v')
    (hl : s'.log = s.log ++ l) (h1 : v'.visited = v.visited) (h2 : v'.processed = v.processed)
    (hE : ∀ i, l.countP (isEnter i) = 0) (hF : ∀ i, l.count (Event.finish i) = 0) :
    Sane s' := by
  have hvis : ∀ i, visAt s'.graph i = visAt s.graph i := by
    intro i
    rw [hg, visAt_set hv]
    split
    · rename_i h; subst h; rw [h1, visAt_of_getElem? hv]
    · rfl
  have hproc : ∀ i, procAt s'.graph i = procAt s.graph i := by
    intro i
    rw [hg, procAt_set hv]
    split
    · rename_i h; subst h; rw [h2, procAt_of_getElem? hv]
    · rfl
  refine ⟨?_, ?_, ?_⟩
  · intro i u hu
    rw [hg] at hu
    by_cases hi : t = i
    · subst hi
      rw [List.getElem?_set_self (List.getElem?_eq_some.mp hv).1] at hu
      cases hu
      rw [h1, h2]
      exact h.flags t v hv
    · rw [List.getElem?_set_ne hi] at hu
      exact h.flags i u hu
  · intro i
    rw [hl, List.countP_append, hE, hvis, h.entered]; rfl
  · intro i
    rw [hl, List.count_append, hF, hproc, h.finished]; rfl

theorem Sane.same_graph {s s' : State W} {l : List Event}
    (h : Sane s) (hg : s'.graph = s.graph)
    (hl : s'.log = s.log ++ l)
    (hE : ∀ i, l.countP (isEnter i) = 0) (hF : ∀ i, l.count (Event.finish i) = 0) :
    Sane s' := by
  refine ⟨?_, ?_, ?_⟩
  · rw [hg]; exact h.flags
  · intro i
    rw [hl, List.countP_append, hE, hg, h.entered]; rfl
  · intro i
    rw [hl, List.count_append, hF, hg, h.finished]; rfl

theorem Sane.unvisited_unprocessed {s : State W} (h : Sane s) {t : Nat} {v : VertexNode}
    (hv : s.graph[t]? = some v) (h0 : v.visited = 0) : v.processed = 0 := by
  obtain ⟨_, hp, hpv⟩ := h.flags t v hv
  rcases hp with hp | hp
  · exact hp
  · have := hpv hp; omega

theorem enter_sane {os : OS W} {t : Nat} {name : String} {target : VertexNode}
    {s s' : State W} (hs : Sane s) (ht : s.graph[t]? = some target) (h0 : target.visited = 0)
    (h : (enter os t name target s).final? = some s') : Sane s' := by
  obtain ⟨v', hg, hvv, hv1, hp, _, _, fe, hl⟩ := enter_final h
  have hp0 := hs.unvisited_unprocessed ht h0
  refine ⟨?_, ?_, ?_⟩
  · intro i u hu
    rw [hg] at hu
    by_cases hi : t = i
    · subst hi
      rw [List.getElem?_set_self (List.getElem?_eq_some.mp ht).1] at hu
      cases hu
      rw [hv1, hp, hp0]
      simp
    · rw [List.getElem?_set_ne hi] at hu
      exact hs.flags i u hu
  · intro i
    rw [hl, List.countP_append, hs.entered, hg, visAt_set ht]
    by_cases hi : i = t
    · subst hi
      simp [isEnter, hv1, visAt_of_getElem? ht, h0]
    · have : (t == i) = false := by simpa using Ne.symm hi
      simp [isEnter, hi, this]
  · intro i
    rw [hl, List.count_append, hs.finished, hg, procAt_set ht]
    by_cases hi : i = t
    · subst hi
      simp [hp, procAt_of_getElem? ht]
    · simp [hi]

theorem examine_sane {t : Nat} (c : Nat) (child : VertexNode) {target : VertexNode}
    {s : State W} (hs : Sane s) (ht : s.graph[t]? = some target) :
    Sane (examine t c child target s) := by
  unfold examine
  split
  · exact hs.same_graph rfl rfl (by simp [isEnter]) (by simp)
  · split
    · split
      · exact hs.step_quiet ht rfl rfl rfl rfl (by simp [isEnter]) (by simp)
      · exact hs.same_graph rfl rfl (by simp [isEnter]) (by simp)
    · exact hs.same_graph rfl rfl (by simp [isEnter]) (by simp)

theorem runCmds_log {os : OS W} {t : Nat} : ∀ {cs : List String} {s s' : State W},
    (runCmds os t cs s).final? = some s' →
    ∃ l, s'.log = s.log ++ l ∧ (∀ i, l.countP (isEnter i) = 0) ∧
      (∀ i, l.count (Event.finish i) = 0) := by
  intro cs
  induction cs with
  | nil =>
    intro s s' h
    simp only [runCmds, Outcome.final?, Option.some.injEq] at h
    subst h
    exact ⟨[], by simp, by simp, by simp⟩
  | cons c cs ih =>
    intro s s' h
    simp only [runCmds] at h
    split at h
    · simp only [Outcome.final?, Option.some.injEq] at h
      subst h
      exact ⟨_, rfl, by simp [isEnter], by simp⟩
    · obtain ⟨l, hl, hE, hF⟩ := ih h
      refine ⟨Event.cmd t c (os.system s.world c).1 s.graph :: l, by rw [hl]; simp, ?_, ?_⟩
      · intro i; simp [List.countP_cons, isEnter, hE]
      · intro i; simp [List.count_cons, hF]

theorem buildStep_sane {os : OS W} {t : Nat} {name : String} {buf : Option Int}
    {s s' : State W} {v : VertexNode} (hs : Sane s) (hv : s.graph[t]? = some v)
    (h1 : v.visited = 1) (h0 : v.processed = 0)
    (h : (buildStep os t name buf s).final? = some s') : Sane s' := by
  have fin : ∀ (s3 : State W) (u : VertexNode), Sane s3 → s3.graph[t]? = some v →
      u.visited = 1 → (finish t u s3).final? = some s' → Sane s' := by
    intro s3 u h3 hv3 hu hf
    simp only [finish, Outcome.final?, Option.some.injEq] at hf
    subst hf
    refine ⟨?_, ?_, ?_⟩
    · intro i w hw
      simp only at hw
      by_cases hi : t = i
      · subst hi
        rw [List.getElem?_set_self (List.getElem?_eq_some.mp hv3).1] at hw
        cases hw
        simp [hu]
      · rw [List.getElem?_set_ne hi] at hw
        exact h3.flags i w hw
    · intro i
      simp only [List.countP_append, h3.entered, visAt_set hv3]
      by_cases hi : i = t
      · subst hi
        simp [isEnter, hu, visAt_of_getElem? hv3, h1]
      · simp [isEnter, hi]
    · intro i
      simp only [List.count_append, h3.finished, procAt_set hv3]
      by_cases hi : i = t
      · subst hi
        simp [procAt_of_getElem? hv3, h0]
      · have : ¬ t = i := fun h => hi h.symm
        simp [hi, List.count_singleton, this]
  unfold buildStep at h
  rw [hv] at h
  simp only at h
  split at h
  · rw [Outcome.bind_final] at h
    rcases h with ⟨e, he⟩ | ⟨s3, h3, h⟩
    · obtain ⟨l, hl, hE, hF⟩ := runCmds_log (Outcome.final_exit he)
      exact hs.same_graph (runCmds_final (Outcome.final_exit he)).1 hl hE hF
    · obtain ⟨l, hl, hE, hF⟩ := runCmds_log (Outcome.final_ret h3)
      have hg := (runCmds_final (Outcome.final_ret h3)).1
      have hs3 := hs.same_graph hg hl hE hF
      rw [hg, hv] at h
      simp only at h
      refine fin s3 _ hs3 (by rw [hg]; exact hv) ?_ h
      unfold restat
      split <;> exact h1
  · exact fin s v hs hv h1 h

theorem visitEdges_sane {self : String → State W → Outcome W} {t : Nat}
    (hself : ∀ n s s', (self n s).final? = some s' → Sane s → Sane s') :
    ∀ (es : List Nat) (s s' : State W), (visitEdges self t es s).final? = some s' →
      Sane s → Sane s' := by
  intro es
  induction es with
  | nil =>
    intro s s' h hs
    simp only [visitEdges, Outcome.final?, Option.some.injEq] at h
    subst h
    exact hs
  | cons c es ih =>
    intro s s' h hs
    obtain ⟨child, _, ⟨e, he⟩ | ⟨s1, child1, target1, h1, _, ht1, h⟩⟩ := visitEdges_cons_final h
    · exact hself _ _ _ (Outcome.final_exit he) hs
    · exact ih _ _ h (examine_sane c child1 (hself _ _ _ (Outcome.final_ret h1) hs) ht1)

/-- Every call of `postOrder` keeps the flags and the log in agreement. -/
theorem postOrder_sane (os : OS W) : ∀ (fuel : Nat) (n : String) (s s' : State W),
    (postOrder os fuel n s).final? = some s' → Sane s → Sane s' := by
  intro fuel
  induction fuel with
  | zero => intro n s s' h; simp [postOrder, Outcome.final?] at h
  | succ fuel ih =>
    intro n s s' h hs
    simp only [postOrder] at h
    split at h
    · simp only [Outcome.final?, Option.some.injEq] at h
      subst h; exact hs
    · rename_i t hfind
      split at h
      · simp [Outcome.final?] at h
      · rename_i target htg
        split at h
        · simp only [Outcome.final?, Option.some.injEq] at h
          subst h; exact hs
        · rename_i hvis
          simp only [ne_eq, Decidable.not_not] at hvis
          rw [Outcome.bind_final] at h
          rcases h with ⟨e, he⟩ | ⟨s1, h1, h⟩
          · exact enter_sane hs htg hvis (Outcome.final_exit he)
          · have hs1 := enter_sane hs htg hvis (Outcome.final_ret h1)
            obtain ⟨v', hg, hvv, hv1, hp, _, _, fe, hl⟩ := enter_final (Outcome.final_ret h1)
            rw [Outcome.bind_final] at h
            rcases h with ⟨e, he⟩ | ⟨s2, h2, h⟩
            · exact visitEdges_sane ih _ _ _ (Outcome.final_exit he) hs1
            · have hs2 := visitEdges_sane ih _ _ _ (Outcome.final_ret h2) hs1
              obtain ⟨_, _, hown⟩ := visitEdges_loop (t := t)
                (fun n s s' h => postOrder_call os fuel n s s' h) _ _ _ (Outcome.final_ret h2)
              have hv1' : s1.graph[t]? = some v' := by
                rw [hg, List.getElem?_set_self (List.getElem?_eq_some.mp htg).1]
              obtain ⟨x, hx, _⟩ := hown v' hv1' (by rw [hv1]; decide)
              exact buildStep_sane hs2 hx hv1
                (by show v'.processed = 0; rw [hp]; exact hs.unvisited_unprocessed htg hvis) h

theorem sane_unmarked (g : Graph) (w : W) (rc : Int) :
    Sane { graph := unmarkNodes g, world := w, returnCode := rc, log := [] } := by
  refine ⟨?_, ?_, ?_⟩
  · intro i v hv
    simp only [unmarkNodes, List.getElem?_map, Option.map_eq_some'] at hv
    obtain ⟨u, _, rfl⟩ := hv
    simp
  · intro i
    simp only [List.countP_nil, visAt, unmarkNodes, List.getElem?_map, Option.map_map]
    cases g[i]? <;> simp
  · intro i
    simp only [List.count_nil, procAt, unmarkNodes, List.getElem?_map, Option.map_map]
    cases g[i]? <;> simp

/-! ## C4: termination -/

theorem cycleAB_run (os : OS W) (w : W) :
    ∃ s', build os 3 cycleAB w "a" = .ret s' ∧ cyclesOf s'.log = [(1, 0)] ∧
      s'.log.countP (isEnter 0) = 1 := by
  cases hA : os.stat w "a" <;> cases hB : os.stat w "b" <;>
    simp [build, postOrder, cycleAB, mkVertex, unmarkNodes, findNode, enter, hA, hB,
      Outcome.bind, visitEdges, examine, buildStep, runCmds, finish, restat, statBuf,
      cyclesOf, isEnter] <;>
    split_ifs <;>
    simp [build, postOrder, cycleAB, mkVertex, unmarkNodes, findNode, enter, hA, hB,
      Outcome.bind, visitEdges, examine, buildStep, runCmds, finish, restat, statBuf,
      cyclesOf, isEnter]

theorem card_unvisited_le_length (g : Graph) : (unvisited g).card ≤ g.length := by
  unfold unvisited
  exact (Finset.card_filter_le _ _).trans (by simp)

theorem length_unmarkNodes (g : Graph) : (unmarkNodes g).length = g.length := by
  simp [unmarkNodes]

theorem postOrder_visited (os : OS W) (fuel : Nat) {n : String} {s : State W} {t : Nat}
    {target : VertexNode} (hfind : findNode n s.graph = some t)
    (htg : s.graph[t]? = some target) (hvis : target.visited ≠ 0) :
    postOrder os (fuel + 1) n s = .ret s := by
  simp [postOrder, hfind, htg, hvis]

/-- C4: `postOrder` terminates on every finite graph, cycles and self-loops
included.  With more fuel than the graph has vertices the run started by
`build` does not run out of fuel, and it enters no vertex twice; in general a
call needs no more recursion depth than there are unvisited vertices, a call
on a visited vertex returns at once with the state unchanged, and no call
increases the number of unvisited vertices.  On the graph of `a: b`, `b: a`
the run from `a` returns, having entered `a` once and reported exactly one
dependency cycle, by `b` about `a`. -/
theorem C4_postOrder_terminates (os : OS W) (g : Graph) (w : W) (aTarget : String)
    (fuel : Nat) (hfuel : g.length < fuel) :
    build os fuel g w aTarget ≠ .outOfFuel ∧
    (∀ s', (build os fuel g w aTarget).final? = some s' →
      ∀ i, s'.log.countP (isEnter i) ≤ 1) ∧
    (∀ (k : Nat) (n : String) (s : State W), (unvisited s.graph).card < k →
      postOrder os k n s ≠ .outOfFuel) ∧
    (∀ (k : Nat) (n : String) (s : State W) (t : Nat) (target : VertexNode),
      findNode n s.graph = some t → s.graph[t]? = some target → target.visited ≠ 0 →
      postOrder os (k + 1) n s = .ret s) ∧
    (∀ (k : Nat) (n : String) (s s' : State W), (postOrder os k n s).final? = some s' →
      (unvisited s'.graph).card ≤ (unvisited s.graph).card) ∧
    (∃ s', build os 3 cycleAB w "a" = .ret s' ∧ cyclesOf s'.log = [(1, 0)] ∧
      s'.log.countP (isEnter 0) = 1) := by
  refine ⟨?_, ?_, ?_, ?_, ?_, cycleAB_run os w⟩
  · refine (postOrder_progress os fuel aTarget _ ?_).1
    exact lt_of_le_of_lt (card_unvisited_le_length _) (by rw [length_unmarkNodes]; exact hfuel)
  · intro s' h i
    have hs := postOrder_sane os fuel aTarget _ s' h (sane_unmarked g w 0)
    rw [hs.entered]
    split <;> omega
  · intro k n s h
    exact (postOrder_progress os k n s h).1
  · intro k n s t target hfind htg hvis
    exact postOrder_visited os k hfind htg hvis
  · intro k n s s' h
    exact (postOrder_ext os h).card_unvisited_le

/-- C4 at a concrete input: the cyclic graph of `a: b`, `b: a`, three units
of fuel. -/
theorem C4_postOrder_terminates_witness :
    cycleAB.length < 3 ∧ build toyOS 3 cycleAB ⟨[], 0⟩ "a" ≠ .outOfFuel :=
  ⟨by decide, (C4_postOrder_terminates toyOS cycleAB ⟨[], 0⟩ "a" 3 (by decide)).1⟩

/-! ## The static `returnCode` along a run -/

/-- Induction over the calls of `postOrder` that return, for a reflexive and
transitive relation between states that every piece of the function
respects. -/
theorem postOrder_ret_induct (os : OS W) (R : State W → State W → Prop)
    (hrefl : ∀ s, R s s) (htrans : ∀ a b c, R a b → R b c → R a c)
    (henter : ∀ t n target s s1, s.graph[t]? = some target →
      enter os t n target s = .ret s1 → R s s1)
    (hexam : ∀ t c child target s, s.graph[t]? = some target →
      R s (examine t c child target s))
    (hbuild : ∀ t n buf s s', buildStep os t n buf s = .ret s' → R s s') :
    ∀ (fuel : Nat) (n : String) (s s' : State W), postOrder os fuel n s = .ret s' → R s s' := by
  intro fuel
  induction fuel with
  | zero => intro n s s' h; simp [postOrder] at h
  | succ fuel ih =>
    have loop : ∀ (t : Nat) (es : List Nat) (s s' : State W),
        visitEdges (postOrder os fuel) t es s = .ret s' → R s s' := by
      intro t es
      induction es with
      | nil =>
        intro s s' h
        simp only [visitEdges, Outcome.ret.injEq] at h
        subst h
        exact hrefl _
      | cons c es ihes =>
        intro s s' h
        obtain ⟨child, s1, child1, target1, _, h1, _, ht1, h⟩ := visitEdges_cons_ret h
        exact htrans _ _ _ (ih _ _ _ h1)
          (htrans _ _ _ (hexam t c child1 target1 s1 ht1) (ihes _ _ h))
    intro n s s' h
    simp only [postOrder] at h
    split at h
    · simp at h
    · split at h
      · simp at h
      · rename_i t _ target htg
        split at h
        · simp only [Outcome.ret.injEq] at h
          subst h
          exact hrefl _
        · rw [Outcome.bind_eq_ret] at h
          obtain ⟨s1, h1, h⟩ := h
          rw [Outcome.bind_eq_ret] at h
          obtain ⟨s2, h2, h⟩ := h
          exact htrans _ _ _ (henter _ _ _ _ _ htg h1)
            (htrans _ _ _ (loop _ _ _ _ h2) (hbuild _ _ _ _ _ h))

theorem cmdsOf_append (l1 l2 : List Event) : cmdsOf (l1 ++ l2) = cmdsOf l1 ++ cmdsOf l2 := by
  induction l1 with
  | nil => rfl
  | cons ev l ih => cases ev <;> simp [cmdsOf, ih]

theorem RC.rc_refl (s : State W) : RC s s :=
  ⟨[], by simp, by simp [cmdsOf]⟩

theorem RC.rc_trans {a b c : State W} (h1 : RC a b) (h2 : RC b c) : RC a c := by
  obtain ⟨l1, hl1, hr1⟩ := h1
  obtain ⟨l2, hl2, hr2⟩ := h2
  refine ⟨l1 ++ l2, by rw [hl2, hl1, List.append_assoc], ?_⟩
  rw [hr2, hr1, cmdsOf_append]
  by_cases h1 : cmdsOf l1 = [] <;> by_cases h2 : cmdsOf l2 = [] <;> simp [h1, h2]

theorem runCmds_rc {os : OS W} {t : Nat} : ∀ {cs : List String} {s s' : State W},
    runCmds os t cs s = .ret s' → RC s s' := by
  intro cs
  induction cs with
  | nil =>
    intro s s' h
    simp only [runCmds, Outcome.ret.injEq] at h
    subst h
    exact RC.rc_refl _
  | cons c cs ih =>
    intro s s' h
    simp only [runCmds] at h
    split at h
    · simp at h
    · refine RC.rc_trans ?_ (ih h)
      exact ⟨[Event.cmd t c (os.system s.world c).1 s.graph], rfl, by simp [cmdsOf]⟩

theorem buildStep_rc {os : OS W} {t : Nat} {n : String} {buf : Option Int} {s s' : State W}
    (h : buildStep os t n buf s = .ret s') : RC s s' := by
  have fin : ∀ (u : VertexNode) (s3 : State W), finish t u s3 = .ret s' → RC s3 s' := by
    intro u s3 hf
    simp only [finish, Outcome.ret.injEq] at hf
    subst hf
    exact ⟨[Event.finish t], rfl, by simp [cmdsOf]⟩
  unfold buildStep at h
  split at h
  · simp at h
  · split at h
    · rw [Outcome.bind_eq_ret] at h
      obtain ⟨s3, h3, h⟩ := h
      split at h
      · simp at h
      · exact (runCmds_rc h3).rc_trans (fin _ _ h)
    · exact fin _ _ h

theorem postOrder_rc (os : OS W) {fuel : Nat} {n : String} {s s' : State W}
    (h : postOrder os fuel n s = .ret s') : RC s s' := by
  refine postOrder_ret_induct os RC RC.rc_refl (fun _ _ _ => RC.rc_trans) ?_ ?_ ?_ fuel n s s' h
  · intro t n target s s1 _ h
    obtain ⟨_, _, _, _, _, _, hrc, fe, hl⟩ := enter_final (Outcome.final_ret h)
    exact ⟨_, hl, by simp [cmdsOf, hrc]⟩
  · intro t c child target s ht
    unfold examine
    split
    · exact ⟨_, rfl, by simp [cmdsOf]⟩
    · split
      · split
        · exact ⟨_, rfl, by simp [cmdsOf]⟩
        · exact ⟨_, rfl, by simp [cmdsOf]⟩
      · exact ⟨_, rfl, by simp [cmdsOf]⟩
  · intro t n buf s s' h
    exact buildStep_rc h

theorem appUtil_run : build toyOS 3 appUtil ⟨[], 10⟩ "app" = .ret appUtilDone := by
  rfl

/-! ## C5 and C6: the fatal conditions -/

theorem SameRules.sr_refl (g : Graph) : SameRules g g := fun _ => rfl

theorem SameRules.sr_trans {a b c : Graph} (h1 : SameRules a b) (h2 : SameRules b c) :
    SameRules a c := fun i => (h2 i).trans (h1 i)

theorem Ext.sameRules {s s' : State W} (h : Ext s s') : SameRules s.graph s'.graph := by
  intro i
  cases hv : s.graph[i]? with
  | none =>
    have : s'.graph[i]? = none := by
      rw [List.getElem?_eq_none_iff] at hv ⊢
      rw [h.len]; exact hv
    rw [this]
  | some v =>
    obtain ⟨v', hv', e⟩ := h.vert i v hv
    rw [hv']
    simp [VertexNode.rule, e.name, e.isTarget, e.edgeList, e.cmdList]

theorem sameRules_unmarkNodes (g : Graph) : SameRules g (unmarkNodes g) := by
  intro i
  simp only [unmarkNodes, List.getElem?_map, Option.map_map]
  rfl

theorem SameRules.getElem? {g g' : Graph} (h : SameRules g g') {i : Nat} {v' : VertexNode}
    (hv : g'[i]? = some v') : ∃ v, g[i]? = some v ∧ v.rule = v'.rule := by
  have := h i
  rw [hv] at this
  cases hg : g[i]? with
  | none => rw [hg] at this; simp at this
  | some v => rw [hg] at this; simp at this; exact ⟨v, rfl, this.symm⟩

theorem TL.bind {os : OS W} {g : Graph} {s : State W} {a : Outcome W}
    {f : State W → Outcome W} (ha : TL os g s a)
    (hf : ∀ s1, a = .ret s1 → TL os g s1 (f s1)) : TL os g s (a.bind f) := by
  constructor
  · intro s' h
    rw [Outcome.bind_eq_ret] at h
    obtain ⟨s1, h1, h⟩ := h
    obtain ⟨la, hla, qa⟩ := ha.1 s1 h1
    obtain ⟨lb, hlb, qb⟩ := (hf s1 h1).1 s' h
    refine ⟨la ++ lb, by rw [hlb, hla, List.append_assoc], ?_⟩
    intro ev hev
    rcases List.mem_append.mp hev with h | h
    · exact qa ev h
    · exact qb ev h
  · intro e s' h
    rw [Outcome.bind_eq_exit] at h
    rcases h with h | ⟨s1, h1, h⟩
    · exact ha.2 e s' h
    · obtain ⟨la, hla, qa⟩ := ha.1 s1 h1
      obtain ⟨lb, hlb, qb, mb⟩ := (hf s1 h1).2 e s' h
      refine ⟨la ++ lb, by rw [hlb, hla, List.append_assoc], ?_, ?_⟩
      · intro ev hev
        by_cases hnil : lb = []
        · subst hnil
          rw [List.append_nil] at hev
          exact qa ev (List.mem_of_mem_dropLast hev)
        · rw [List.dropLast_append_of_ne_nil _ hnil] at hev
          rcases List.mem_append.mp hev with h | h
          · exact qa ev h
          · exact qb ev h
      · intro ev hev hfat
        by_cases hnil : lb = []
        · subst hnil
          rw [List.append_nil] at hev
          exact absurd hfat (qa ev (List.mem_of_getLast?_eq_some hev))
        · rw [List.getLast?_append_of_ne_nil _ hnil] at hev
          exact mb ev hev hfat

/-- A step that only appends harmless entries to the log, before the part
described by `o`. -/
theorem TL.step {os : OS W} {g : Graph} {s s1 : State W} {o : Outcome W} {q : List Event}
    (hl : s1.log = s.log ++ q) (hq : ∀ ev ∈ q, ¬ Fatal os g ev) (h : TL os g s1 o) :
    TL os g s o := by
  have := TL.bind (s := s) (a := .ret s1) (f := fun _ => o)
    ⟨fun s' hs' => (by cases hs'; exact ⟨q, hl, hq⟩), fun e s' hs' => (by cases hs')⟩
    (fun s1' h1 => (by cases h1; exact h))
  simpa [Outcome.bind] using this

theorem TL.of_ret {os : OS W} {g : Graph} {s s1 : State W} {q : List Event}
    (hl : s1.log = s.log ++ q) (hq : ∀ ev ∈ q, ¬ Fatal os g ev) :
    TL os g s (.ret s1) :=
  ⟨fun s' hs' => (by cases hs'; exact ⟨q, hl, hq⟩), fun e s' hs' => (by cases hs')⟩

theorem enter_TL {os : OS W} {g : Graph} {t : Nat} {n : String} {target : VertexNode}
    {s : State W} (hsr : SameRules g s.graph) (ht : s.graph[t]? = some target)
    (hn : target.name = n) : TL os g s (enter os t n target s) := by
  obtain ⟨v, hv, hrule⟩ := hsr.getElem? ht
  simp only [VertexNode.rule, Prod.mk.injEq] at hrule
  unfold enter
  split
  · refine TL.of_ret (q := [Event.enter t 1]) rfl ?_
    intro ev hev
    simp only [List.mem_singleton] at hev
    subst hev
    simp [Fatal, missingPrereq, failedCmd]
  · split
    · rename_i h0
      refine ⟨fun s' hs' => (by cases hs'), fun e s' hs' => ?_⟩
      cases hs'
      refine ⟨[Event.enter t 0], rfl, by simp, ?_⟩
      intro ev hev _
      simp only [List.getLast?_singleton, Option.some.injEq] at hev
      subst hev
      simp [Reports, hv, hrule.1, hn]
    · rename_i h0
      refine TL.of_ret (q := [Event.enter t 0]) rfl ?_
      intro ev hev
      simp only [List.mem_singleton] at hev
      subst hev
      simp [Fatal, missingPrereq, failedCmd, hv, hrule.2.1, h0]

theorem examine_log (t c : Nat) (child target : VertexNode) (s : State W) :
    (examine t c child target s).log = s.log ++ [Event.seen t c] ∨
      (examine t c child target s).log = s.log ++ [Event.cycle t c] := by
  unfold examine
  split
  · exact Or.inr rfl
  · split
    · split
      · exact Or.inl rfl
      · exact Or.inl rfl
    · exact Or.inl rfl

theorem examine_TL {os : OS W} {g : Graph} {t c : Nat} {child target : VertexNode}
    {s : State W} {o : Outcome W} (h : TL os g (examine t c child target s) o) :
    TL os g s o := by
  rcases examine_log t c child target s with hl | hl <;>
  · refine TL.step hl ?_ h
    intro ev hev
    simp only [List.mem_singleton] at hev
    subst hev
    simp [Fatal, missingPrereq, failedCmd]

theorem runCmds_TL (os : OS W) (g : Graph) (t : Nat) : ∀ (cs : List String) (s : State W),
    TL os g s (runCmds os t cs s) := by
  intro cs
  induction cs with
  | nil => intro s; exact TL.of_ret (q := []) (by simp) (by simp)
  | cons c cs ih =>
    intro s
    simp only [runCmds]
    split
    · rename_i hfail
      refine ⟨fun s' hs' => (by cases hs'), fun e s' hs' => ?_⟩
      cases hs'
      refine ⟨[Event.cmd t c (os.system s.world c).1 s.graph], rfl, by simp, ?_⟩
      intro ev hev _
      simp only [List.getLast?_singleton, Option.some.injEq] at hev
      subst hev
      simp [Reports]
    · rename_i hok
      refine TL.step (q := [Event.cmd t c (os.system s.world c).1 s.graph]) rfl ?_ (ih _)
      intro ev hev
      simp only [List.mem_singleton] at hev
      subst hev
      simpa [Fatal, missingPrereq, failedCmd] using hok

theorem finish_TL (os : OS W) (g : Graph) (t : Nat) (u : VertexNode) (s : State W) :
    TL os g s (finish t u s) := by
  refine TL.of_ret (q := [Event.finish t]) rfl ?_
  intro ev hev
  simp only [List.mem_singleton] at hev
  subst hev
  simp [Fatal, missingPrereq, failedCmd]

theorem TL.of_dangling (os : OS W) (g : Graph) (s : State W) : TL os g s .dangling :=
  ⟨fun s' hs' => (by cases hs'), fun e s' hs' => (by cases hs')⟩

theorem buildStep_TL (os : OS W) (g : Graph) (t : Nat) (n : String) (buf : Option Int)
    (s : State W) : TL os g s (buildStep os t n buf s) := by
  unfold buildStep
  split
  · exact TL.of_dangling os g s
  · split
    · refine TL.bind (runCmds_TL os g t _ s) ?_
      intro s3 _
      split
      · exact TL.of_dangling os g s3
      · exact finish_TL os g t _ s3
    · exact finish_TL os g t _ s

theorem visitEdges_TL {os : OS W} {g : Graph} {self : String → State W → Outcome W} {t : Nat}
    (hself : ∀ n s, SameRules g s.graph → TL os g s (self n s))
    (hext : ∀ n s s', (self n s).final? = some s' → Ext s s') :
    ∀ (es : List Nat) (s : State W), SameRules g s.graph →
      TL os g s (visitEdges self t es s) := by
  intro es
  induction es with
  | nil => intro s _; exact TL.of_ret (q := []) (by simp) (by simp)
  | cons c es ih =>
    intro s hsr
    simp only [visitEdges]
    split
    · exact TL.of_dangling os g s
    · refine TL.bind (hself _ s hsr) ?_
      intro s1 h1
      have hx := hext _ _ _ (Outcome.final_ret h1)
      split
      · rename_i child1 target1 hc1 ht1
        refine examine_TL (ih _ ?_)
        exact hsr.sr_trans (hx.trans (examine_ext c child1 ht1)).sameRules
      · exact TL.of_dangling os g s1

/-- The log discipline of every call of `postOrder`. -/
theorem postOrder_TL (os : OS W) (g : Graph) : ∀ (fuel : Nat) (n : String) (s : State W),
    SameRules g s.graph → TL os g s (postOrder os fuel n s) := by
  intro fuel
  induction fuel with
  | zero =>
    intro n s _
    exact ⟨fun s' hs' => (by simp [postOrder] at hs'), fun e s' hs' => (by simp [postOrder] at hs')⟩
  | succ fuel ih =>
    intro n s hsr
    simp only [postOrder]
    split
    · refine ⟨fun s' hs' => (by cases hs'), fun e s' hs' => ?_⟩
      cases hs'
      exact ⟨[], by simp, by simp, by simp⟩
    · rename_i t hfind
      obtain ⟨v, hv, hn⟩ := findNode_some hfind
      rw [hv]
      simp only
      split
      · exact TL.of_ret (q := []) (by simp) (by simp)
      · refine TL.bind (enter_TL hsr hv hn) ?_
        intro s1 h1
        obtain ⟨v', hg, hvv, _, _, _, _, fe, hl⟩ := enter_final (Outcome.final_ret h1)
        have hx1 : Ext s s1 := Ext.of_set hv hvv hg ⟨_, hl⟩
        refine TL.bind (visitEdges_TL ih (fun n s s' h => postOrder_ext os h) _ s1
          (hsr.sr_trans hx1.sameRules)) ?_
        intro s2 _
        exact buildStep_TL os g t n _ s2

/-! ## Which vertices a run visits and processes -/

theorem SameRules.names_eq {g g' : Graph} (h : SameRules g g') :
    g.map (·.name) = g'.map (·.name) := by
  apply List.ext_getElem?
  intro i
  have := congrArg (Option.map (fun r : String × Int × List Nat × List String => r.1)) (h i)
  simp only [Option.map_map] at this
  simp only [List.getElem?_map]
  exact this.symm

theorem SameRules.namesOK {g g' : Graph} (h : SameRules g g') (hn : NamesOK g) : NamesOK g' := by
  intro c v' hv'
  obtain ⟨v, hv, hr⟩ := h.getElem? hv'
  have hname : v.name = v'.name := congrArg (fun r => r.1) hr
  rw [← findNode_congr h.names_eq, ← hname]
  exact hn c v hv

theorem namesOK_of_nodup {g : Graph} (h : (g.map (·.name)).Nodup) : NamesOK g :=
  fun _ _ hv => findNode_of_nodup h hv

theorem Ext.visAt_ne {s s' : State W} (h : Ext s s') {i : Nat} (hv : visAt s.graph i ≠ 0) :
    visAt s'.graph i ≠ 0 := by
  cases hg : s.graph[i]? with
  | none => simp [visAt, hg] at hv
  | some v =>
    obtain ⟨v', hv', e⟩ := h.vert i v hg
    rw [visAt_of_getElem? hg] at hv
    rw [visAt_of_getElem? hv']
    exact e.visited hv

theorem Ext.procAt_ne {s s' : State W} (h : Ext s s') {i : Nat} (hv : procAt s.graph i ≠ 0) :
    procAt s'.graph i ≠ 0 := by
  cases hg : s.graph[i]? with
  | none => simp [procAt, hg] at hv
  | some v =>
    obtain ⟨v', hv', e⟩ := h.vert i v hg
    rw [procAt_of_getElem? hg] at hv
    rw [procAt_of_getElem? hv']
    exact e.processed hv

/-- A step that rewrites vertex `t` keeping `processed` and the edges, and
not lowering `visited`. -/
theorem Closed.set_keep {g : Graph} {t : Nat} {v v' : VertexNode} (h : Closed g)
    (hv : g[t]? = some v) (hp : v'.processed = v.processed) (he : v'.edgeList = v.edgeList)
    (hvis : v.visited ≠ 0 → v'.visited ≠ 0) : Closed (g.set t v') := by
  intro i u hu hpu c hc
  have mono : ∀ c, visAt g c ≠ 0 → visAt (g.set t v') c ≠ 0 := by
    intro c hc
    rw [visAt_set hv]
    split
    · rename_i h; subst h; rw [visAt_of_getElem? hv] at hc; exact hvis hc
    · exact hc
  by_cases hi : t = i
  · subst hi
    rw [List.getElem?_set_self (List.getElem?_eq_some.mp hv).1] at hu
    cases hu
    exact mono c (h t v hv (hp ▸ hpu) c (he ▸ hc))
  · rw [List.getElem?_set_ne hi] at hu
    exact mono c (h i u hu hpu c hc)

theorem examine_flags (t c : Nat) (child : VertexNode) {target : VertexNode} {s : State W}
    (ht : s.graph[t]? = some target) (i : Nat) :
    visAt (examine t c child target s).graph i = visAt s.graph i ∧
      procAt (examine t c child target s).graph i = procAt s.graph i := by
  obtain ⟨_, _, _, x, hg, _⟩ := examine_spec t c child target s ht
  rw [hg, visAt_set ht, procAt_set ht]
  constructor
  · split
    · rename_i h; subst h; rw [visAt_of_getElem? ht]
    · rfl
  · split
    · rename_i h; subst h; rw [procAt_of_getElem? ht]
    · rfl

theorem examine_closed (t c : Nat) (child : VertexNode) {target : VertexNode} {s : State W}
    (ht : s.graph[t]? = some target) (h : Closed s.graph) :
    Closed (examine t c child target s).graph := by
  obtain ⟨_, _, _, x, hg, _⟩ := examine_spec t c child target s ht
  rw [hg]
  exact h.set_keep ht rfl rfl id

/-- What `buildStep` does to the graph when it returns: vertex `t` becomes
processed, with the same `visited`, `toBuild` and rule; no other vertex
changes. -/
theorem buildStep_ret {os : OS W} {t : Nat} {n : String} {buf : Option Int}
    {s s' : State W} (h : buildStep os t n buf s = .ret s') :
    ∃ v v', s.graph[t]? = some v ∧ s'.graph = s.graph.set t v' ∧ VExt v v' ∧
      v'.processed = 1 ∧ v'.visited = v.visited ∧ v'.toBuild = v.toBuild := by
  unfold buildStep at h
  split at h
  · simp at h
  · rename_i target htg
    split at h
    · rw [Outcome.bind_eq_ret] at h
      obtain ⟨s3, h3, h⟩ := h
      have hg := (runCmds_final (Outcome.final_ret h3)).1
      rw [hg, htg] at h
      simp only [finish, Outcome.ret.injEq] at h
      subst h
      refine ⟨target, _, htg, by show s3.graph.set t _ = _; rw [hg], ?_, rfl, ?_, ?_⟩
      · unfold restat
        split <;> exact ⟨rfl, rfl, rfl, rfl, id, by simp, id⟩
      · unfold restat; split <;> rfl
      · unfold restat; split <;> rfl
    · simp only [finish, Outcome.ret.injEq] at h
      subst h
      exact ⟨target, _, htg, rfl, ⟨rfl, rfl, rfl, rfl, id, by simp, id⟩, rfl, rfl, rfl⟩

theorem visitEdges_ext {self : String → State W → Outcome W} {t : Nat}
    (hext : ∀ n s s', (self n s).final? = some s' → Ext s s') :
    ∀ (es : List Nat) (s s' : State W), (visitEdges self t es s).final? = some s' →
      Ext s s' := by
  intro es
  induction es with
  | nil =>
    intro s s' h
    simp only [visitEdges, Outcome.final?, Option.some.injEq] at h
    subst h
    exact Ext.refl _
  | cons c es ih =>
    intro s s' h
    obtain ⟨child, _, ⟨e, he⟩ | ⟨s1, child1, target1, h1, _, ht1, h⟩⟩ := visitEdges_cons_final h
    · exact hext _ _ _ (Outcome.final_exit he)
    · exact (hext _ _ _ (Outcome.final_ret h1)).trans
        ((examine_ext c child1 ht1).trans (ih _ _ h))

/-- The dependency loop of a visited vertex `t`, when it returns: every
dependency has been visited, every vertex visited on the way is processed,
and only vertices of a set that contains the dependencies and is closed
under edges have been visited. -/
theorem visitEdges_visit {self : String → State W → Outcome W} {t : Nat}
    (hext : ∀ n s s', (self n s).final? = some s' → Ext s s')
    (hself : ∀ n s s', NamesOK s.graph → Closed s.graph → self n s = .ret s' →
      Closed s'.graph ∧ (∀ u, findNode n s.graph = some u → visAt s'.graph u ≠ 0) ∧
      (∀ v, visAt s'.graph v ≠ 0 → visAt s.graph v ≠ 0 ∨ procAt s'.graph v ≠ 0) ∧
      ∀ R : Nat → Prop, EdgeClosed s.graph R → (∀ u, findNode n s.graph = some u → R u) →
        (∀ v, visAt s.graph v ≠ 0 → R v) → ∀ v, visAt s'.graph v ≠ 0 → R v) :
    ∀ (es : List Nat) (s s' : State W), NamesOK s.graph → Closed s.graph →
      visitEdges self t es s = .ret s' →
      Closed s'.graph ∧ (∀ c ∈ es, visAt s'.graph c ≠ 0) ∧
      (∀ v, visAt s'.graph v ≠ 0 → visAt s.graph v ≠ 0 ∨ procAt s'.graph v ≠ 0) ∧
      ∀ R : Nat → Prop, EdgeClosed s.graph R → (∀ c ∈ es, R c) →
        (∀ v, visAt s.graph v ≠ 0 → R v) → ∀ v, visAt s'.graph v ≠ 0 → R v := by
  intro es
  induction es with
  | nil =>
    intro s s' _ hc h
    simp only [visitEdges, Outcome.ret.injEq] at h
    subst h
    exact ⟨hc, by simp, fun v hv => Or.inl hv, fun R _ _ hR => hR⟩
  | cons c es ih =>
    intro s s' hn hc h
    obtain ⟨child, s1, child1, target1, hch, h1, hc1, ht1, h⟩ := visitEdges_cons_ret h
    have hx1 := hext _ _ _ (Outcome.final_ret h1)
    obtain ⟨hc1', hvis1, hnew1, hR1⟩ := hself _ _ _ hn hc h1
    have hxe := examine_ext c child1 ht1
    have hx := hx1.trans hxe
    have hfl := examine_flags t c child1 ht1
    obtain ⟨hc2, hvis2, hnew2, hR2⟩ := ih _ s' (hx.sameRules.namesOK hn)
      (examine_closed t c child1 ht1 hc1') h
    have hx2 : Ext (examine t c child1 target1 s1) s' :=
      visitEdges_ext hext es _ s' (Outcome.final_ret h)
    refine ⟨hc2, ?_, ?_, ?_⟩
    · intro c' hc'
      rcases List.mem_cons.mp hc' with rfl | hc'
      · apply hx2.visAt_ne
        rw [(hfl c').1]
        exact hvis1 c' (hn c' child hch)
      · exact hvis2 c' hc'
    · intro v hv
      rcases hnew2 v hv with h | h
      · rw [(hfl v).1] at h
        rcases hnew1 v h with h | h
        · exact Or.inl h
        · right
          apply hx2.procAt_ne
          rw [(hfl v).2]
          exact h
      · exact Or.inr h
    · intro R hR hes hsR v hv
      have hRg : EdgeClosed (examine t c child1 target1 s1).graph R := by
        intro i u hu hi c' hc'
        obtain ⟨u0, hu0, hr⟩ := hx.sameRules.getElem? hu
        have : u0.edgeList = u.edgeList := congrArg (fun r => r.2.2.1) hr
        exact hR i u0 hu0 hi c' (this ▸ hc')
      refine hR2 R hRg (fun c' hc' => hes c' (List.mem_cons_of_mem _ hc')) ?_ v hv
      intro v' hv'
      rw [(hfl v').1] at hv'
      refine hR1 R hR ?_ hsR v' hv'
      intro u hu
      rw [hn c child hch] at hu
      cases hu
      exact hes c (List.mem_cons_self _ _)

theorem edgeClosed_of_sameRules {g g' : Graph} {R : Nat → Prop} (h : SameRules g g')
    (hR : EdgeClosed g R) : EdgeClosed g' R := by
  intro i u hu hi c hc
  obtain ⟨u0, hu0, hr⟩ := h.getElem? hu
  have : u0.edgeList = u.edgeList := congrArg (fun r => r.2.2.1) hr
  exact hR i u0 hu0 hi c (this ▸ hc)

/-- A call of `postOrder` that returns: the vertex it was called for is
visited, every vertex visited during the call is processed, the dependencies
of processed vertices are visited, and only vertices of a set that contains
the start and is closed under edges have been visited. -/
theorem postOrder_visit (os : OS W) : ∀ (fuel : Nat) (n : String) (s s' : State W),
    NamesOK s.graph → Closed s.graph → postOrder os fuel n s = .ret s' →
      Closed s'.graph ∧ (∀ u, findNode n s.graph = some u → visAt s'.graph u ≠ 0) ∧
      (∀ v, visAt s'.graph v ≠ 0 → visAt s.graph v ≠ 0 ∨ procAt s'.graph v ≠ 0) ∧
      ∀ R : Nat → Prop, EdgeClosed s.graph R → (∀ u, findNode n s.graph = some u → R u) →
        (∀ v, visAt s.graph v ≠ 0 → R v) → ∀ v, visAt s'.graph v ≠ 0 → R v := by
  intro fuel
  induction fuel with
  | zero => intro n s s' _ _ h; simp [postOrder] at h
  | succ fuel ih =>
    intro n s s' hn hc h
    simp only [postOrder] at h
    split at h
    · simp at h
    · rename_i t hfind
      split at h
      · simp at h
      · rename_i target htg
        split at h
        · rename_i hvis
          simp only [Outcome.ret.injEq] at h
          subst h
          refine ⟨hc, ?_, fun v hv => Or.inl hv, fun R _ _ hR => hR⟩
          intro u hu
          rw [hfind] at hu
          cases hu
          rw [visAt_of_getElem? htg]
          exact hvis
        · rename_i hvis
          simp only [ne_eq, Decidable.not_not] at hvis
          rw [Outcome.bind_eq_ret] at h
          obtain ⟨s1, h1, h⟩ := h
          rw [Outcome.bind_eq_ret] at h
          obtain ⟨s2, h2, h⟩ := h
          obtain ⟨v', hg1, hvv, hv1, hp1, _, _, fe, hl⟩ := enter_final (Outcome.final_ret h1)
          have hx1 : Ext s s1 := Ext.of_set htg hvv hg1 ⟨_, hl⟩
          have hc1 : Closed s1.graph := by
            rw [hg1]
            exact hc.set_keep htg hp1 hvv.edgeList hvv.visited
          have hvis1 : ∀ v, visAt s1.graph v = if v = t then 1 else visAt s.graph v := by
            intro v
            rw [hg1, visAt_set htg, hv1]
          obtain ⟨hc2, hch2, hnew2, hR2⟩ := visitEdges_visit (t := t)
            (fun n s s' h => postOrder_ext os h) ih target.edgeList s1 s2
            (hx1.sameRules.namesOK hn) hc1 h2
          have hx2 : Ext s1 s2 :=
            visitEdges_ext (fun n s s' h => postOrder_ext os h) _ _ _ (Outcome.final_ret h2)
          obtain ⟨w, w', hw, hg', hww, hwp, hwv, _⟩ := buildStep_ret h
          have hv1' : s1.graph[t]? = some v' := by
            rw [hg1, List.getElem?_set_self (List.getElem?_eq_some.mp htg).1]
          obtain ⟨w0, hw0, hvw⟩ := hx2.vert t v' hv1'
          rw [hw] at hw0
          cases hw0
          have hwvis : w.visited ≠ 0 := hvw.visited (by rw [hv1]; decide)
          have hvis' : ∀ v, visAt s'.graph v = visAt s2.graph v := by
            intro v
            rw [hg', visAt_set hw]
            split
            · rename_i h; subst h; rw [hwv, visAt_of_getElem? hw]
            · rfl
          have hproc' : ∀ v, procAt s'.graph v = if v = t then 1 else procAt s2.graph v := by
            intro v
            rw [hg', procAt_set hw, hwp]
          refine ⟨?_, ?_, ?_, ?_⟩
          · intro i u hu hpu c hcu
            rw [hvis']
            rw [hg'] at hu
            by_cases hi : t = i
            · subst hi
              rw [List.getElem?_set_self (List.getElem?_eq_some.mp hw).1] at hu
              cases hu
              apply hch2
              rw [← hvv.edgeList, ← hvw.edgeList, ← hww.edgeList]
              exact hcu
            · rw [List.getElem?_set_ne hi] at hu
              exact hc2 i u hu hpu c hcu
          · intro u hu
            rw [hfind] at hu
            cases hu
            rw [hvis', visAt_of_getElem? hw]
            exact hwvis
          · intro v hv
            rw [hvis'] at hv
            rw [hproc']
            by_cases hvt : v = t
            · right; simp [hvt]
            · simp only [hvt, if_false]
              rcases hnew2 v hv with h | h
              · left
                rw [hvis1] at h
                simpa [hvt] using h
              · exact Or.inr h
          · intro R hR hRt hRs v hv
            rw [hvis'] at hv
            refine hR2 R (edgeClosed_of_sameRules hx1.sameRules hR)
              (hR t target htg (hRt t hfind)) ?_ v hv
            intro v' hv'
            rw [hvis1] at hv'
            by_cases hvt : v' = t
            · subst hvt; exact hRt _ hfind
            · simp only [hvt, if_false] at hv'
              exact hRs v' hv'

theorem closed_unmarked (g : Graph) : Closed (unmarkNodes g) := by
  intro i v hv hp
  simp only [unmarkNodes, List.getElem?_map, Option.map_eq_some'] at hv
  obtain ⟨u, _, rfl⟩ := hv
  simp at hp

theorem visAt_unmarked (g : Graph) (i : Nat) : visAt (unmarkNodes g) i = 0 := by
  simp only [visAt, unmarkNodes, List.getElem?_map, Option.map_map]
  cases g[i]? <;> simp

theorem edgesOK_of_sameRules {g g' : Graph} (h : SameRules g g') (hok : EdgesOK g) :
    EdgesOK g' := by
  intro i u hu c hc
  obtain ⟨u0, hu0, hr⟩ := h.getElem? hu
  have he : u0.edgeList = u.edgeList := congrArg (fun r => r.2.2.1) hr
  have hlen : g'.length = g.length := by
    have := congrArg List.length h.names_eq
    simpa using this.symm
  rw [hlen]
  exact hok i u0 hu0 c (he ▸ hc)

theorem edgeClosed_reach (g : Graph) (i : Nat) : EdgeClosed g (Reach g i) :=
  fun _ _ hv hr _ hc => Reach.step hr hv hc

/-- With more fuel than vertices, the run started by `build` on a well-formed
graph returns or exits. -/
theorem build_halts (os : OS W) {fuel : Nat} {g : Graph} (w : W) (aTarget : String)
    (hwf : WF g) (hfuel : g.length < fuel) :
    (∃ e s', build os fuel g w aTarget = .exit e s') ∨
      ∃ s', build os fuel g w aTarget = .ret s' := by
  have hcard : (unvisited (unmarkNodes g)).card < fuel :=
    lt_of_le_of_lt (card_unvisited_le_length _) (by rw [length_unmarkNodes]; exact hfuel)
  obtain ⟨p1, p2⟩ := postOrder_progress os fuel aTarget
    { graph := unmarkNodes g, world := w, returnCode := 0, log := [] } hcard
  have p2' := p2 (edgesOK_of_sameRules (sameRules_unmarkNodes g) hwf.2)
  unfold build
  cases hb : postOrder os fuel aTarget
      { graph := unmarkNodes g, world := w, returnCode := 0, log := [] } with
  | ret s' => exact Or.inr ⟨s', rfl⟩
  | exit e s' => exact Or.inl ⟨e, s', rfl⟩
  | outOfFuel => exact absurd hb p1
  | dangling => exact absurd hb p2'

/-- When the run started by `build` on a well-formed graph returns, exactly
the vertices reachable from the start are processed, each finished once. -/
theorem build_reach (os : OS W) {fuel : Nat} {g : Graph} {w : W} {aTarget : String} {i : Nat}
    {s' : State W} (hwf : WF g) (hfind : findNode aTarget g = some i)
    (h : build os fuel g w aTarget = .ret s') :
    (∀ v, Reach g i v → procAt s'.graph v = 1 ∧ s'.log.count (Event.finish v) = 1) ∧
    (∀ v, ¬ Reach g i v → visAt s'.graph v = 0 ∧ procAt s'.graph v = 0 ∧
      s'.log.count (Event.finish v) = 0) := by
  have hsr := sameRules_unmarkNodes g
  have hs' : Sane s' := postOrder_sane os fuel aTarget _ s' (Outcome.final_ret h)
    (sane_unmarked g w 0)
  have hx : Ext _ s' := postOrder_ext os (Outcome.final_ret h)
  have hfind' : findNode aTarget (unmarkNodes g) = some i := by
    rw [← findNode_congr hsr.names_eq]; exact hfind
  obtain ⟨hcl, hstart, hnew, hR⟩ := postOrder_visit os fuel aTarget _ s'
    (hsr.namesOK (namesOK_of_nodup hwf.1)) (closed_unmarked g) h
  have hproc01 : ∀ v, procAt s'.graph v ≠ 0 → procAt s'.graph v = 1 := by
    intro v hv
    cases hg : s'.graph[v]? with
    | none => simp [procAt, hg] at hv
    | some u =>
      rw [procAt_of_getElem? hg] at hv ⊢
      rcases (hs'.flags v u hg).2.1 with h0 | h1
      · exact absurd h0 hv
      · exact h1
  have hvp : ∀ v, visAt s'.graph v ≠ 0 → procAt s'.graph v ≠ 0 := by
    intro v hv
    rcases hnew v hv with h0 | hp
    · exact absurd (visAt_unmarked g v) h0
    · exact hp
  have hreach : ∀ v, Reach g i v → visAt s'.graph v ≠ 0 := by
    intro v hr
    induction hr with
    | base => exact hstart i hfind'
    | @step u c vu _ hu hc ih =>
      have hpu := hvp u ih
      cases hg : s'.graph[u]? with
      | none => simp [procAt, hg] at hpu
      | some u' =>
        rw [procAt_of_getElem? hg] at hpu
        obtain ⟨u0, hu0, hr0⟩ := (hsr.sr_trans hx.sameRules).getElem? hg
        rw [hu] at hu0
        cases hu0
        have he : vu.edgeList = u'.edgeList := congrArg (fun r => r.2.2.1) hr0
        exact hcl u u' hg hpu c (he ▸ hc)
  constructor
  · intro v hr
    have hp := hproc01 v (hvp v (hreach v hr))
    refine ⟨hp, ?_⟩
    rw [hs'.finished, hp]
    rfl
  · intro v hnr
    have hv0 : visAt s'.graph v = 0 := by
      by_contra hne
      refine hnr (hR (Reach g i) (edgeClosed_of_sameRules hsr (edgeClosed_reach g i)) ?_ ?_ v hne)
      · intro u hu
        rw [hfind'] at hu
        cases hu
        exact Reach.base
      · intro v' hv'
        exact absurd (visAt_unmarked g v') hv'
    have hp0 : procAt s'.graph v = 0 := by
      by_contra hne
      cases hg : s'.graph[v]? with
      | none => simp [procAt, hg] at hne
      | some u =>
        rw [procAt_of_getElem? hg] at hne
        rw [visAt_of_getElem? hg] at hv0
        obtain ⟨_, hp, hpv⟩ := hs'.flags v u hg
        rcases hp with hp | hp
        · exact hne hp
        · have := hpv hp; omega
    refine ⟨hv0, hp0, ?_⟩
    rw [hs'.finished, hp0]
    rfl

/-- C1: on a well-formed graph, the run that `build` starts from a name
present in the graph (`unmarkNodes`, then `postOrder`) either exits with a
fatal error or returns, and when it returns every vertex reachable from the
start through dependency edges has `processed = 1` and has been finished
exactly once, while every other vertex still has `visited = processed = 0`
and has not been finished.  Cycles make no difference. -/
theorem C1_reachable_processed_once (os : OS W) (fuel : Nat) (g : Graph) (w : W)
    (aTarget : String) (i : Nat) (hwf : WF g) (hfind : findNode aTarget g = some i)
    (hfuel : g.length < fuel) :
    (∃ e s', build os fuel g w aTarget = .exit e s') ∨
    (∃ s', build os fuel g w aTarget = .ret s' ∧
      (∀ v, Reach g i v → procAt s'.graph v = 1 ∧ s'.log.count (Event.finish v) = 1) ∧
      (∀ v, ¬ Reach g i v → visAt s'.graph v = 0 ∧ procAt s'.graph v = 0 ∧
        s'.log.count (Event.finish v) = 0)) := by
  rcases build_halts os w aTarget hwf hfuel with h | ⟨s', h⟩
  · exact Or.inl h
  · exact Or.inr ⟨s', h, build_reach os hwf hfind h⟩

/-! ## The order of the log -/

theorem LogAll.nil (Q : List Event → Event → Prop) : LogAll Q [] := by
  intro l1 ev l2 h
  simp at h

theorem LogAll.snoc {Q : List Event → Event → Prop} {l : List Event} {ev : Event}
    (h : LogAll Q l) (hev : Q l ev) : LogAll Q (l ++ [ev]) := by
  intro l1 ev' l2 heq
  rcases List.eq_nil_or_concat l2 with rfl | ⟨l2', x, rfl⟩
  · have := List.append_inj' heq (by simp)
    obtain ⟨h1, h2⟩ := this
    simp only [List.cons.injEq, and_true] at h2
    subst h1 h2
    exact hev
  · have heq' : l ++ [ev] = (l1 ++ ev' :: l2') ++ [x] := by
      rw [heq]; simp
    have := List.append_inj' heq' (by simp)
    exact h l1 ev' l2' this.1

theorem mem_of_countP_pos {p : Event → Bool} {l : List Event} (h : l.countP p ≠ 0) :
    ∃ ev ∈ l, p ev = true := by
  have : 0 < l.countP p := Nat.pos_of_ne_zero h
  exact List.countP_pos_iff.mp this

theorem Sane.enter_mem {s : State W} (h : Sane s) {i : Nat} (hv : visAt s.graph i ≠ 0) :
    ∃ fe, Event.enter i fe ∈ s.log := by
  have hc := h.entered i
  rw [if_neg hv] at hc
  obtain ⟨ev, hev, hp⟩ := mem_of_countP_pos (l := s.log) (p := isEnter i) (by rw [hc]; decide)
  cases ev with
  | enter t fe =>
    simp only [isEnter, beq_iff_eq] at hp
    subst hp
    exact ⟨fe, hev⟩
  | cycle _ _ => simp [isEnter] at hp
  | seen _ _ => simp [isEnter] at hp
  | cmd _ _ _ _ => simp [isEnter] at hp
  | finish _ => simp [isEnter] at hp

theorem Sane.finish_mem {s : State W} (h : Sane s) {i : Nat} (hv : procAt s.graph i ≠ 0) :
    Event.finish i ∈ s.log := by
  have hc := h.finished i
  rw [if_neg hv] at hc
  exact List.count_pos_iff.mp (by rw [hc]; decide)

theorem Sane.finish_not_mem {s : State W} (h : Sane s) {i : Nat} (hv : procAt s.graph i = 0) :
    Event.finish i ∉ s.log := by
  have hc := h.finished i
  rw [if_pos hv] at hc
  exact List.count_eq_zero.mp hc

/-- A call that returns has visited the vertex it was called for. -/
theorem postOrder_target_visited (os : OS W) {fuel : Nat} {n : String} {s s' : State W}
    {u : Nat} (h : postOrder os fuel n s = .ret s') (hfind : findNode n s.graph = some u) :
    visAt s'.graph u ≠ 0 := by
  cases fuel with
  | zero => simp [postOrder] at h
  | succ fuel =>
    simp only [postOrder, hfind] at h
    split at h
    · simp at h
    · rename_i target htg
      split at h
      · rename_i hvis
        simp only [Outcome.ret.injEq] at h
        subst h
        rw [visAt_of_getElem? htg]
        exact hvis
      · rw [Outcome.bind_eq_ret] at h
        obtain ⟨s1, h1, h⟩ := h
        obtain ⟨v', hg1, _, hv1, _⟩ := enter_final (Outcome.final_ret h1)
        have hx : Ext s1 s' := by
          rw [Outcome.bind_eq_ret] at h
          obtain ⟨s2, h2, h⟩ := h
          obtain ⟨w, w', hw, hg', hww, hl'⟩ := buildStep_final (Outcome.final_ret h)
          exact (visitEdges_ext (fun n s s' h => postOrder_ext os h) _ _ _
            (Outcome.final_ret h2)).trans (Ext.of_set hw hww hg' hl')
        apply hx.visAt_ne
        rw [hg1, visAt_set htg, if_pos rfl, hv1]
        decide

/-- When the dependency loop of `t` returns, every dependency is visited and
is either processed or has been reported by `t` as a cycle. -/
theorem visitEdges_done {self : String → State W → Outcome W} {t : Nat}
    (hext : ∀ n s s', (self n s).final? = some s' → Ext s s')
    (hvis : ∀ n s s' u, self n s = .ret s' → findNode n s.graph = some u →
      visAt s'.graph u ≠ 0) :
    ∀ (es : List Nat) (s s' : State W), NamesOK s.graph → visitEdges self t es s = .ret s' →
      ∀ d ∈ es, visAt s'.graph d ≠ 0 ∧
        (procAt s'.graph d ≠ 0 ∨ Event.cycle t d ∈ s'.log) := by
  intro es
  induction es with
  | nil => intro s s' _ _ d hd; simp at hd
  | cons c es ih =>
    intro s s' hn h d hd
    obtain ⟨child, s1, child1, target1, hch, h1, hc1, ht1, h⟩ := visitEdges_cons_ret h
    have hx1 := hext _ _ _ (Outcome.final_ret h1)
    have hxe := examine_ext c child1 ht1
    have hx2 : Ext (examine t c child1 target1 s1) s' :=
      visitEdges_ext hext es _ s' (Outcome.final_ret h)
    rcases List.mem_cons.mp hd with rfl | hd
    · have hv1 : visAt s1.graph d ≠ 0 := hvis _ _ _ d h1 (hn d child hch)
      refine ⟨hx2.visAt_ne (hxe.visAt_ne hv1), ?_⟩
      by_cases hp : child1.processed = 0
      · right
        obtain ⟨l, hl⟩ := hx2.log
        rw [hl]
        apply List.mem_append_left
        simp [examine, hp]
      · left
        apply hx2.procAt_ne
        apply hxe.procAt_ne
        rw [procAt_of_getElem? hc1]
        exact hp
    · exact ih _ s' ((hx1.trans hxe).sameRules.namesOK hn) h d hd

theorem Sane.procAt_eq_one {s : State W} (h : Sane s) {i : Nat}
    (hv : procAt s.graph i ≠ 0) : procAt s.graph i = 1 := by
  cases hg : s.graph[i]? with
  | none => simp [procAt, hg] at hv
  | some u =>
    rw [procAt_of_getElem? hg] at hv ⊢
    rcases (h.flags i u hg).2.1 with h0 | h1
    · exact absurd h0 hv
    · exact h1

theorem Sane.visAt_eq_one {s : State W} (h : Sane s) {i : Nat}
    (hv : visAt s.graph i ≠ 0) : visAt s.graph i = 1 := by
  cases hg : s.graph[i]? with
  | none => simp [visAt, hg] at hv
  | some u =>
    rw [visAt_of_getElem? hg] at hv ⊢
    rcases (h.flags i u hg).1 with h0 | h1
    · exact absurd h0 hv
    · exact h1

theorem enter_hist {os : OS W} {g : Graph} {t : Nat} {n : String} {target : VertexNode}
    {s s' : State W} (hh : Hist g s) (h : (enter os t n target s).final? = some s') :
    Hist g s' := by
  obtain ⟨_, _, _, _, _, _, _, fe, hl⟩ := enter_final h
  unfold Hist
  rw [hl]
  exact hh.snoc trivial

theorem examine_hist {g : Graph} {t c : Nat} {child target : VertexNode} {s : State W}
    (hs : Sane s) (hh : Hist g s) (hc : s.graph[c]? = some child)
    (hvis : visAt s.graph c ≠ 0) : Hist g (examine t c child target s) := by
  have hseen : child.processed ≠ 0 → Step g s.log (Event.seen t c) := by
    intro hp
    exact hs.finish_mem (by rw [procAt_of_getElem? hc]; exact hp)
  unfold examine
  split
  · rename_i hp
    unfold Hist
    refine hh.snoc ⟨hs.enter_mem hvis, hs.finish_not_mem ?_⟩
    rw [procAt_of_getElem? hc]
    exact hp
  · rename_i hp
    split
    · split
      · exact hh.snoc (hseen hp)
      · exact hh.snoc (hseen hp)
    · exact hh.snoc (hseen hp)

theorem runCmds_hist {os : OS W} {g : Graph} {t : Nat} : ∀ (cs : List String) (s s' : State W),
    Ready g t s → Hist g s → (runCmds os t cs s).final? = some s' →
      Hist g s' ∧ Ready g t s' := by
  intro cs
  induction cs with
  | nil =>
    intro s s' hr hh h
    simp only [runCmds, Outcome.final?, Option.some.injEq] at h
    subst h
    exact ⟨hh, hr⟩
  | cons c cs ih =>
    intro s s' hr hh h
    have hstep : Step g s.log (Event.cmd t c (os.system s.world c).1 s.graph) := hr
    have hr1 : ∀ s1 : State W, s1.graph = s.graph →
        s1.log = s.log ++ [Event.cmd t c (os.system s.world c).1 s.graph] → Ready g t s1 := by
      intro s1 hg hl
      obtain ⟨h1, h2, h3⟩ := hr
      refine ⟨by simp [hl, h1], by rw [hg]; exact h2, ?_⟩
      intro d hd
      obtain ⟨hv, hor⟩ := h3 d hd
      rw [hg, hl]
      refine ⟨hv, ?_⟩
      rcases hor with ⟨hp, hf⟩ | hcy
      · exact Or.inl ⟨hp, List.mem_append_left _ hf⟩
      · exact Or.inr (List.mem_append_left _ hcy)
    simp only [runCmds] at h
    split at h
    · simp only [Outcome.final?, Option.some.injEq] at h
      rw [← h]
      exact ⟨hh.snoc hstep, hr1 ⟨s.graph, (os.system s.world c).2, s.returnCode,
        s.log ++ [Event.cmd t c (os.system s.world c).1 s.graph]⟩ rfl rfl⟩
    · exact ih _ s' (hr1 ⟨s.graph, (os.system s.world c).2, 2,
        s.log ++ [Event.cmd t c (os.system s.world c).1 s.graph]⟩ rfl rfl) (hh.snoc hstep) h

theorem buildStep_hist {os : OS W} {g : Graph} {t : Nat} {n : String} {buf : Option Int}
    {s s' : State W} {w : VertexNode} (hsr : SameRules g s.graph) (hs : Sane s)
    (hh : Hist g s) (hw : s.graph[t]? = some w) (h1 : w.visited ≠ 0) (h0 : w.processed = 0)
    (hdone : ∀ d ∈ depsOf g t, visAt s.graph d ≠ 0 ∧
      (procAt s.graph d ≠ 0 ∨ Event.cycle t d ∈ s.log))
    (h : (buildStep os t n buf s).final? = some s') : Hist g s' := by
  have hready : Ready g t s := by
    refine ⟨hs.finish_not_mem (by rw [procAt_of_getElem? hw]; exact h0), hsr, ?_⟩
    intro d hd
    obtain ⟨hv, hor⟩ := hdone d hd
    refine ⟨hv, ?_⟩
    rcases hor with hp | hcy
    · exact Or.inl ⟨hs.procAt_eq_one hp, hs.finish_mem hp⟩
    · exact Or.inr hcy
  have hent : ∃ fe, Event.enter t fe ∈ s.log :=
    hs.enter_mem (by rw [visAt_of_getElem? hw]; exact h1)
  have fin : ∀ (u : VertexNode) (s3 : State W), Hist g s3 → Ready g t s3 →
      (∃ l, s3.log = s.log ++ l) → (finish t u s3).final? = some s' → Hist g s' := by
    intro u s3 hh3 hr3 hl3 hf
    simp only [finish, Outcome.final?, Option.some.injEq] at hf
    subst hf
    obtain ⟨l, hl⟩ := hl3
    obtain ⟨fe, hfe⟩ := hent
    refine hh3.snoc ⟨⟨fe, by rw [hl]; exact List.mem_append_left _ hfe⟩, ?_⟩
    intro d hd
    rcases (hr3.2.2 d hd).2 with ⟨_, hf⟩ | hcy
    · exact Or.inl hf
    · exact Or.inr hcy
  unfold buildStep at h
  rw [hw] at h
  simp only at h
  split at h
  · rw [Outcome.bind_final] at h
    rcases h with ⟨e, he⟩ | ⟨s3, h3, h⟩
    · exact (runCmds_hist _ _ _ hready hh (Outcome.final_exit he)).1
    · obtain ⟨hh3, hr3⟩ := runCmds_hist _ _ _ hready hh (Outcome.final_ret h3)
      obtain ⟨hg, hl⟩ := runCmds_final (Outcome.final_ret h3)
      rw [hg, hw] at h
      exact fin _ s3 hh3 hr3 hl h
  · exact fin _ s hh hready ⟨[], by simp⟩ h

theorem depsOf_of_getElem? {g : Graph} {t : Nat} {v : VertexNode} (hv : g[t]? = some v) :
    depsOf g t = v.edgeList := by
  simp [depsOf, hv]

theorem SameRules.depsOf_eq {g g' : Graph} (h : SameRules g g') (t : Nat) :
    depsOf g' t = depsOf g t := by
  unfold depsOf
  have := congrArg (Option.map (fun r : String × Int × List Nat × List String => r.2.2.1)) (h t)
  simp only [Option.map_map] at this
  exact congrArg (fun o => Option.getD o []) this

theorem visitEdges_hist {g : Graph} {self : String → State W → Outcome W} {t : Nat}
    (hext : ∀ n s s', (self n s).final? = some s' → Ext s s')
    (hsane : ∀ n s s', (self n s).final? = some s' → Sane s → Sane s')
    (hvis : ∀ n s s' u, self n s = .ret s' → findNode n s.graph = some u →
      visAt s'.graph u ≠ 0)
    (hhist : ∀ n s s', SameRules g s.graph → Sane s → Hist g s →
      (self n s).final? = some s' → Hist g s')
    (hn : NamesOK g) :
    ∀ (es : List Nat) (s s' : State W), SameRules g s.graph → Sane s → Hist g s →
      (visitEdges self t es s).final? = some s' → Hist g s' := by
  intro es
  induction es with
  | nil =>
    intro s s' _ _ hh h
    simp only [visitEdges, Outcome.final?, Option.some.injEq] at h
    subst h
    exact hh
  | cons c es ih =>
    intro s s' hsr hs hh h
    obtain ⟨child, hch, ⟨e, he⟩ | ⟨s1, child1, target1, h1, hc1, ht1, h⟩⟩ :=
      visitEdges_cons_final h
    · exact hhist _ _ _ hsr hs hh (Outcome.final_exit he)
    · have hx1 := hext _ _ _ (Outcome.final_ret h1)
      have hs1 := hsane _ _ _ (Outcome.final_ret h1) hs
      have hh1 := hhist _ _ _ hsr hs hh (Outcome.final_ret h1)
      have hv1 : visAt s1.graph c ≠ 0 := hvis _ _ _ c h1 (hsr.namesOK hn c child hch)
      exact ih _ s' (hsr.sr_trans (hx1.trans (examine_ext c child1 ht1)).sameRules)
        (examine_sane c child1 hs1 ht1) (examine_hist hs1 hh1 hc1 hv1) h

/-- Every call of `postOrder` keeps the log ordered. -/
theorem postOrder_hist (os : OS W) {g : Graph} (hn : NamesOK g) :
    ∀ (fuel : Nat) (n : String) (s s' : State W), SameRules g s.graph → Sane s → Hist g s →
      (postOrder os fuel n s).final? = some s' → Hist g s' := by
  intro fuel
  induction fuel with
  | zero => intro n s s' _ _ _ h; simp [postOrder, Outcome.final?] at h
  | succ fuel ih =>
    intro n s s' hsr hs hh h
    simp only [postOrder] at h
    split at h
    · simp only [Outcome.final?, Option.some.injEq] at h
      subst h; exact hh
    · rename_i t hfind
      split at h
      · simp [Outcome.final?] at h
      · rename_i target htg
        split at h
        · simp only [Outcome.final?, Option.some.injEq] at h
          subst h; exact hh
        · rename_i hvis
          simp only [ne_eq, Decidable.not_not] at hvis
          rw [Outcome.bind_final] at h
          rcases h with ⟨e, he⟩ | ⟨s1, h1, h⟩
          · exact enter_hist hh (Outcome.final_exit he)
          · have hs1 := enter_sane hs htg hvis (Outcome.final_ret h1)
            have hh1 := enter_hist (g := g) hh (Outcome.final_ret h1)
            obtain ⟨v', hg, hvv, hv1, hp, _, _, fe, hl⟩ := enter_final (Outcome.final_ret h1)
            have hx1 : Ext s s1 := Ext.of_set htg hvv hg ⟨_, hl⟩
            have hsr1 := hsr.sr_trans hx1.sameRules
            have hloop := visitEdges_hist (t := t) (fun n s s' h => postOrder_ext os h)
              (fun n s s' h => postOrder_sane os fuel n s s' h)
              (fun n s s' u h hf => postOrder_target_visited os h hf) ih hn
              target.edgeList s1
            rw [Outcome.bind_final] at h
            rcases h with ⟨e, he⟩ | ⟨s2, h2, h⟩
            · exact hloop s' hsr1 hs1 hh1 (Outcome.final_exit he)
            · have hh2 := hloop s2 hsr1 hs1 hh1 (Outcome.final_ret h2)
              have hs2 := visitEdges_sane (t := t)
                (fun n s s' h => postOrder_sane os fuel n s s' h) _ _ _
                (Outcome.final_ret h2) hs1
              obtain ⟨hx2, _, hown⟩ := visitEdges_loop (t := t)
                (fun n s s' h => postOrder_call os fuel n s s' h) _ _ _ (Outcome.final_ret h2)
              have hv1' : s1.graph[t]? = some v' := by
                rw [hg, List.getElem?_set_self (List.getElem?_eq_some.mp htg).1]
              obtain ⟨x, hx, _⟩ := hown v' hv1' (by rw [hv1]; decide)
              have hdone := visitEdges_done (t := t) (fun n s s' h => postOrder_ext os h)
                (fun n s s' u h hf => postOrder_target_visited os h hf)
                target.edgeList s1 s2 (hsr1.namesOK hn) h2
              have hdeps : depsOf g t = target.edgeList := by
                rw [← hsr.depsOf_eq t, depsOf_of_getElem? htg]
              refine buildStep_hist (hsr1.sr_trans hx2.sameRules) hs2 hh2 hx
                (by show v'.visited ≠ 0; rw [hv1]; decide)
                (by show v'.processed = 0; rw [hp]; exact hs.unvisited_unprocessed htg hvis)
                ?_ h
              rw [hdeps]
              exact hdone

/-! ## C2, C5, C6 -/

theorem edgesOK_iff (g : Graph) :
    EdgesOK g ↔ ∀ v ∈ g, ∀ c ∈ v.edgeList, c < g.length := by
  constructor
  · intro h v hv c hc
    obtain ⟨i, hi⟩ := List.getElem?_of_mem hv
    exact h i v hi c hc
  · intro h i v hv c hc
    exact h v (List.getElem?_mem hv) c hc

theorem Outcome.final_cases {o : Outcome W} {s' : State W} (h : o.final? = some s') :
    o = .ret s' ∨ ∃ e, o = .exit e s' := by
  cases o with
  | ret s => simp only [Outcome.final?, Option.some.injEq] at h; subst h; exact Or.inl rfl
  | exit e s =>
    simp only [Outcome.final?, Option.some.injEq] at h; subst h; exact Or.inr ⟨e, rfl⟩
  | outOfFuel => simp [Outcome.final?] at h
  | dangling => simp [Outcome.final?] at h

theorem hist_unmarked (g : Graph) (w : W) (rc : Int) :
    Hist g { graph := unmarkNodes g, world := w, returnCode := rc, log := [] } :=
  LogAll.nil _

/-- The log of every run started by `build` on a well-formed graph is
ordered. -/
theorem build_hist (os : OS W) {fuel : Nat} {g : Graph} {w : W} {aTarget : String}
    {s' : State W} (hwf : WF g) (h : (build os fuel g w aTarget).final? = some s') :
    Sane s' ∧ Hist g s' :=
  ⟨postOrder_sane os fuel aTarget _ s' h (sane_unmarked g w 0),
    postOrder_hist os (namesOK_of_nodup hwf.1) fuel aTarget _ s' (sameRules_unmarkNodes g)
      (sane_unmarked g w 0) (hist_unmarked g w 0) h⟩

/-- A fatal log entry of a run is its last entry, and the run exits with the
error that reports it. -/
theorem fatal_is_last (os : OS W) {fuel : Nat} {g : Graph} {w : W} {aTarget : String}
    {s' : State W} (h : (build os fuel g w aTarget).final? = some s')
    {l1 l2 : List Event} {ev : Event} (hlog : s'.log = l1 ++ ev :: l2)
    (hfat : Fatal os g ev) :
    l2 = [] ∧ ∃ e, build os fuel g w aTarget = .exit e s' ∧ Reports g e ev := by
  have htl := postOrder_TL os g fuel aTarget
    { graph := unmarkNodes g, world := w, returnCode := 0, log := [] }
    (sameRules_unmarkNodes g)
  rcases Outcome.final_cases h with hr | ⟨e, he⟩
  · obtain ⟨l, hl, hq⟩ := htl.1 s' hr
    simp only [List.nil_append] at hl
    exact absurd hfat (hq ev (by rw [← hl, hlog]; simp))
  · obtain ⟨l, hl, hq, hm⟩ := htl.2 e s' he
    simp only [List.nil_append] at hl
    have h2 : l2 = [] := by
      by_contra hne
      refine hq ev ?_ hfat
      rw [← hl, hlog, List.dropLast_append_cons, List.dropLast_cons_of_ne_nil hne]
      simp
    subst h2
    refine ⟨rfl, e, he, hm ev ?_ hfat⟩
    rw [← hl, hlog]
    simp


/-- C2 (as amended): in a run started by `build` on a well-formed graph, at
the moment a command of a vertex `t` is run, every dependency `d` of `t` has
been visited, and has `processed = 1` unless `t` has reported it as a
dependency cycle before running the command (the recursive call on `d` came
back with `d` still unprocessed: `d` is `t` itself or a vertex whose own
traversal is still in progress). -/
theorem C2_post_order (os : OS W) (fuel : Nat) (g : Graph) (w : W) (aTarget : String)
    (s' : State W) (hwf : WF g) (hfin : (build os fuel g w aTarget).final? = some s')
    (l1 l2 : List Event) (t : Nat) (c : String) (rt : Int) (pre : Graph)
    (hlog : s'.log = l1 ++ Event.cmd t c rt pre :: l2) :
    ∀ d ∈ depsOf pre t, visAt pre d ≠ 0 ∧ (procAt pre d = 1 ∨ Event.cycle t d ∈ l1) := by
  obtain ⟨_, hh⟩ := build_hist os hwf hfin
  obtain ⟨_, hsr, hd⟩ := hh l1 _ l2 hlog
  intro d hdep
  rw [hsr.depsOf_eq] at hdep
  obtain ⟨hv, hor⟩ := hd d hdep
  refine ⟨hv, ?_⟩
  rcases hor with ⟨hp, _⟩ | hcy
  · exact Or.inl hp
  · exact Or.inr hcy

theorem wf_cycleCmds : WF cycleCmds :=
  ⟨by decide, (edgesOK_iff _).mpr (by decide)⟩

theorem cycleCmds_run : build toyOS 3 cycleCmds ⟨[], 0⟩ "a" = .ret cycleCmdsDone := by
  rfl

/-- C2 at a concrete input: the build of `a: b`, `b: a` from `a`, at the
command of `b`. -/
theorem C2_post_order_witness :
    WF cycleCmds ∧ (build toyOS 3 cycleCmds ⟨[], 0⟩ "a").final? = some cycleCmdsDone ∧
    ∀ d ∈ depsOf cycleCmdsAtB 1,
      visAt cycleCmdsAtB d ≠ 0 ∧
        (procAt cycleCmdsAtB d = 1 ∨
          Event.cycle 1 d ∈ [Event.enter 0 0, Event.enter 1 0, Event.cycle 1 0]) :=
  ⟨wf_cycleCmds, Outcome.final_ret cycleCmds_run,
    C2_post_order toyOS 3 cycleCmds ⟨[], 0⟩ "a" cycleCmdsDone wf_cycleCmds
      (Outcome.final_ret cycleCmds_run) [Event.enter 0 0, Event.enter 1 0, Event.cycle 1 0]
      [Event.finish 1, Event.seen 0 1,
        Event.cmd 0 "touch a" 0
          [vtx "a" 1 0 1 0 1 0 [1] ["touch a"], vtx "b" 1 1 1 0 1 0 [0] ["touch b"]],
        Event.finish 0]
      1 "touch b" 0 cycleCmdsAtB rfl⟩

/-- C2 as stated fails: in the build of `a: b`, `b: a` from `a` with no file
present, the command of `b` is run while `a`, a dependency of `b`, has
`processed = 0`. -/
theorem C2_post_order_counterexample :
    build toyOS 3 cycleCmds ⟨[], 0⟩ "a" = .ret cycleCmdsDone ∧
    Reach cycleCmds 0 1 ∧
    Event.cmd 1 "touch b" 0 cycleCmdsAtB ∈ cycleCmdsDone.log ∧
    0 ∈ depsOf cycleCmdsAtB 1 ∧ procAt cycleCmdsAtB 0 = 0 :=
  ⟨cycleCmds_run, Reach.step (u := 0) (x := mkVertex "a" 1 [1] ["touch a"]) Reach.base rfl
    (by decide), by decide, by decide, by decide⟩


theorem appMain_run (os : OS W) (w : W) (cs : List String) (h : os.stat w "main.o" = none) :
    ∃ s', build os 3 (appMain cs) w "app" = .exit (Err.noFile "main.o") s' ∧
      cmdsOf s'.log = [] ∧ procAt s'.graph 1 = 0 := by
  cases hA : os.stat w "app" <;>
    simp [build, postOrder, appMain, mkVertex, unmarkNodes, findNode, enter, hA, h,
      Outcome.bind, visitEdges, cmdsOf, procAt]

/-- C5: a missing prerequisite is fatal.  In a run started by `build` on a
well-formed graph, if the log shows that a vertex `t` with `isTarget = 0` was
entered and its file did not exist, then that entry is the last thing the
run did (no command is run afterwards), the run exits with the error that
names `t`, and `t` is not marked processed and has never been finished.  In
particular, when `main.o` has neither a rule nor a file, the build of
`app: main.o` from `app` exits with that error before any command runs,
whatever the commands of `app` are. -/
theorem C5_missing_prerequisite_fatal (os : OS W) (fuel : Nat) (g : Graph) (w : W)
    (aTarget : String) (s' : State W) (hwf : WF g)
    (hfin : (build os fuel g w aTarget).final? = some s')
    (l1 l2 : List Event) (t : Nat) (hlog : s'.log = l1 ++ Event.enter t 0 :: l2)
    (hnt : (g[t]?).map (·.isTarget) = some 0) :
    l2 = [] ∧
    (∃ n, (g[t]?).map (·.name) = some n ∧
      build os fuel g w aTarget = .exit (Err.noFile n) s') ∧
    procAt s'.graph t = 0 ∧ Event.finish t ∉ s'.log ∧
    (∀ (cs : List String), os.stat w "main.o" = none →
      ∃ s1, build os 3 (appMain cs) w "app" = .exit (Err.noFile "main.o") s1 ∧
        cmdsOf s1.log = [] ∧ procAt s1.graph 1 = 0) := by
  obtain ⟨h2, e, he, hrep⟩ := fatal_is_last os hfin hlog (Or.inl ⟨rfl, hnt⟩)
  subst h2
  obtain ⟨hs', hh⟩ := build_hist os hwf hfin
  have hnf : Event.finish t ∉ s'.log := by
    intro hmem
    rw [hlog] at hmem
    simp only [List.mem_append, List.mem_singleton] at hmem
    rcases hmem with hmem | hmem
    · obtain ⟨a, b, hab⟩ := List.append_of_mem hmem
      have hstep := hh a (Event.finish t) (b ++ [Event.enter t 0])
        (by rw [hlog, hab]; simp)
      obtain ⟨⟨fe, hfe⟩, _⟩ := hstep
      have hle : s'.log.countP (isEnter t) ≤ 1 := by
        rw [hs'.entered]; split <;> omega
      obtain ⟨a1, a2, ha⟩ := List.append_of_mem hfe
      rw [hlog, hab, ha] at hle
      simp only [List.countP_append, List.countP_cons, List.countP_nil, isEnter,
        beq_self_eq_true, if_true] at hle
      omega
    · cases hmem
  refine ⟨rfl, ?_, ?_, hnf, fun cs h => appMain_run os w cs h⟩
  · cases e with
    | noTarget n => simp [Reports] at hrep
    | noFile n => exact ⟨n, hrep, he⟩
    | cmdFailed c => simp [Reports] at hrep
  · by_contra hp
    exact hnf (hs'.finish_mem hp)

/-- C6: a failed command is fatal.  In a run started by `build`, if the log
shows a command whose `system` call returned -1 or a non-zero exit status,
then that call is the last thing the run did: no later command of the same
vertex and no command of any other vertex is run, the failed command is the
last element of the list of the commands run, and the run exits with the
error that names it. -/
theorem C6_command_failure_fatal (os : OS W) (fuel : Nat) (g : Graph) (w : W)
    (aTarget : String) (s' : State W)
    (hfin : (build os fuel g w aTarget).final? = some s')
    (l1 l2 : List Event) (t : Nat) (c : String) (rt : Int) (pre : Graph)
    (hlog : s'.log = l1 ++ Event.cmd t c rt pre :: l2)
    (hfail : rt = -1 ∨ os.WEXITSTATUS rt ≠ 0) :
    l2 = [] ∧ build os fuel g w aTarget = .exit (Err.cmdFailed c) s' ∧
      (cmdsOf s'.log).getLast? = some c := by
  obtain ⟨h2, e, he, hrep⟩ := fatal_is_last os hfin hlog (Or.inr hfail)
  subst h2
  refine ⟨rfl, ?_, ?_⟩
  · cases e with
    | noTarget n => simp [Reports] at hrep
    | noFile n => simp [Reports] at hrep
    | cmdFailed c' =>
      simp only [Reports] at hrep
      subst hrep
      exact he
  · rw [hlog, cmdsOf_append]
    simp [cmdsOf]


theorem wf_appMain : WF (appMain ["touch app"]) :=
  ⟨by decide, (edgesOK_iff _).mpr (by decide)⟩

theorem appMainExit_run :
    build toyOS 3 (appMain ["touch app"]) ⟨[], 0⟩ "app" =
      .exit (Err.noFile "main.o") appMainExit := by
  rfl

/-- C5 at a concrete input: `app: main.o` with the command `touch app`, no
file present; the vertex `main.o` is at position 1. -/
theorem C5_missing_prerequisite_fatal_witness :
    WF (appMain ["touch app"]) ∧
    (build toyOS 3 (appMain ["touch app"]) ⟨[], 0⟩ "app").final? = some appMainExit ∧
    appMainExit.log = [Event.enter 0 0] ++ Event.enter 1 0 :: [] ∧
    ((appMain ["touch app"])[1]?).map (·.isTarget) = some 0 ∧
    procAt appMainExit.graph 1 = 0 ∧ Event.finish 1 ∉ appMainExit.log :=
  ⟨wf_appMain, Outcome.final_exit appMainExit_run, rfl, rfl,
    (C5_missing_prerequisite_fatal toyOS 3 (appMain ["touch app"]) ⟨[], 0⟩ "app" appMainExit
      wf_appMain (Outcome.final_exit appMainExit_run) [Event.enter 0 0] [] 1 rfl rfl).2.2.1,
    (C5_missing_prerequisite_fatal toyOS 3 (appMain ["touch app"]) ⟨[], 0⟩ "app" appMainExit
      wf_appMain (Outcome.final_exit appMainExit_run) [Event.enter 0 0] [] 1 rfl rfl).2.2.2.1⟩

theorem appFailsExit_run :
    build toyOS 2 appFails ⟨[], 0⟩ "app" = .exit (Err.cmdFailed "false") appFailsExit := by
  rfl

/-- C6 at a concrete input: the first command of `app` is `false`, which
exits with status 1; the second command is never run. -/
theorem C6_command_failure_fatal_witness :
    (build toyOS 2 appFails ⟨[], 0⟩ "app").final? = some appFailsExit ∧
    ((256 : Int) = -1 ∨ toyOS.WEXITSTATUS 256 ≠ 0) ∧
    build toyOS 2 appFails ⟨[], 0⟩ "app" = .exit (Err.cmdFailed "false") appFailsExit ∧
    (cmdsOf appFailsExit.log).getLast? = some "false" :=
  ⟨Outcome.final_exit appFailsExit_run, by decide,
    (C6_command_failure_fatal toyOS 2 appFails ⟨[], 0⟩ "app" appFailsExit
      (Outcome.final_exit appFailsExit_run) [Event.enter 0 0] [] 0 "false" 256
      [vtx "app" 1 0 1 0 1 0 [] ["false", "touch app"]] rfl (by decide)).2⟩

theorem wf_appUtil : WF appUtil :=
  ⟨by decide, (edgesOK_iff _).mpr (by decide)⟩

/-- C1 at a concrete input: the build of `app: util` from `app`. -/
theorem C1_reachable_processed_once_witness :
    WF appUtil ∧ findNode "app" appUtil = some 0 ∧ appUtil.length < 3 ∧
    ((∃ e s', build toyOS 3 appUtil ⟨[], 10⟩ "app" = .exit e s') ∨
    (∃ s', build toyOS 3 appUtil ⟨[], 10⟩ "app" = .ret s' ∧
      (∀ v, Reach appUtil 0 v → procAt s'.graph v = 1 ∧ s'.log.count (Event.finish v) = 1) ∧
      (∀ v, ¬ Reach appUtil 0 v → visAt s'.graph v = 0 ∧ procAt s'.graph v = 0 ∧
        s'.log.count (Event.finish v) = 0))) :=
  ⟨wf_appUtil, by decide, by decide,
    C1_reachable_processed_once toyOS 3 appUtil ⟨[], 10⟩ "app" 0 wf_appUtil (by decide)
      (by decide)⟩

/-! ## Invariants of the states of a run -/

/-- Induction over the calls of `postOrder` that return, for a property of
states that every piece of the function preserves.  The pieces may assume
that flags and log agree, that the vertex entered is unvisited, and that the
vertex whose dependencies are examined or whose commands are run is visited
and not processed. -/
theorem postOrder_inv_induct (os : OS W) (Inv : State W → Prop)
    (henter : ∀ t n target s s1, Sane s → Inv s → s.graph[t]? = some target →
      target.visited = 0 → target.name = n → enter os t n target s = .ret s1 → Inv s1)
    (hexam : ∀ t c child target s, Sane s → Inv s → s.graph[t]? = some target →
      s.graph[c]? = some child → target.visited ≠ 0 → target.processed = 0 →
      Inv (examine t c child target s))
    (hbuild : ∀ t n buf s s' w, Sane s → Inv s → s.graph[t]? = some w → w.visited ≠ 0 →
      w.processed = 0 → w.name = n → buildStep os t n buf s = .ret s' → Inv s') :
    ∀ (fuel : Nat) (n : String) (s s' : State W), Sane s → Inv s →
      postOrder os fuel n s = .ret s' → Inv s' := by
  intro fuel
  induction fuel with
  | zero => intro n s s' _ _ h; simp [postOrder] at h
  | succ fuel ih =>
    have loop : ∀ (t : Nat) (es : List Nat) (s s' : State W) (v : VertexNode), Sane s → Inv s →
        s.graph[t]? = some v → v.visited ≠ 0 → v.processed = 0 →
        visitEdges (postOrder os fuel) t es s = .ret s' → Inv s' := by
      intro t es
      induction es with
      | nil =>
        intro s s' v _ hi _ _ _ h
        simp only [visitEdges, Outcome.ret.injEq] at h
        subst h
        exact hi
      | cons c es ihes =>
        intro s s' v hs hi hv hvis hproc h
        obtain ⟨child, s1, child1, target1, _, h1, hc1, ht1, h⟩ := visitEdges_cons_ret h
        have hs1 := postOrder_sane os fuel _ s s1 (Outcome.final_ret h1) hs
        have hi1 := ih _ s s1 hs hi h1
        have hv1 := postOrder_unt os (Outcome.final_ret h1) t v hv hvis
        have heq : target1 = v := Option.some.inj (ht1.symm.trans hv1)
        have hvis1 : target1.visited ≠ 0 := by rw [heq]; exact hvis
        have hproc1 : target1.processed = 0 := by rw [heq]; exact hproc
        obtain ⟨_, _, _, x, hg, _⟩ := examine_spec t c child1 target1 s1 ht1
        refine ihes _ s' { target1 with toBuild := x } (examine_sane c child1 hs1 ht1)
          (hexam t c child1 target1 s1 hs1 hi1 ht1 hc1 hvis1 hproc1) ?_ hvis1 hproc1 h
        rw [hg, List.getElem?_set_self (List.getElem?_eq_some.mp ht1).1]
    intro n s s' hs hi h
    simp only [postOrder] at h
    split at h
    · simp at h
    · rename_i t hfind
      split at h
      · simp at h
      · rename_i target htg
        split at h
        · simp only [Outcome.ret.injEq] at h
          subst h
          exact hi
        · rename_i hvis
          simp only [ne_eq, Decidable.not_not] at hvis
          rw [Outcome.bind_eq_ret] at h
          obtain ⟨s1, h1, h⟩ := h
          rw [Outcome.bind_eq_ret] at h
          obtain ⟨s2, h2, h⟩ := h
          have hn : target.name = n := by
            obtain ⟨v, hv, hvn⟩ := findNode_some hfind
            rw [htg] at hv; cases hv; exact hvn
          obtain ⟨v', hg, hvv, hv1, hp, _, _, fe, hl⟩ := enter_final (Outcome.final_ret h1)
          have hs1 := enter_sane hs htg hvis (Outcome.final_ret h1)
          have hi1 := henter t n target s s1 hs hi htg hvis hn h1
          have hv1' : s1.graph[t]? = some v' := by
            rw [hg, List.getElem?_set_self (List.getElem?_eq_some.mp htg).1]
          have hp0 : v'.processed = 0 := by rw [hp]; exact hs.unvisited_unprocessed htg hvis
          have hvis1 : v'.visited ≠ 0 := by rw [hv1]; decide
          have hs2 := visitEdges_sane (t := t)
            (fun n s s' h => postOrder_sane os fuel n s s' h) _ _ _ (Outcome.final_ret h2) hs1
          have hi2 := loop t _ s1 s2 v' hs1 hi1 hv1' hvis1 hp0 h2
          obtain ⟨_, _, hown⟩ := visitEdges_loop (t := t)
            (fun n s s' h => postOrder_call os fuel n s s' h) _ _ _ (Outcome.final_ret h2)
          obtain ⟨x, hx, _⟩ := hown v' hv1' hvis1
          exact hbuild t n _ s2 s' _ hs2 hi2 hx hvis1 hp0 (by show v'.name = n; rw [hvv.name, hn]) h

/-! ## C8: nothing to do -/

theorem Calm.set_vertex {w : W} {m : Nat → Int} {R : Nat → Prop} {s s' : State W} {t : Nat}
    {v' : VertexNode} (h : Calm w m R s) (hg : s'.graph = s.graph.set t v')
    (hw : s'.world = s.world) (hl : cmdsOf s'.log = cmdsOf s.log)
    (hv' : v'.toBuild = 0 ∧ (v'.visited ≠ 0 → R t ∧ v'.fileExists = 1 ∧ v'.fileDate = m t)) :
    Calm w m R s' := by
  refine ⟨hw.trans h.1, hl.trans h.2.1, ?_⟩
  intro v u hu
  rw [hg] at hu
  by_cases hi : t = v
  · subst hi
    by_cases hlt : t < s.graph.length
    · rw [List.getElem?_set_self hlt] at hu
      cases hu
      exact hv'
    · rw [List.getElem?_eq_none (by simpa using hlt)] at hu
      cases hu
  · rw [List.getElem?_set_ne hi] at hu
    exact h.2.2 v u hu

theorem Calm.same_vertices {w : W} {m : Nat → Int} {R : Nat → Prop} {s s' : State W}
    (h : Calm w m R s) (hg : s'.graph = s.graph)
    (hw : s'.world = s.world) (hl : cmdsOf s'.log = cmdsOf s.log) : Calm w m R s' :=
  ⟨hw.trans h.1, hl.trans h.2.1, by rw [hg]; exact h.2.2⟩

/-- The dependency loop of `t` in a calm state, when no dependency is newer
than `t`: it returns, in a calm state. -/
theorem visitEdges_calm {g : Graph} {w : W} {m : Nat → Int} {R : Nat → Prop}
    {self : String → State W → Outcome W} {t : Nat} (hn : NamesOK g)
    (hext : ∀ n s s', (self n s).final? = some s' → Ext s s')
    (hvis : ∀ n s s' u, self n s = .ret s' → findNode n s.graph = some u →
      visAt s'.graph u ≠ 0)
    (hself : ∀ n s u, SameRules g s.graph → Calm w m R s → findNode n s.graph = some u →
      R u → ∀ s', (self n s).final? = some s' → self n s = .ret s' ∧ Calm w m R s') :
    ∀ (es : List Nat) (s : State W), SameRules g s.graph → Calm w m R s →
      visAt s.graph t ≠ 0 → (∀ c ∈ es, R c ∧ m c ≤ m t) →
      ∀ s', (visitEdges self t es s).final? = some s' →
        visitEdges self t es s = .ret s' ∧ Calm w m R s' := by
  intro es
  induction es with
  | nil =>
    intro s _ hc _ _ s' h
    simp only [visitEdges, Outcome.final?, Option.some.injEq] at h
    subst h
    exact ⟨rfl, hc⟩
  | cons c es ih =>
    intro s hsr hc hvt hes s' h
    obtain ⟨child, hch, ⟨e, he⟩ | ⟨s1, child1, target1, h1, hc1, ht1, h⟩⟩ :=
      visitEdges_cons_final h
    · have hfc := hsr.namesOK hn c child hch
      have := (hself _ s c hsr hc hfc (hes c (List.mem_cons_self _ _)).1 s'
        (Outcome.final_exit he)).1
      rw [he] at this
      cases this
    · have hfc := hsr.namesOK hn c child hch
      obtain ⟨_, hc1'⟩ := hself _ s c hsr hc hfc (hes c (List.mem_cons_self _ _)).1 s1
        (Outcome.final_ret h1)
      have hx1 := hext _ _ _ (Outcome.final_ret h1)
      have hvc : child1.visited ≠ 0 := by
        have := hvis _ _ _ c h1 hfc
        rwa [visAt_of_getElem? hc1] at this
      have hvt1 : target1.visited ≠ 0 := by
        have := hx1.visAt_ne hvt
        rwa [visAt_of_getElem? ht1] at this
      obtain ⟨htb, htf⟩ := hc1'.2.2 t target1 ht1
      obtain ⟨_, hcf⟩ := hc1'.2.2 c child1 hc1
      obtain ⟨_, hce, hcd⟩ := hcf hvc
      obtain ⟨_, _, htd⟩ := htf hvt1
      have hle := (hes c (List.mem_cons_self _ _)).2
      have hcond : ¬ (child1.fileExists = 0 ∨ child1.fileDate > target1.fileDate) := by
        rw [hce, hcd, htd]
        intro h
        rcases h with h | h
        · exact absurd h (by decide)
        · omega
      have hex : (examine t c child1 target1 s1).graph = s1.graph ∧
          (examine t c child1 target1 s1).world = s1.world ∧
          cmdsOf (examine t c child1 target1 s1).log = cmdsOf s1.log := by
        by_cases hp : child1.processed = 0
        · simp [examine, hp, cmdsOf_append, cmdsOf]
        · by_cases htb0 : target1.toBuild = 0
          · simp [examine, hp, htb0, hcond, cmdsOf_append, cmdsOf]
          · simp [examine, hp, htb0, cmdsOf_append, cmdsOf]
      have hxe := examine_ext c child1 ht1
      have hcx : Calm w m R (examine t c child1 target1 s1) :=
        hc1'.same_vertices hex.1 hex.2.1 hex.2.2
      obtain ⟨hr, hcs'⟩ := ih _ (hsr.sr_trans (hx1.trans hxe).sameRules) hcx
        ((hx1.trans hxe).visAt_ne hvt)
        (fun c' hc' => hes c' (List.mem_cons_of_mem _ hc')) s' h
      refine ⟨?_, hcs'⟩
      simp only [visitEdges, hch, h1, Outcome.bind, hc1, ht1]
      exact hr


/-- A call of `postOrder` from a calm state, on a vertex of a set `R` that is
closed under edges, all of whose files exist with time stamps `m` such that
no dependency is newer than its dependent: the call returns, in a calm
state. -/
theorem postOrder_calm (os : OS W) {g : Graph} {w : W} {m : Nat → Int} {R : Nat → Prop}
    (hn : NamesOK g) (hR : EdgeClosed g R)
    (hfiles : ∀ v u, R v → g[v]? = some u → os.stat w u.name = some (m v))
    (hnewer : ∀ v u d, R v → g[v]? = some u → d ∈ u.edgeList → m d ≤ m v) :
    ∀ (fuel : Nat) (n : String) (s : State W) (t : Nat), SameRules g s.graph →
      Calm w m R s → findNode n s.graph = some t → R t →
      ∀ s', (postOrder os fuel n s).final? = some s' →
        postOrder os fuel n s = .ret s' ∧ Calm w m R s' := by
  intro fuel
  induction fuel with
  | zero => intro n s t _ _ _ _ s' h; simp [postOrder, Outcome.final?] at h
  | succ fuel ih =>
    intro n s t hsr hc hfind hRt s' h
    obtain ⟨target, htg, hname⟩ := findNode_some hfind
    obtain ⟨u, hu, hrule⟩ := hsr.getElem? htg
    have hun : u.name = n := (congrArg (fun r => r.1) hrule).trans hname
    have hue : u.edgeList = target.edgeList := congrArg (fun r => r.2.2.1) hrule
    by_cases hvis : target.visited ≠ 0
    · have hpo := postOrder_visited os fuel hfind htg hvis
      rw [hpo] at h ⊢
      simp only [Outcome.final?, Option.some.injEq] at h
      subst h
      exact ⟨rfl, hc⟩
    · have hstat : os.stat s.world n = some (m t) := by
        rw [hc.1, ← hun]; exact hfiles t u hRt hu
      have hent : enter os t n target s = .ret
          { s with graph := s.graph.set t
                     { target with visited := 1, fileExists := 1, fileDate := m t },
                   log := s.log ++ [Event.enter t 1] } := by
        simp [enter, hstat]
      have htb := (hc.2.2 t target htg).1
      have hc1 : Calm w m R
          { s with graph := s.graph.set t
                     { target with visited := 1, fileExists := 1, fileDate := m t },
                   log := s.log ++ [Event.enter t 1] } :=
        hc.set_vertex rfl rfl (by simp [cmdsOf_append, cmdsOf]) ⟨htb, fun _ => ⟨hRt, rfl, rfl⟩⟩
      have hx1 : Ext s
          { s with graph := s.graph.set t
                     { target with visited := 1, fileExists := 1, fileDate := m t },
                   log := s.log ++ [Event.enter t 1] } := Ext.of_set htg
        (VExt.mk rfl rfl rfl rfl (by simp) id id :
          VExt target { target with visited := 1, fileExists := 1, fileDate := m t })
        rfl ⟨[Event.enter t 1], rfl⟩
      have hv1 : visAt (s.graph.set t
          { target with visited := 1, fileExists := 1, fileDate := m t }) t ≠ 0 := by
        rw [visAt_set htg, if_pos rfl]; simp
      have hloop := visitEdges_calm (t := t) hn (fun n s s' h => postOrder_ext os h)
        (fun n s s' u h hf => postOrder_target_visited os h hf) ih target.edgeList _
        (hsr.sr_trans hx1.sameRules) hc1 hv1
        (fun c hcm => ⟨hR t u hu hRt c (hue ▸ hcm), hnewer t u c hRt hu (hue ▸ hcm)⟩)
      simp only [postOrder, hfind, htg, hvis, if_false, hent, Outcome.bind] at h ⊢
      cases hve : visitEdges (postOrder os fuel) t target.edgeList
          { s with graph := s.graph.set t
                     { target with visited := 1, fileExists := 1, fileDate := m t },
                   log := s.log ++ [Event.enter t 1] } with
      | ret s2 =>
        obtain ⟨_, hc2⟩ := hloop s2 (by rw [hve]; rfl)
        rw [hve] at h
        simp only [Outcome.bind] at h ⊢
        obtain ⟨w2, w2', hw2, hg', hww, hl'⟩ := buildStep_final h
        have htb2 := (hc2.2.2 t w2 hw2).1
        have hbs : buildStep os t n (statBuf os s.world n target.edgeList) s2 =
            finish t w2 s2 := by
          simp [buildStep, hw2, htb2]
        rw [hbs] at h ⊢
        simp only [finish, Outcome.final?, Option.some.injEq] at h
        subst h
        refine ⟨rfl, hc2.set_vertex rfl rfl (by simp [cmdsOf_append, cmdsOf]) ⟨htb2, ?_⟩⟩
        intro hv
        exact (hc2.2.2 t w2 hw2).2 hv
      | exit e s2 =>
        have := (hloop s2 (by rw [hve]; rfl)).1
        rw [hve] at this
        cases this
      | outOfFuel => rw [hve] at h; simp [Outcome.bind, Outcome.final?] at h
      | dangling => rw [hve] at h; simp [Outcome.bind, Outcome.final?] at h

theorem calm_unmarked (g : Graph) (w : W) (m : Nat → Int) (R : Nat → Prop) (rc : Int) :
    Calm w m R { graph := unmarkNodes g, world := w, returnCode := rc, log := [] } := by
  refine ⟨rfl, rfl, ?_⟩
  intro v u hu
  simp only [unmarkNodes, List.getElem?_map, Option.map_eq_some'] at hu
  obtain ⟨u0, _, rfl⟩ := hu
  simp

/-- C8: an up-to-date build.  On a well-formed graph in which the file of
every vertex reachable from the start exists and, along every edge from a
reachable vertex to a dependency, the dependency is not strictly newer, the
run started by `build` returns 0, runs no command, leaves the world as it
was, and marks every reachable vertex processed with `toBuild = 0`. -/
theorem C8_up_to_date (os : OS W) (fuel : Nat) (g : Graph) (w : W) (aTarget : String)
    (i : Nat) (m : Nat → Int) (hwf : WF g) (hfind : findNode aTarget g = some i)
    (hfuel : g.length < fuel)
    (hfiles : ∀ v u, Reach g i v → g[v]? = some u → os.stat w u.name = some (m v))
    (hnewer : ∀ v u d, Reach g i v → g[v]? = some u → d ∈ u.edgeList → m d ≤ m v) :
    ∃ s', build os fuel g w aTarget = .ret s' ∧ cmdsOf s'.log = [] ∧ s'.returnCode = 0 ∧
      s'.world = w ∧
      ∀ v, Reach g i v → procAt s'.graph v = 1 ∧ toBuildAt s'.graph v = 0 := by
  have hsr := sameRules_unmarkNodes g
  have hfind' : findNode aTarget (unmarkNodes g) = some i := by
    rw [← findNode_congr hsr.names_eq]; exact hfind
  have hfin : ∃ s', (build os fuel g w aTarget).final? = some s' := by
    rcases build_halts os w aTarget hwf hfuel with ⟨e, s', h⟩ | ⟨s', h⟩
    · exact ⟨s', Outcome.final_exit h⟩
    · exact ⟨s', Outcome.final_ret h⟩
  obtain ⟨s', hs'⟩ := hfin
  obtain ⟨hret, hcalm⟩ := postOrder_calm os (namesOK_of_nodup hwf.1) (edgeClosed_reach g i)
    hfiles hnewer fuel aTarget _ i hsr (calm_unmarked g w m (Reach g i) 0) hfind' Reach.base
    s' hs'
  have hret' : build os fuel g w aTarget = .ret s' := hret
  refine ⟨s', hret', hcalm.2.1, ?_, hcalm.1, ?_⟩
  · obtain ⟨l, hl, hrc⟩ := postOrder_rc os hret
    simp only [List.nil_append] at hl
    subst hl
    rw [hrc, if_pos hcalm.2.1]
  · intro v hv
    refine ⟨((build_reach os hwf hfind hret').1 v hv).1, ?_⟩
    unfold toBuildAt
    cases hg : s'.graph[v]? with
    | none => rfl
    | some u => exact (hcalm.2.2 v u hg).1

theorem wf_appSrc : WF appSrc :=
  ⟨by decide, (edgesOK_iff _).mpr (by decide)⟩

/-- C8 at a concrete input: `app` (time stamp 7) depends on `main.c` (time
stamp 3), both files exist. -/
theorem C8_up_to_date_witness :
    WF appSrc ∧ findNode "app" appSrc = some 0 ∧ appSrc.length < 3 ∧
    ∃ s', build toyOS 3 appSrc ⟨[("app", 7), ("main.c", 3)], 10⟩ "app" = .ret s' ∧
      cmdsOf s'.log = [] ∧ s'.returnCode = 0 ∧
      s'.world = ⟨[("app", 7), ("main.c", 3)], 10⟩ ∧
      ∀ v, Reach appSrc 0 v → procAt s'.graph v = 1 ∧ toBuildAt s'.graph v = 0 :=
  ⟨wf_appSrc, by decide, by decide,
    C8_up_to_date toyOS 3 appSrc ⟨[("app", 7), ("main.c", 3)], 10⟩ "app" 0
      (fun v => if v = 0 then 7 else 3) wf_appSrc (by decide) (by decide)
      (by
        intro v u _ hu
        match v, hu with
        | 0, hu => cases hu; rfl
        | 1, hu => cases hu; rfl
        | n + 2, hu => cases hu)
      (by
        intro v u d _ hu hd
        match v, hu with
        | 0, hu =>
          have he : u.edgeList = [1] := by cases hu; rfl
          rw [he, List.mem_singleton] at hd
          subst hd
          decide
        | 1, hu =>
          have he : u.edgeList = [] := by cases hu; rfl
          rw [he] at hd
          cases hd
        | n + 2, hu => cases hu)⟩

/-! ## C3: staleness of a vertex with a stale or newer dependency -/

theorem cycleDT_run : build toyOS 3 cycleDT ⟨[("t", 5)], 10⟩ "d" = .ret cycleDTDone := by
  rfl

theorem toBuildAt_of_getElem? {g : Graph} {i : Nat} {v : VertexNode} (hv : g[i]? = some v) :
    toBuildAt g i = v.toBuild := by
  simp [toBuildAt, hv]

theorem fileExistsAt_of_getElem? {g : Graph} {i : Nat} {v : VertexNode} (hv : g[i]? = some v) :
    fileExistsAt g i = v.fileExists := by
  simp [fileExistsAt, hv]

theorem fileDateAt_of_getElem? {g : Graph} {i : Nat} {v : VertexNode} (hv : g[i]? = some v) :
    fileDateAt g i = v.fileDate := by
  simp [fileDateAt, hv]

/-- Examining a processed child whose file is recorded as missing, or as
newer than the file of `t`, leaves `t` marked stale. -/
theorem examine_stale (t c : Nat) {child target : VertexNode} (s : State W)
    (ht : s.graph[t]? = some target) (hp : child.processed ≠ 0)
    (hcond : child.fileExists = 0 ∨ child.fileDate > target.fileDate) :
    ∃ x, (examine t c child target s).graph[t]? = some { target with toBuild := x } ∧
      x ≠ 0 := by
  have hlt := (List.getElem?_eq_some.mp ht).1
  by_cases htb : target.toBuild = 0
  · refine ⟨1, ?_, by decide⟩
    simp [examine, hp, htb, hcond, List.getElem?_set_self hlt]
  · refine ⟨target.toBuild, ?_, htb⟩
    simp [examine, hp, htb, ht]

/-- The dependency loop of the visited vertex `t`, whose recorded time stamp
is `fd`: if a dependency other than `t` ends processed, with its file
recorded as missing or as newer than `fd`, then `t` ends marked stale. -/
theorem visitEdges_stale {self : String → State W → Outcome W} {t : Nat} {fd : Int}
    (hself : ∀ n s s', (self n s).final? = some s' → Ext s s' ∧ Unt s s')
    (hvis : ∀ n s s' u, self n s = .ret s' → findNode n s.graph = some u →
      visAt s'.graph u ≠ 0) :
    ∀ (es : List Nat) (s s' : State W) (v : VertexNode), NamesOK s.graph →
      s.graph[t]? = some v → v.visited ≠ 0 → v.fileDate = fd →
      visitEdges self t es s = .ret s' →
      ∀ d ∈ es, d ≠ t → ∀ D, s'.graph[d]? = some D → D.processed ≠ 0 →
        (D.fileExists = 0 ∨ D.fileDate > fd) → toBuildAt s'.graph t ≠ 0 := by
  intro es
  induction es with
  | nil => intro s s' v _ _ _ _ _ d hd; simp at hd
  | cons c es ih =>
    intro s s' v hn hv hvv hfd h d hd hdt D hD hDp hcond
    obtain ⟨child, s1, child1, target1, hch, h1, hc1, ht1, h⟩ := visitEdges_cons_ret h
    obtain ⟨hx1, hu1⟩ := hself _ _ _ (Outcome.final_ret h1)
    have heq : target1 = v := Option.some.inj (ht1.symm.trans (hu1 t v hv hvv))
    subst heq
    have hxe := examine_ext c child1 ht1
    obtain ⟨hx2, hub2, hown2⟩ := visitEdges_loop hself es _ s' (Outcome.final_ret h)
    obtain ⟨_, _, _, x, hgx, hxor⟩ := examine_spec t c child1 target1 s1 ht1
    have htx : (examine t c child1 target1 s1).graph[t]? = some { target1 with toBuild := x } := by
      rw [hgx, List.getElem?_set_self (List.getElem?_eq_some.mp ht1).1]
    rcases List.mem_cons.mp hd with rfl | hd
    · have hvc : child1.visited ≠ 0 := by
        have := hvis _ _ _ d h1 (hn d child hch)
        rwa [visAt_of_getElem? hc1] at this
      have hcx : (examine t d child1 target1 s1).graph[d]? = some child1 := by
        rw [examine_onlyAt d child1 ht1 d hdt]; exact hc1
      have hD' := hub2 d child1 hdt hcx hvc
      rw [hD] at hD'
      cases hD'
      obtain ⟨y, hy, hy0⟩ := examine_stale t d s1 ht1 hDp (hfd ▸ hcond)
      obtain ⟨z, hz, hzor⟩ := hown2 _ hy hvv
      rw [toBuildAt_of_getElem? hz]
      simp only at hzor
      rcases hzor with rfl | ⟨h0, _⟩
      · exact hy0
      · exact absurd h0 hy0
    · exact ih _ s' _ ((hx1.trans hxe).sameRules.namesOK hn) htx hvv hfd h d hd hdt D hD hDp hcond


theorem enter_ret_date {os : OS W} {t : Nat} {n : String} {target : VertexNode}
    {s s1 : State W} (ht : s.graph[t]? = some target) (h : enter os t n target s = .ret s1) :
    ∃ v1, s1.graph[t]? = some v1 ∧ v1.visited = 1 ∧
      v1.fileDate = (os.stat s.world n).getD 0 := by
  have hlt := (List.getElem?_eq_some.mp ht).1
  unfold enter at h
  split at h
  · rename_i m hm
    simp only [Outcome.ret.injEq] at h
    subst h
    exact ⟨_, List.getElem?_set_self hlt, rfl, by simp [hm]⟩
  · rename_i hm
    split at h
    · simp at h
    · simp only [Outcome.ret.injEq] at h
      subst h
      exact ⟨_, List.getElem?_set_self hlt, rfl, by simp [hm]⟩

/-- C3 (as amended): when the call of `postOrder` that enters a vertex `t`
returns, `t` is processed, and `t` is marked stale (`toBuild` non-zero)
whenever some dependency `d` of `t`, other than `t` itself, is processed and
has its file recorded as missing (`fileExists = 0`) or with a time stamp
strictly greater than the one recorded for `t` on entry (the modification
time of the file of `t`, or 0 if it does not exist).  A dependency that came
back unprocessed (a dependency cycle) is not compared, and `toBuild` of a
dependency does not by itself make `t` stale. -/
theorem C3_staleness (os : OS W) (fuel : Nat) (n : String) (s s' : State W) (t : Nat)
    (target : VertexNode) (hn : NamesOK s.graph) (hfind : findNode n s.graph = some t)
    (htg : s.graph[t]? = some target) (hvis : target.visited = 0)
    (hret : postOrder os (fuel + 1) n s = .ret s') :
    procAt s'.graph t = 1 ∧
    ∀ d ∈ target.edgeList, d ≠ t → procAt s'.graph d ≠ 0 →
      (fileExistsAt s'.graph d = 0 ∨ fileDateAt s'.graph d > (os.stat s.world n).getD 0) →
      toBuildAt s'.graph t ≠ 0 := by
  simp only [postOrder, hfind, htg, hvis, ne_eq, not_true_eq_false, if_false] at hret
  rw [Outcome.bind_eq_ret] at hret
  obtain ⟨s1, h1, hret⟩ := hret
  rw [Outcome.bind_eq_ret] at hret
  obtain ⟨s2, h2, hret⟩ := hret
  obtain ⟨v', hg1, hvv, _, _, _, _, fe, hl⟩ := enter_final (Outcome.final_ret h1)
  have hx1 : Ext s s1 := Ext.of_set htg hvv hg1 ⟨_, hl⟩
  obtain ⟨v1, hv1, hv1vis, hv1date⟩ := enter_ret_date htg h1
  obtain ⟨w, w', hw, hg', hww, hwp, _, hwtb⟩ := buildStep_ret hret
  have hlt2 := (List.getElem?_eq_some.mp hw).1
  refine ⟨?_, ?_⟩
  · rw [hg', procAt_set hw, if_pos rfl, hwp]
  · intro d hd hdt hdp hcond
    have hd2 : s'.graph[d]? = s2.graph[d]? := by
      rw [hg', List.getElem?_set_ne (Ne.symm hdt)]
    cases hD : s2.graph[d]? with
    | none => rw [procAt, hd2, hD] at hdp; simp at hdp
    | some D =>
      have hD' : s'.graph[d]? = some D := hd2.trans hD
      rw [procAt_of_getElem? hD'] at hdp
      rw [fileExistsAt_of_getElem? hD', fileDateAt_of_getElem? hD'] at hcond
      have := visitEdges_stale (t := t) (fun n s s' h => postOrder_call os fuel n s s' h)
        (fun n s s' u h hf => postOrder_target_visited os h hf) target.edgeList s1 s2 v1
        (hx1.sameRules.namesOK hn) hv1 (by rw [hv1vis]; decide) hv1date h2 d hd hdt D hD hdp
        hcond
      rw [toBuildAt_of_getElem? hw] at this
      rw [hg', toBuildAt, List.getElem?_set_self hlt2]
      simpa [hwtb] using this

/-- C3 at a concrete input: the call that enters `app` in the build of
`app: util` with neither file present; `util` ends processed with
`fileExists = 0`, and `app` ends stale. -/
theorem C3_staleness_witness :
    NamesOK (unmarkNodes appUtil) ∧
    procAt appUtilDone.graph 0 = 1 ∧
    ∀ d ∈ (mkVertex "app" 1 [1] ["touch app"]).edgeList, d ≠ 0 →
      procAt appUtilDone.graph d ≠ 0 →
      (fileExistsAt appUtilDone.graph d = 0 ∨
        fileDateAt appUtilDone.graph d > (toyOS.stat ⟨[], 10⟩ "app").getD 0) →
      toBuildAt appUtilDone.graph 0 ≠ 0 :=
  ⟨namesOK_of_nodup (by decide),
    C3_staleness toyOS 2 "app"
      { graph := unmarkNodes appUtil, world := ⟨[], 10⟩, returnCode := 0, log := [] }
      appUtilDone 0 (mkVertex "app" 1 [1] ["touch app"]) (namesOK_of_nodup (by decide))
      rfl rfl rfl appUtil_run⟩

/-- C3 as stated fails: in the build of `d: t`, `t: d` from `d`, where only
the file `t` exists, `d` is a dependency of `t`, `d` ends with `toBuild = 1`
and with a file newer than the file of `t`, and `t` is processed with
`toBuild = 0`. -/
theorem C3_staleness_counterexample :
    build toyOS 3 cycleDT ⟨[("t", 5)], 10⟩ "d" = .ret cycleDTDone ∧
    0 ∈ depsOf cycleDTDone.graph 1 ∧
    toBuildAt cycleDTDone.graph 0 = 1 ∧
    toyOS.stat cycleDTDone.world "d" = some 10 ∧ toyOS.stat cycleDTDone.world "t" = some 5 ∧
    procAt cycleDTDone.graph 1 = 1 ∧ toBuildAt cycleDTDone.graph 1 = 0 :=
  ⟨cycleDT_run, by decide, by decide, by decide, by decide, by decide, by decide⟩

/-! ## C9: building a target whose file is missing -/

theorem phony_run : build toyOS 2 phony ⟨[], 0⟩ "app" = .ret phonyDone := by
  rfl

theorem cmdsOfV_append (t : Nat) (l1 l2 : List Event) :
    cmdsOfV t (l1 ++ l2) = cmdsOfV t l1 ++ cmdsOfV t l2 := by
  induction l1 with
  | nil => rfl
  | cons ev l ih =>
    cases ev with
    | cmd t' c rt pre =>
      by_cases h : t' = t <;> simp [cmdsOfV, h, ih]
    | enter _ _ => simpa [cmdsOfV] using ih
    | cycle _ _ => simpa [cmdsOfV] using ih
    | seen _ _ => simpa [cmdsOfV] using ih
    | finish _ => simpa [cmdsOfV] using ih

theorem cmdsOfV_nil_of_cmdsOf_nil (t : Nat) : ∀ (l : List Event), cmdsOf l = [] →
    cmdsOfV t l = [] := by
  intro l
  induction l with
  | nil => intro _; rfl
  | cons ev l ih =>
    intro h
    cases ev <;> simp only [cmdsOf, cmdsOfV] at h ⊢ <;> first | exact ih h | simp at h

theorem cmdsAt_of_getElem? {g : Graph} {i : Nat} {v : VertexNode} (hv : g[i]? = some v) :
    cmdsAt g i = v.cmdList := by
  simp [cmdsAt, hv]

theorem toBuildAt_set {g : Graph} {t : Nat} {v v' : VertexNode} (hv : g[t]? = some v)
    (i : Nat) : toBuildAt (g.set t v') i = if i = t then v'.toBuild else toBuildAt g i := by
  unfold toBuildAt
  split
  · rename_i h; subst h
    rw [List.getElem?_set_self (List.getElem?_eq_some.mp hv).1]; rfl
  · rename_i h
    rw [List.getElem?_set_ne (Ne.symm h)]

theorem cmdsAt_set {g : Graph} {t : Nat} {v v' : VertexNode} (hv : g[t]? = some v)
    (i : Nat) : cmdsAt (g.set t v') i = if i = t then v'.cmdList else cmdsAt g i := by
  unfold cmdsAt
  split
  · rename_i h; subst h
    rw [List.getElem?_set_self (List.getElem?_eq_some.mp hv).1]; rfl
  · rename_i h
    rw [List.getElem?_set_ne (Ne.symm h)]

/-- The two ways in which `enter` returns. -/
theorem enter_ret_cases {os : OS W} {t : Nat} {n : String} {target : VertexNode}
    {s s1 : State W} (h : enter os t n target s = .ret s1) :
    (∃ m, os.stat s.world n = some m ∧ s1 = { s with
        graph := s.graph.set t { target with visited := 1, fileExists := 1, fileDate := m },
        log := s.log ++ [Event.enter t 1] }) ∨
    (os.stat s.world n = none ∧ target.isTarget ≠ 0 ∧ s1 = { s with
        graph := s.graph.set t
          { target with visited := 1, fileExists := 0, fileDate := 0, toBuild := 1 },
        log := s.log ++ [Event.enter t 0] }) := by
  unfold enter at h
  split at h
  · rename_i m hm
    simp only [Outcome.ret.injEq] at h
    exact Or.inl ⟨m, hm, h.symm⟩
  · rename_i hm
    split at h
    · simp at h
    · rename_i ht
      simp only [Outcome.ret.injEq] at h
      exact Or.inr ⟨hm, ht, h.symm⟩

/-- What the command loop appends to the log when it returns: one entry for
each command, in order, all of vertex `t`. -/
theorem runCmds_ret_log {os : OS W} {t : Nat} : ∀ {cs : List String} {s s' : State W},
    runCmds os t cs s = .ret s' →
    s'.graph = s.graph ∧ ∃ l, s'.log = s.log ++ l ∧ cmdsOf l = cs ∧
      (∀ i, cmdsOfV i l = if i = t then cs else []) ∧
      (∀ i fe, Event.enter i fe ∉ l) := by
  intro cs
  induction cs with
  | nil =>
    intro s s' h
    simp only [runCmds, Outcome.ret.injEq] at h
    subst h
    exact ⟨rfl, [], by simp, rfl, by intro i; simp [cmdsOfV], by simp⟩
  | cons c cs ih =>
    intro s s' h
    simp only [runCmds] at h
    split at h
    · simp at h
    · obtain ⟨hg, l, hl, h1, h2, h3⟩ := ih h
      refine ⟨hg, Event.cmd t c (os.system s.world c).1 s.graph :: l, by rw [hl]; simp, ?_, ?_, ?_⟩
      · simp [cmdsOf, h1]
      · intro i
        simp only [cmdsOfV, h2]
        by_cases hi : i = t
        · subst hi; simp
        · have : ¬ t = i := fun h => hi h.symm
          simp [hi, this]
      · intro i fe hmem
        simp only [List.mem_cons] at hmem
        rcases hmem with hmem | hmem
        · cases hmem
        · exact h3 i fe hmem

/-- The two ways in which `buildStep` returns. -/
theorem buildStep_ret_cases {os : OS W} {t : Nat} {n : String} {buf : Option Int}
    {s s' : State W} {u : VertexNode} (hw : s.graph[t]? = some u)
    (h : buildStep os t n buf s = .ret s') :
    (u.toBuild = 0 ∧ s' = { s with
        graph := s.graph.set t { u with processed := 1 },
        log := s.log ++ [Event.finish t] }) ∨
    (u.toBuild ≠ 0 ∧ ∃ s3, runCmds os t u.cmdList s = .ret s3 ∧
      s' = { s3 with
        graph := s3.graph.set t
          { (restat os n (buf.getD (os.uninit s3.world)) s3.world u) with processed := 1 },
        log := s3.log ++ [Event.finish t] }) := by
  unfold buildStep at h
  rw [hw] at h
  simp only at h
  split at h
  · rename_i htb
    rw [Outcome.bind_eq_ret] at h
    obtain ⟨s3, h3, h⟩ := h
    have hg := (runCmds_ret_log h3).1
    rw [hg, hw] at h
    simp only [finish, Outcome.ret.injEq] at h
    exact Or.inr ⟨htb, s3, h3, h.symm⟩
  · rename_i htb
    simp only [ne_eq, Decidable.not_not] at htb
    simp only [finish, Outcome.ret.injEq] at h
    exact Or.inl ⟨htb, h.symm⟩


theorem procAt_unvisited {s : State W} (hs : Sane s) {t : Nat} {v : VertexNode}
    (hv : s.graph[t]? = some v) (h0 : v.visited = 0) : procAt s.graph t = 0 := by
  rw [procAt_of_getElem? hv]; exact hs.unvisited_unprocessed hv h0

/-- A step that rewrites the unprocessed vertex `t`, keeps it unprocessed and
logs no command. -/
theorem CmdsDone.cd_step {s s' : State W} {t : Nat} {v : VertexNode}
    {l : List Event} (h : CmdsDone s) (v' : VertexNode) (hv : s.graph[t]? = some v)
    (hp : v.processed = 0)
    (hp' : v'.processed = 0) (hg : s'.graph = s.graph.set t v') (hl : s'.log = s.log ++ l)
    (hc : cmdsOf l = []) : CmdsDone s' := by
  intro i
  rw [hl, cmdsOfV_append, cmdsOfV_nil_of_cmdsOf_nil i l hc, List.append_nil, h i, hg,
    procAt_set hv, toBuildAt_set hv, cmdsAt_set hv]
  by_cases hi : i = t
  · subst hi
    simp [hp', procAt_of_getElem? hv, hp]
  · simp [hi]

theorem MissingStale.ms_step {s s' : State W} {t : Nat} {v : VertexNode}
    {l : List Event} (h : MissingStale s) (v' : VertexNode) (hv : s.graph[t]? = some v)
    (htb : v.toBuild ≠ 0 → v'.toBuild ≠ 0) (hg : s'.graph = s.graph.set t v')
    (hl : s'.log = s.log ++ l)
    (hnew : ∀ i, Event.enter i 0 ∈ l → i = t ∧ v'.toBuild ≠ 0) : MissingStale s' := by
  intro i hi
  rw [hl, List.mem_append] at hi
  rw [hg, toBuildAt_set hv]
  rcases hi with hi | hi
  · have := h i hi
    split
    · rename_i hit; subst hit
      rw [toBuildAt_of_getElem? hv] at this
      exact htb this
    · exact this
  · obtain ⟨rfl, h1⟩ := hnew i hi
    simpa using h1

/-- Every state in which the run started by `build` returns has logged the
commands of exactly the processed stale vertices, and has marked stale every
vertex entered without a file. -/
theorem postOrder_cmdsDone (os : OS W) {fuel : Nat} {n : String} {s s' : State W}
    (hs : Sane s) (hcd : CmdsDone s) (hms : MissingStale s)
    (h : postOrder os fuel n s = .ret s') : CmdsDone s' ∧ MissingStale s' := by
  refine postOrder_inv_induct os (fun s => CmdsDone s ∧ MissingStale s) ?_ ?_ ?_ fuel n s s' hs
    ⟨hcd, hms⟩ h
  · intro t n target s s1 hs hi htg hvis _ h
    have hp := hs.unvisited_unprocessed htg hvis
    rcases enter_ret_cases h with ⟨m, _, rfl⟩ | ⟨_, _, rfl⟩
    · refine ⟨hi.1.cd_step
          { target with visited := 1, fileExists := 1, fileDate := m }
          htg hp hp rfl rfl (by simp [cmdsOf]),
        hi.2.ms_step { target with visited := 1, fileExists := 1, fileDate := m }
          htg id rfl rfl ?_⟩
      intro i hmem
      simp at hmem
    · refine ⟨hi.1.cd_step
          { target with visited := 1, fileExists := 0, fileDate := 0, toBuild := 1 }
          htg hp hp rfl rfl (by simp [cmdsOf]),
        hi.2.ms_step { target with visited := 1, fileExists := 0, fileDate := 0, toBuild := 1 }
          htg (fun _ => by simp) rfl rfl ?_⟩
      intro i hmem
      simp only [List.mem_singleton, Event.enter.injEq, and_true] at hmem
      exact ⟨hmem, by simp⟩
  · intro t c child target s hs hi htg _ _ hp
    obtain ⟨_, _, _, x, hg, hx⟩ := examine_spec t c child target s htg
    have hlc : ∃ l, (examine t c child target s).log = s.log ++ l ∧ cmdsOf l = [] ∧
        ∀ i, Event.enter i 0 ∉ l := by
      rcases examine_log t c child target s with hl | hl
      · exact ⟨_, hl, by simp [cmdsOf], by simp⟩
      · exact ⟨_, hl, by simp [cmdsOf], by simp⟩
    obtain ⟨l, hl, hc, hne⟩ := hlc
    refine ⟨hi.1.cd_step { target with toBuild := x } htg hp hp hg hl hc,
      hi.2.ms_step { target with toBuild := x } htg ?_ hg hl ?_⟩
    · intro h0
      rcases hx with rfl | ⟨h1, _⟩
      · exact h0
      · exact absurd h1 h0
    · intro i hmem
      exact absurd hmem (hne i)
  · intro t n buf s s' w hs hi hw _ hp _ h
    rcases buildStep_ret_cases hw h with ⟨htb, rfl⟩ | ⟨htb, s3, h3, rfl⟩
    · constructor
      · intro i
        simp only [cmdsOfV_append, procAt_set hw, toBuildAt_set hw, cmdsAt_set hw]
        rw [hi.1 i]
        by_cases hit : i = t
        · subst hit
          simp [cmdsOfV, procAt_of_getElem? hw, hp, htb]
        · simp [cmdsOfV, hit]
      · refine hi.2.ms_step { w with processed := 1 } hw id rfl rfl ?_
        intro i hmem
        simp at hmem
    · obtain ⟨hg, l, hl, _, hcv, hne⟩ := runCmds_ret_log h3
      have hw3 : s3.graph[t]? = some w := by rw [hg]; exact hw
      have hrtb : (restat os n (buf.getD (os.uninit s3.world)) s3.world w).toBuild =
          w.toBuild := by
        unfold restat; split <;> rfl
      have hrcl : (restat os n (buf.getD (os.uninit s3.world)) s3.world w).cmdList =
          w.cmdList := by
        unfold restat; split <;> rfl
      constructor
      · intro i
        simp only [cmdsOfV_append, hl, hcv]
        rw [procAt_set hw3, toBuildAt_set hw3, cmdsAt_set hw3, hg, hi.1 i]
        by_cases hit : i = t
        · subst hit
          simp [cmdsOfV, procAt_of_getElem? hw, hp, htb, hrtb, hrcl]
        · simp [cmdsOfV, hit]
      · have hms3 : MissingStale s3 := by
          intro i hmem
          rw [hl, List.mem_append] at hmem
          rw [hg]
          rcases hmem with hmem | hmem
          · exact hi.2 i hmem
          · exact absurd hmem (hne i 0)
        refine hms3.ms_step
          { (restat os n (buf.getD (os.uninit s3.world)) s3.world w) with processed := 1 }
          hw3 ?_ rfl rfl ?_
        · intro h0; simpa [hrtb] using h0
        · intro i hmem
          simp at hmem

theorem cmdsDone_unmarked (g : Graph) (w : W) (rc : Int) :
    CmdsDone { graph := unmarkNodes g, world := w, returnCode := rc, log := [] } ∧
    MissingStale { graph := unmarkNodes g, world := w, returnCode := rc, log := [] } := by
  constructor
  · intro t
    have : procAt (unmarkNodes g) t = 0 := by
      simp only [procAt, unmarkNodes, List.getElem?_map, Option.map_map]
      cases g[t]? <;> simp
    simp [cmdsOfV, this]
  · intro t h
    simp at h

theorem Sane.visAt_of_enter {s : State W} (h : Sane s) {i : Nat} {fe : Int}
    (hmem : Event.enter i fe ∈ s.log) : visAt s.graph i ≠ 0 := by
  intro h0
  have hc := h.entered i
  rw [if_pos h0, List.countP_eq_zero] at hc
  have := hc _ hmem
  simp [isEnter] at this


theorem SameRules.cmdsAt_eq {g g' : Graph} (h : SameRules g g') (t : Nat) :
    cmdsAt g' t = cmdsAt g t := by
  unfold cmdsAt
  have := congrArg (Option.map (fun r : String × Int × List Nat × List String => r.2.2.2)) (h t)
  simp only [Option.map_map] at this
  exact congrArg (fun o => Option.getD o []) this

/-- C9 (as amended): in a run started by `build` on a well-formed graph that
returns (so every command succeeded), for every vertex `t` that was entered
while its file did not exist: the commands run for `t` are exactly its
command list, each once, in declared order; no command of a dependency `d`
of `t` is run after a command of `t`, unless `t` reported `d` as a
dependency cycle; `t` ends with `processed = 1`; and the value returned is 2
as soon as at least one command was run, in particular when the command
list of `t` is not empty.  For `app: util` with neither file present and
the commands `touch app` and `touch util`, the commands run are exactly
`touch util`, `touch app`. -/
theorem C9_build_missing_target (os : OS W) (fuel : Nat) (g : Graph) (w : W)
    (aTarget : String) (i : Nat) (s' : State W) (t : Nat) (hwf : WF g)
    (hfind : findNode aTarget g = some i) (hret : build os fuel g w aTarget = .ret s')
    (hent : Event.enter t 0 ∈ s'.log) :
    cmdsOfV t s'.log = cmdsAt g t ∧
    (∀ d ∈ depsOf g t, Event.cycle t d ∉ s'.log →
      ∀ l1 l2 c rt pre, s'.log = l1 ++ Event.cmd t c rt pre :: l2 →
        ∀ c' rt' pre', Event.cmd d c' rt' pre' ∉ l2) ∧
    procAt s'.graph t = 1 ∧
    (cmdsOf s'.log ≠ [] → s'.returnCode = 2) ∧
    (cmdsAt g t ≠ [] → s'.returnCode = 2) ∧
    cmdsOf (build toyOS 3 appUtil ⟨[], 10⟩ "app").log = ["touch util", "touch app"] := by
  obtain ⟨hs', hh⟩ := build_hist os hwf (Outcome.final_ret hret)
  obtain ⟨hcd, hms⟩ := postOrder_cmdsDone os (sane_unmarked g w 0) (cmdsDone_unmarked g w 0).1
    (cmdsDone_unmarked g w 0).2 hret
  have hx : Ext _ s' := postOrder_ext os (Outcome.final_ret hret)
  have hsr : SameRules g s'.graph := (sameRules_unmarkNodes g).sr_trans hx.sameRules
  have hvis := hs'.visAt_of_enter hent
  obtain ⟨hr1, hr2⟩ := build_reach os hwf hfind hret
  have hp1 : procAt s'.graph t = 1 := by
    by_cases hr : Reach g i t
    · exact (hr1 t hr).1
    · exact absurd (hr2 t hr).1 hvis
  have hcmds : cmdsOfV t s'.log = cmdsAt g t := by
    rw [hcd t, hp1, ← hsr.cmdsAt_eq t]
    simp [hms t hent]
  have hrc : cmdsOf s'.log ≠ [] → s'.returnCode = 2 := by
    intro hne
    obtain ⟨l, hl, hrc⟩ := postOrder_rc os hret
    simp only [List.nil_append] at hl
    subst hl
    rw [hrc, if_neg hne]
  refine ⟨hcmds, ?_, hp1, hrc, ?_, rfl⟩
  · intro d hd hcy l1 l2 c rt pre hlog c' rt' pre' hmem
    obtain ⟨_, _, hdeps⟩ := hh l1 _ l2 hlog
    have hfd : Event.finish d ∈ l1 := by
      rcases (hdeps d hd).2 with ⟨_, hf⟩ | hc
      · exact hf
      · exact absurd (by rw [hlog]; exact List.mem_append_left _ hc) hcy
    obtain ⟨a, b, hab⟩ := List.append_of_mem hmem
    have hstep := hh (l1 ++ Event.cmd t c rt pre :: a) (Event.cmd d c' rt' pre') b
      (by rw [hlog, hab]; simp)
    exact hstep.1 (List.mem_append_left _ hfd)
  · intro hne
    apply hrc
    intro hnil
    exact hne (hcmds ▸ cmdsOfV_nil_of_cmdsOf_nil t _ hnil)

/-- C9 at a concrete input: `util` in the build of `app: util`. -/
theorem C9_build_missing_target_witness :
    WF appUtil ∧ findNode "app" appUtil = some 0 ∧
    build toyOS 3 appUtil ⟨[], 10⟩ "app" = .ret appUtilDone ∧
    Event.enter 1 0 ∈ appUtilDone.log ∧
    cmdsOfV 1 appUtilDone.log = cmdsAt appUtil 1 ∧ procAt appUtilDone.graph 1 = 1 :=
  ⟨wf_appUtil, by decide, appUtil_run, by decide,
    (C9_build_missing_target toyOS 3 appUtil ⟨[], 10⟩ "app" 0 appUtilDone 1 wf_appUtil
      (by decide) appUtil_run (by decide)).1,
    (C9_build_missing_target toyOS 3 appUtil ⟨[], 10⟩ "app" 0 appUtilDone 1 wf_appUtil
      (by decide) appUtil_run (by decide)).2.2.1⟩

/-- C9 as stated fails twice.  The build of the single rule `app:` without
commands, with no file present, enters the target `app` without a file and
returns 0, not 2.  And in the build of `a: b`, `b: a` from `a` with no file
present, the target `b` is entered without a file and its command is run
before the command of its dependency `a`. -/
theorem C9_build_missing_target_counterexample :
    (build toyOS 2 phony ⟨[], 0⟩ "app" = .ret phonyDone ∧
      Event.enter 0 0 ∈ phonyDone.log ∧ phonyDone.returnCode = 0) ∧
    (build toyOS 3 cycleCmds ⟨[], 0⟩ "a" = .ret cycleCmdsDone ∧
      Event.enter 1 0 ∈ cycleCmdsDone.log ∧ 0 ∈ depsOf cycleCmds 1 ∧
      cmdsOf cycleCmdsDone.log = ["touch b", "touch a"]) :=
  ⟨⟨phony_run, by decide, rfl⟩, ⟨cycleCmds_run, by decide, by decide, by decide⟩⟩

/-! ## C10: a second run -/

theorem NamesOK.name_ne {g : Graph} (hn : NamesOK g) {i j : Nat} {u v : VertexNode}
    (hi : g[i]? = some u) (hj : g[j]? = some v) (hij : i ≠ j) : u.name ≠ v.name := by
  intro h
  have h1 := hn i u hi
  have h2 := hn j v hj
  rw [h, h2] at h1
  exact hij (Option.some.inj h1).symm

theorem mtime_set {os : OS W} {w : W} {g : Graph} {t : Nat} {v v' : VertexNode}
    (hv : g[t]? = some v) (hname : v'.name = v.name) (i : Nat) :
    mtime os w (g.set t v') i = mtime os w g i := by
  unfold mtime
  by_cases hi : t = i
  · subst hi
    rw [List.getElem?_set_self (List.getElem?_eq_some.mp hv).1, hv]
    simp [hname]
  · rw [List.getElem?_set_ne hi]

theorem mtime_of_getElem? {os : OS W} {w : W} {g : Graph} {i : Nat} {u : VertexNode}
    (hu : g[i]? = some u) : mtime os w g i = os.stat w u.name := by
  simp [mtime, hu]

/-- The command loop of a vertex whose commands behave as `Updates` says. -/
theorem runCmds_world {os : OS W} {I : W → Prop} {g : Graph} (hupd : Updates os I g)
    {t : Nat} {u : VertexNode} (hu : g[t]? = some u) :
    ∀ {cs : List String} {s s' : State W}, (∀ c ∈ cs, c ∈ u.cmdList) → I s.world →
      runCmds os t cs s = .ret s' →
      s'.graph = s.graph ∧ (∃ l, s'.log = s.log ++ l ∧ ∀ v d, Event.seen v d ∉ l) ∧
      I s'.world ∧ (∀ n : String, n ≠ u.name → os.stat s'.world n = os.stat s.world n) ∧
      (cs = [] → s'.world = s.world) ∧
      (cs ≠ [] → ∃ m, os.stat s'.world u.name = some m ∧
        ∀ (n : String) (k : Int), os.stat s'.world n = some k → k ≤ m) := by
  intro cs
  induction cs with
  | nil =>
    intro s s' _ hI h
    simp only [runCmds, Outcome.ret.injEq] at h
    subst h
    exact ⟨rfl, ⟨[], by simp, by simp⟩, hI, fun _ _ => rfl, fun _ => rfl, fun h => absurd rfl h⟩
  | cons c cs ih =>
    intro s s' hcs hI h
    simp only [runCmds] at h
    split at h
    · simp at h
    · rename_i hok
      simp only [not_or, ne_eq, Decidable.not_not] at hok
      obtain ⟨hI1, ⟨m, hm, hmax⟩, hoth⟩ :=
        hupd s.world t u c hI hu (hcs c (List.mem_cons_self _ _)) hok.1 hok.2
      obtain ⟨hg, ⟨l, hl, hns⟩, hI', hoth', hnil, hnew⟩ :=
        ih (fun c' hc' => hcs c' (List.mem_cons_of_mem _ hc')) hI1 h
      refine ⟨hg, ⟨Event.cmd t c (os.system s.world c).1 s.graph :: l, by rw [hl]; simp, ?_⟩,
        hI', ?_, by simp, ?_⟩
      · intro v d hmem
        simp only [List.mem_cons] at hmem
        rcases hmem with hmem | hmem
        · cases hmem
        · exact hns v d hmem
      · intro n hn
        rw [hoth' n hn]
        exact hoth n hn
      · intro _
        by_cases hcs0 : cs = []
        · have hw := hnil hcs0
          simp only at hw
          rw [hw]
          exact ⟨m, hm, hmax⟩
        · exact hnew hcs0

theorem Settled.keep {os : OS W} {s s' : State W} {t : Nat} {v v' : VertexNode}
    (hv : s.graph[t]? = some v) (hg : s'.graph = s.graph.set t v') (hw : s'.world = s.world)
    (hname : v'.name = v.name) (hcmd : v'.cmdList = v.cmdList)
    (htb : v.toBuild ≠ 0 → v'.toBuild ≠ 0)
    (hp : v'.processed = v.processed ∨ v.toBuild = 0) {x d : Nat}
    (h : Settled os s x d) : Settled os s' x d := by
  have hN : ∀ y, NoCmd s.graph y → NoCmd s'.graph y := by
    intro y hy
    unfold NoCmd at hy ⊢
    rw [hg, toBuildAt_set hv, cmdsAt_set hv]
    by_cases hyt : y = t
    · subst hyt
      rw [toBuildAt_of_getElem? hv, cmdsAt_of_getElem? hv] at hy
      simp only [if_true]
      exact ⟨htb hy.1, hcmd.trans hy.2⟩
    · simpa [hyt] using hy
  rcases h with h | h | h | h
  · exact Or.inl (hN x h)
  · exact Or.inr (Or.inl (hN d h))
  · refine Or.inr (Or.inr (Or.inl ?_))
    rw [hg, procAt_set hv, toBuildAt_set hv]
    by_cases hxt : x = t
    · subst hxt
      rw [procAt_of_getElem? hv, toBuildAt_of_getElem? hv] at h
      simp only [if_true]
      rcases hp with hp | hp
      · exact ⟨hp.trans h.1, htb h.2⟩
      · exact absurd hp h.2
    · simpa [hxt] using h
  · refine Or.inr (Or.inr (Or.inr ?_))
    unfold NotNewer at h ⊢
    rw [hg, hw, mtime_set hv hname, mtime_set hv hname]
    exact h

/-- The three ways in which a dependency is examined. -/
theorem examine_cases (t c : Nat) (child target : VertexNode) (s : State W) :
    (child.processed = 0 ∧
      examine t c child target s = { s with log := s.log ++ [Event.cycle t c] }) ∨
    (child.processed ≠ 0 ∧ target.toBuild = 0 ∧
      (child.fileExists = 0 ∨ child.fileDate > target.fileDate) ∧
      examine t c child target s = { s with
        graph := s.graph.set t { target with toBuild := 1 },
        log := s.log ++ [Event.seen t c] }) ∨
    (child.processed ≠ 0 ∧
      (target.toBuild ≠ 0 ∨ (child.fileExists ≠ 0 ∧ child.fileDate ≤ target.fileDate)) ∧
      examine t c child target s = { s with log := s.log ++ [Event.seen t c] }) := by
  by_cases hp : child.processed = 0
  · exact Or.inl ⟨hp, by simp [examine, hp]⟩
  · by_cases htb : target.toBuild = 0
    · by_cases hc : child.fileExists = 0 ∨ child.fileDate > target.fileDate
      · exact Or.inr (Or.inl ⟨hp, htb, hc, by simp [examine, hp, htb, hc]⟩)
      · refine Or.inr (Or.inr ⟨hp, Or.inr ?_, by simp [examine, hp, htb, hc]⟩)
        simp only [not_or, gt_iff_lt, not_lt] at hc
        exact hc
    · exact Or.inr (Or.inr ⟨hp, Or.inl htb, by simp [examine, hp, htb]⟩)


theorem set_getElem?_self {g : Graph} {t : Nat} {v : VertexNode} (hv : g[t]? = some v) :
    g.set t v = g := by
  apply List.ext_getElem?
  intro i
  by_cases hi : t = i
  · subst hi
    rw [List.getElem?_set_self (List.getElem?_eq_some.mp hv).1, hv]
  · rw [List.getElem?_set_ne hi]

theorem Sane.visited_of_processed {s : State W} (hs : Sane s) {i : Nat} {u : VertexNode}
    (hu : s.graph[i]? = some u) (hp : u.processed ≠ 0) : u.visited ≠ 0 := by
  obtain ⟨_, h2, h3⟩ := hs.flags i u hu
  rcases h2 with h2 | h2
  · exact absurd h2 hp
  · rw [h3 h2]; decide

/-- A step that rewrites vertex `t` and leaves the files alone. -/
theorem Fresh.step_same {os : OS W} {I : W → Prop} {s s' : State W} {t : Nat}
    {v : VertexNode} (hf : Fresh os I s) (v' : VertexNode) (hv : s.graph[t]? = some v)
    (hg : s'.graph = s.graph.set t v') (hw : s'.world = s.world)
    (hname : v'.name = v.name) (hcmd : v'.cmdList = v.cmdList)
    (htb : v.toBuild ≠ 0 → v'.toBuild ≠ 0) (hvis : v.visited ≠ 0 → v'.visited ≠ 0)
    (hproc : v.processed ≠ 0 → v'.processed ≠ 0)
    (hp : v'.processed = v.processed ∨ v.toBuild = 0)
    (hk : v'.visited ≠ 0 → v'.toBuild = 0 →
      v'.fileExists = 1 ∧ os.stat s.world v'.name = some v'.fileDate)
    (hb : v'.processed ≠ 0 → v'.toBuild ≠ 0 → v'.cmdList ≠ [] →
      v'.fileExists = 0 ∧ ∃ m, os.stat s.world v'.name = some m)
    (hl : ∀ x d, Event.seen x d ∈ s'.log → Event.seen x d ∈ s.log ∨
      (procAt s'.graph d ≠ 0 ∧ visAt s'.graph x ≠ 0 ∧ Settled os s' x d)) :
    Fresh os I s' := by
  have hlt : t < s.graph.length := (List.getElem?_eq_some.mp hv).1
  refine ⟨hw ▸ hf.world, ?_, ?_, ?_⟩
  · intro i u hu h1 h2
    rw [hw]
    rw [hg] at hu
    by_cases hi : t = i
    · subst hi
      rw [List.getElem?_set_self hlt] at hu
      cases hu
      exact hk h1 h2
    · rw [List.getElem?_set_ne hi] at hu
      exact hf.kept i u hu h1 h2
  · intro i u hu h1 h2 h3
    rw [hw]
    rw [hg] at hu
    by_cases hi : t = i
    · subst hi
      rw [List.getElem?_set_self hlt] at hu
      cases hu
      exact hb h1 h2 h3
    · rw [List.getElem?_set_ne hi] at hu
      exact hf.built i u hu h1 h2 h3
  · intro x d hmem
    rcases hl x d hmem with hold | hnew
    · obtain ⟨h1, h2, h3⟩ := hf.seen x d hold
      refine ⟨?_, ?_, h3.keep hv hg hw hname hcmd htb hp⟩
      · rw [hg, procAt_set hv]
        by_cases hd : d = t
        · subst hd
          rw [procAt_of_getElem? hv] at h1
          simpa using hproc h1
        · simpa [hd] using h1
      · rw [hg, visAt_set hv]
        by_cases hx : x = t
        · subst hx
          rw [visAt_of_getElem? hv] at h2
          simpa using hvis h2
        · simpa [hx] using h2
    · exact hnew

theorem restat_fields (os : OS W) (n : String) (buf : Int) (w : W) (u : VertexNode) :
    (restat os n buf w u).name = u.name ∧ (restat os n buf w u).cmdList = u.cmdList ∧
    (restat os n buf w u).toBuild = u.toBuild ∧ (restat os n buf w u).visited = u.visited ∧
    (∀ m, os.stat w n = some m → (restat os n buf w u).fileExists = 0) := by
  unfold restat
  split
  · exact ⟨rfl, rfl, rfl, rfl, fun _ _ => rfl⟩
  · rename_i h
    exact ⟨rfl, rfl, rfl, rfl, fun m hm => by rw [h] at hm; cases hm⟩


theorem VertexNode.rule_eq {u v : VertexNode} (h : u.rule = v.rule) :
    u.name = v.name ∧ u.isTarget = v.isTarget ∧ u.edgeList = v.edgeList ∧
      u.cmdList = v.cmdList := by
  simpa [VertexNode.rule] using h

/-- The files agree with every state of a run whose commands behave as
`Updates` says. -/
theorem postOrder_fresh (os : OS W) {I : W → Prop} {g : Graph} (hn : NamesOK g)
    (hupd : Updates os I g) {fuel : Nat} {n : String} {s s' : State W} (hs : Sane s)
    (hsr : SameRules g s.graph) (hf : Fresh os I s) (h : postOrder os fuel n s = .ret s') :
    Fresh os I s' := by
  refine (postOrder_inv_induct os (fun s => SameRules g s.graph ∧ Fresh os I s) ?_ ?_ ?_ fuel n
    s s' hs ⟨hsr, hf⟩ h).2
  · intro t n target s s1 hs hi htg hvis hname h
    have hp := hs.unvisited_unprocessed htg hvis
    have hx : Ext s s1 := by
      obtain ⟨v', hg, hvv, _, _, _, _, fe, hl⟩ := enter_final (Outcome.final_ret h)
      exact Ext.of_set htg hvv hg ⟨_, hl⟩
    refine ⟨hi.1.sr_trans hx.sameRules, ?_⟩
    rcases enter_ret_cases h with ⟨m, hm, rfl⟩ | ⟨_, _, rfl⟩
    · refine hi.2.step_same { target with visited := 1, fileExists := 1, fileDate := m } htg
        rfl rfl rfl rfl id (fun _ => by simp) id (Or.inl rfl) ?_ ?_ ?_
      · intro _ _
        exact ⟨rfl, by rw [← hname] at hm; exact hm⟩
      · intro h1
        exact absurd hp h1
      · intro x d hmem
        simp only [List.mem_append, List.mem_singleton] at hmem
        rcases hmem with hmem | hmem
        · exact Or.inl hmem
        · cases hmem
    · refine hi.2.step_same
        { target with visited := 1, fileExists := 0, fileDate := 0, toBuild := 1 } htg
        rfl rfl rfl rfl (fun _ => by simp) (fun _ => by simp) id (Or.inl rfl) ?_ ?_ ?_
      · intro _ h2
        simp at h2
      · intro h1
        exact absurd hp h1
      · intro x d hmem
        simp only [List.mem_append, List.mem_singleton] at hmem
        rcases hmem with hmem | hmem
        · exact Or.inl hmem
        · cases hmem
  · intro t c child target s hs hi htg hcg hvis hproc
    refine ⟨hi.1.sr_trans (examine_ext c child htg).sameRules, ?_⟩
    have hkt : target.visited ≠ 0 → target.toBuild = 0 →
        target.fileExists = 1 ∧ os.stat s.world target.name = some target.fileDate :=
      hi.2.kept t target htg
    have hct : child.processed ≠ 0 → c ≠ t := by
      intro hcp hc
      subst hc
      rw [htg] at hcg
      cases hcg
      exact hcp hproc
    rcases examine_cases t c child target s with ⟨_, he⟩ | ⟨hcp, htb, _, he⟩ | ⟨hcp, hcond, he⟩
    · rw [he]
      refine hi.2.step_same target htg (set_getElem?_self htg).symm rfl rfl rfl id id id
        (Or.inl rfl) hkt (fun h1 => absurd hproc h1) ?_
      intro x d hmem
      simp only [List.mem_append, List.mem_singleton] at hmem
      rcases hmem with hmem | hmem
      · exact Or.inl hmem
      · cases hmem
    · rw [he]
      refine hi.2.step_same { target with toBuild := 1 } htg rfl rfl rfl rfl (fun _ => by simp)
        id id (Or.inl rfl) (fun _ h2 => by simp at h2) (fun h1 => absurd hproc h1) ?_
      intro x d hmem
      simp only [List.mem_append, List.mem_singleton] at hmem
      rcases hmem with hmem | hmem
      · exact Or.inl hmem
      · simp only [Event.seen.injEq] at hmem
        obtain ⟨rfl, rfl⟩ := hmem
        refine Or.inr ⟨?_, ?_, Or.inr (Or.inr (Or.inl ⟨?_, ?_⟩))⟩
        · simp only [procAt_set htg, if_neg (hct hcp)]
          rw [procAt_of_getElem? hcg]
          exact hcp
        · simpa [visAt_set htg] using hvis
        · simpa [procAt_set htg] using hproc
        · simp [toBuildAt_set htg]
    · rw [he]
      refine hi.2.step_same target htg (set_getElem?_self htg).symm rfl rfl rfl id id id
        (Or.inl rfl) hkt (fun h1 => absurd hproc h1) ?_
      intro x d hmem
      simp only [List.mem_append, List.mem_singleton] at hmem
      rcases hmem with hmem | hmem
      · exact Or.inl hmem
      · simp only [Event.seen.injEq] at hmem
        obtain ⟨rfl, rfl⟩ := hmem
        refine Or.inr ⟨?_, ?_, ?_⟩
        · rw [procAt_of_getElem? hcg]
          exact hcp
        · rw [visAt_of_getElem? htg]
          exact hvis
        · by_cases htb : target.toBuild = 0
          · rcases hcond with hcond | hcond
            · exact absurd htb hcond
            · have hcv := hs.visited_of_processed hcg hcp
              by_cases hctb : child.toBuild = 0
              · obtain ⟨_, hsc⟩ := hi.2.kept d child hcg hcv hctb
                obtain ⟨_, hst⟩ := hkt hvis htb
                refine Or.inr (Or.inr (Or.inr ⟨child.fileDate, target.fileDate, ?_, ?_, hcond.2⟩))
                · rw [mtime_of_getElem? hcg]; exact hsc
                · rw [mtime_of_getElem? htg]; exact hst
              · by_cases hcc : child.cmdList = []
                · refine Or.inr (Or.inl ⟨?_, ?_⟩)
                  · rw [toBuildAt_of_getElem? hcg]; exact hctb
                  · rw [cmdsAt_of_getElem? hcg]; exact hcc
                · exact absurd (hi.2.built d child hcg hcp hctb hcc).1 hcond.1
          · refine Or.inr (Or.inr (Or.inl ⟨?_, ?_⟩))
            · rw [procAt_of_getElem? htg]; exact hproc
            · rw [toBuildAt_of_getElem? htg]; exact htb
  · intro t n buf s s' u hs hi hw hvis hproc hname h
    have hx : Ext s s' := by
      obtain ⟨v, v', hv, hg, hvv, hl⟩ := buildStep_final (Outcome.final_ret h)
      exact Ext.of_set hv hvv hg hl
    refine ⟨hi.1.sr_trans hx.sameRules, ?_⟩
    rcases buildStep_ret_cases hw h with ⟨htb, rfl⟩ | ⟨htb, s3, h3, rfl⟩
    · refine hi.2.step_same { u with processed := 1 } hw rfl rfl rfl rfl id id (fun _ => by simp)
        (Or.inr htb) (fun h1 h2 => hi.2.kept t u hw h1 h2) (fun _ h2 => absurd htb h2) ?_
      intro x d hmem
      simp only [List.mem_append, List.mem_singleton] at hmem
      rcases hmem with hmem | hmem
      · exact Or.inl hmem
      · cases hmem
    · obtain ⟨u0, hu0, hr⟩ := hi.1.getElem? hw
      obtain ⟨hn0, _, _, hc0⟩ := VertexNode.rule_eq hr
      have hns : NamesOK s.graph := hi.1.namesOK hn
      obtain ⟨hg3, ⟨l, hl, hnoseen⟩, hI3, hoth, _, hnew⟩ :=
        runCmds_world hupd hu0 (fun c hc => by rw [hc0]; exact hc) hi.2.world h3
      rw [hn0] at hoth hnew
      obtain ⟨hrn, hrc, hrt, hrv, hrf⟩ := restat_fields os n (buf.getD (os.uninit s3.world))
        s3.world u
      have hrn' : ({ (restat os n (buf.getD (os.uninit s3.world)) s3.world u) with
          processed := 1 } : VertexNode).name = u.name := hrn
      have hw3 : s3.graph[t]? = some u := by rw [hg3]; exact hw
      have hlt : t < s3.graph.length := (List.getElem?_eq_some.mp hw3).1
      have hstat : ∀ (i : Nat) (x : VertexNode), s.graph[i]? = some x → i ≠ t →
          os.stat s3.world x.name = os.stat s.world x.name :=
        fun i x hx hit => hoth x.name (hns.name_ne hx hw hit)
      have hfile : ∀ (d : Nat), procAt s.graph d ≠ 0 → NoCmd s.graph d ∨
          ∃ x m, s.graph[d]? = some x ∧ os.stat s.world x.name = some m := by
        intro d hd
        cases hxd : s.graph[d]? with
        | none => simp [procAt, hxd] at hd
        | some x =>
          rw [procAt_of_getElem? hxd] at hd
          by_cases hxt : x.toBuild = 0
          · exact Or.inr ⟨x, _, rfl, (hi.2.kept d x hxd (hs.visited_of_processed hxd hd) hxt).2⟩
          · by_cases hxc : x.cmdList = []
            · refine Or.inl ⟨?_, ?_⟩
              · rw [toBuildAt_of_getElem? hxd]; exact hxt
              · rw [cmdsAt_of_getElem? hxd]; exact hxc
            · obtain ⟨m, hm⟩ := (hi.2.built d x hxd hd hxt hxc).2
              exact Or.inr ⟨x, m, rfl, hm⟩
      refine ⟨hI3, ?_, ?_, ?_⟩
      · intro i x hx h1 h2
        simp only at hx ⊢
        by_cases hit : t = i
        · subst hit
          rw [List.getElem?_set_self hlt] at hx
          cases hx
          simp only at h2
          exact absurd (hrt ▸ h2) htb
        · rw [List.getElem?_set_ne hit, hg3] at hx
          rw [hstat i x hx (Ne.symm hit)]
          exact hi.2.kept i x hx h1 h2
      · intro i x hx h1 h2 h3'
        simp only at hx ⊢
        by_cases hit : t = i
        · subst hit
          rw [List.getElem?_set_self hlt] at hx
          cases hx
          simp only at h3' ⊢
          rw [hrc] at h3'
          obtain ⟨m, hm, _⟩ := hnew h3'
          rw [hrn]
          exact ⟨hrf m (hname ▸ hm), m, hm⟩
        · rw [List.getElem?_set_ne hit, hg3] at hx
          rw [hstat i x hx (Ne.symm hit)]
          exact hi.2.built i x hx h1 h2 h3'
      · intro x d hmem
        simp only at hmem ⊢
        rw [hl] at hmem
        simp only [List.mem_append, List.mem_singleton] at hmem
        have hold : Event.seen x d ∈ s.log := by
          rcases hmem with (hmem | hmem) | hmem
          · exact hmem
          · exact absurd hmem (hnoseen x d)
          · cases hmem
        obtain ⟨h1, h2, h3'⟩ := hi.2.seen x d hold
        have hdt : d ≠ t := by
          intro hdt
          subst hdt
          rw [procAt_of_getElem? hw] at h1
          exact h1 hproc
        have hNo : ∀ y, y ≠ t → NoCmd s.graph y → NoCmd
            (s3.graph.set t
              { (restat os n (buf.getD (os.uninit s3.world)) s3.world u) with processed := 1 })
            y := by
          intro y hy hno
          unfold NoCmd at hno ⊢
          rw [toBuildAt_set hw3, cmdsAt_set hw3, if_neg hy, if_neg hy, hg3]
          exact hno
        refine ⟨?_, ?_, ?_⟩
        · rw [procAt_set hw3, if_neg hdt, hg3]
          exact h1
        · rw [visAt_set hw3]
          by_cases hxt : x = t
          · simp only [hxt, if_true]
            rw [hrv]
            exact hvis
          · rw [if_neg hxt, hg3]
            exact h2
        · by_cases hxt : x = t
          · subst hxt
            by_cases hc : u.cmdList = []
            · refine Or.inl ⟨?_, ?_⟩
              · rw [toBuildAt_set hw3]
                simp only [if_true]
                rw [hrt]
                exact htb
              · rw [cmdsAt_set hw3]
                simp only [if_true]
                rw [hrc]
                exact hc
            · obtain ⟨m, hm, hmax⟩ := hnew hc
              rcases hfile d h1 with hno | ⟨y, md, hy, hmd⟩
              · exact Or.inr (Or.inl (hNo d hdt hno))
              · refine Or.inr (Or.inr (Or.inr ⟨md, m, ?_, ?_, ?_⟩))
                · have hy' : (s3.graph.set x
                      { (restat os n (buf.getD (os.uninit s3.world)) s3.world u) with
                        processed := 1 })[d]? = some y := by
                    rw [List.getElem?_set_ne (Ne.symm hdt), hg3]
                    exact hy
                  rw [mtime_of_getElem? hy', hstat d y hy hdt]
                  exact hmd
                · rw [mtime_set hw3 hrn', mtime_of_getElem? hw3]
                  exact hm
                · apply hmax y.name
                  rw [hstat d y hy hdt]
                  exact hmd
          · rcases h3' with h3' | h3' | h3' | h3'
            · exact Or.inl (hNo x hxt h3')
            · exact Or.inr (Or.inl (hNo d hdt h3'))
            · refine Or.inr (Or.inr (Or.inl ?_))
              rw [procAt_set hw3, toBuildAt_set hw3, if_neg hxt, if_neg hxt, hg3]
              exact h3'
            · refine Or.inr (Or.inr (Or.inr ?_))
              obtain ⟨md, mv, h1', h2', hle⟩ := h3'
              refine ⟨md, mv, ?_, ?_, hle⟩
              · rw [mtime_set hw3 hrn', hg3]
                cases hyd : s.graph[d]? with
                | none => simp [mtime, hyd] at h1'
                | some y =>
                  rw [mtime_of_getElem? hyd] at h1' ⊢
                  rw [hstat d y hyd hdt]
                  exact h1'
              · rw [mtime_set hw3 hrn', hg3]
                cases hyx : s.graph[x]? with
                | none => simp [mtime, hyx] at h2'
                | some y =>
                  rw [mtime_of_getElem? hyx] at h2' ⊢
                  rw [hstat x y hyx hxt]
                  exact h2'


theorem Sim.names {s a : State W} (h : Sim s a) :
    a.graph.map (·.name) = s.graph.map (·.name) := by
  apply List.ext_getElem?
  intro i
  simp only [List.getElem?_map]
  cases hu : s.graph[i]? with
  | none =>
    have : s.graph.length ≤ i := List.getElem?_eq_none_iff.mp hu
    rw [List.getElem?_eq_none_iff.mpr (h.1 ▸ this)]
  | some u =>
    obtain ⟨x, hx, hr, _, _⟩ := h.2 i u hu
    rw [hx]
    simp [(VertexNode.rule_eq hr).1]

theorem Sim.set_both {s s' a a' : State W} {t : Nat} {v y : VertexNode} (h : Sim s a)
    (v' y' : VertexNode) (hv : s.graph[t]? = some v) (hy : a.graph[t]? = some y)
    (hg : s'.graph = s.graph.set t v') (hga : a'.graph = a.graph.set t y')
    (hr : y'.rule = v'.rule) (hvis : y'.visited = v'.visited)
    (hp : y'.processed = v'.processed) : Sim s' a' := by
  refine ⟨by rw [hg, hga, List.length_set, List.length_set]; exact h.1, ?_⟩
  intro i u hu
  rw [hg] at hu
  rw [hga]
  by_cases hi : t = i
  · subst hi
    rw [List.getElem?_set_self (List.getElem?_eq_some.mp hv).1] at hu
    cases hu
    exact ⟨y', List.getElem?_set_self (List.getElem?_eq_some.mp hy).1, hr, hvis, hp⟩
  · rw [List.getElem?_set_ne hi] at hu
    rw [List.getElem?_set_ne hi]
    exact h.2 i u hu

theorem Sim.set_left {s s' a a' : State W} {t : Nat} {v : VertexNode} (h : Sim s a)
    (v' : VertexNode) (hv : s.graph[t]? = some v)
    (hg : s'.graph = s.graph.set t v') (hga : a'.graph = a.graph)
    (hr : v'.rule = v.rule) (hvis : v'.visited = v.visited)
    (hp : v'.processed = v.processed) : Sim s' a' := by
  refine ⟨by rw [hg, hga, List.length_set]; exact h.1, ?_⟩
  intro i u hu
  rw [hg] at hu
  rw [hga]
  by_cases hi : t = i
  · subst hi
    rw [List.getElem?_set_self (List.getElem?_eq_some.mp hv).1] at hu
    cases hu
    obtain ⟨x, hx, hxr, hxv, hxp⟩ := h.2 t v hv
    exact ⟨x, hx, hxr.trans hr.symm, hxv.trans hvis.symm, hxp.trans hp.symm⟩
  · rw [List.getElem?_set_ne hi] at hu
    exact h.2 i u hu

theorem VExt.same_rule {v v' : VertexNode} (h : VExt v v') : v'.rule = v.rule := by
  simp [VertexNode.rule, h.name, h.isTarget, h.edgeList, h.cmdList]

/-- A second run follows the first one step by step and runs no command, when
in its world every vertex that the first run entered has its file and no
dependency that the first run compared is newer than the vertex it was
compared with. -/
theorem postOrder_again (os : OS W) {w1 : W} {m : Nat → Int} {L : List Event} {g : Graph}
    (hfile : ∀ t fe u, Event.enter t fe ∈ L → g[t]? = some u → os.stat w1 u.name = some (m t))
    (hseen : ∀ v d, Event.seen v d ∈ L → m d ≤ m v) :
    ∀ (fuel : Nat) (n : String) (s s' a : State W), Sane s → SameRules g s.graph → Sim s a →
      Calm w1 m (fun _ => True) a → postOrder os fuel n s = .ret s' →
      (∀ ev ∈ s'.log, ev ∈ L) →
      ∃ a', postOrder os fuel n a = .ret a' ∧ Sim s' a' ∧ Calm w1 m (fun _ => True) a' := by
  intro fuel
  induction fuel with
  | zero => intro n s s' a _ _ _ _ h; simp [postOrder] at h
  | succ fuel ih =>
    have loop : ∀ (t : Nat) (es : List Nat) (s s' a : State W) (v : VertexNode), Sane s →
        SameRules g s.graph → Sim s a → Calm w1 m (fun _ => True) a →
        s.graph[t]? = some v → v.visited ≠ 0 → v.processed = 0 →
        visitEdges (postOrder os fuel) t es s = .ret s' → (∀ ev ∈ s'.log, ev ∈ L) →
        ∃ a', visitEdges (postOrder os fuel) t es a = .ret a' ∧ Sim s' a' ∧
          Calm w1 m (fun _ => True) a' := by
      intro t es
      induction es with
      | nil =>
        intro s s' a v _ _ hsim hc _ _ _ h _
        simp only [visitEdges, Outcome.ret.injEq] at h
        subst h
        exact ⟨a, rfl, hsim, hc⟩
      | cons c es ihes =>
        intro s s' a v hs hsr hsim hc hv hvis hproc h hL
        obtain ⟨child, s1, child1, target1, hcg, h1, hc1, ht1, h⟩ := visitEdges_cons_ret h
        have hx1 : Ext s s1 := postOrder_ext os (Outcome.final_ret h1)
        have hxe : Ext s1 (examine t c child1 target1 s1) := examine_ext c child1 ht1
        have hx2 : Ext (examine t c child1 target1 s1) s' :=
          visitEdges_ext (fun n s s' h => postOrder_ext os h) es _ _ (Outcome.final_ret h)
        have hLe : ∀ ev ∈ (examine t c child1 target1 s1).log, ev ∈ L := by
          intro ev hev
          obtain ⟨l, hl⟩ := hx2.log
          exact hL ev (by rw [hl]; exact List.mem_append_left _ hev)
        have hL1 : ∀ ev ∈ s1.log, ev ∈ L := by
          intro ev hev
          obtain ⟨l, hl⟩ := hxe.log
          exact hLe ev (by rw [hl]; exact List.mem_append_left _ hev)
        have hs1 := postOrder_sane os fuel _ s s1 (Outcome.final_ret h1) hs
        obtain ⟨a1, ha1, hsim1, hcalm1⟩ := ih child.name s s1 a hs hsr hsim hc h1 hL1
        have hv1 := postOrder_unt os (Outcome.final_ret h1) t v hv hvis
        have heq : target1 = v := Option.some.inj (ht1.symm.trans hv1)
        have hvis1 : target1.visited ≠ 0 := by rw [heq]; exact hvis
        have hproc1 : target1.processed = 0 := by rw [heq]; exact hproc
        obtain ⟨childA, hcA, hcAr, _, _⟩ := hsim.2 c child hcg
        obtain ⟨child1A, hc1A, _, hc1Av, hc1Ap⟩ := hsim1.2 c child1 hc1
        obtain ⟨target1A, ht1A, ht1Ar, ht1Av, ht1Ap⟩ := hsim1.2 t target1 ht1
        have hstep : visitEdges (postOrder os fuel) t (c :: es) a =
            visitEdges (postOrder os fuel) t es (examine t c child1A target1A a1) := by
          simp only [visitEdges, hcA, (VertexNode.rule_eq hcAr).1, ha1, Outcome.bind, hc1A,
            ht1A]
        obtain ⟨_, _, _, x, hg, _⟩ := examine_spec t c child1 target1 s1 ht1
        have htbA := (hcalm1.2.2 t target1A ht1A).1
        have hexA : ∃ ev, examine t c child1A target1A a1 = { a1 with log := a1.log ++ [ev] } ∧
            cmdsOf [ev] = [] := by
          rcases examine_cases t c child1A target1A a1 with ⟨_, he⟩ | ⟨hcp, _, hcond, _⟩ |
            ⟨_, _, he⟩
          · exact ⟨_, he, rfl⟩
          · exfalso
            rw [hc1Ap] at hcp
            have hmem : Event.seen t c ∈ L := by
              apply hLe
              rcases examine_cases t c child1 target1 s1 with ⟨h0, _⟩ | ⟨_, _, _, he⟩ |
                ⟨_, _, he⟩
              · exact absurd h0 hcp
              · rw [he]; simp
              · rw [he]; simp
            have hle := hseen t c hmem
            have hcv : child1A.visited ≠ 0 := by
              rw [hc1Av]; exact hs1.visited_of_processed hc1 hcp
            obtain ⟨_, hfe, hfd⟩ := (hcalm1.2.2 c child1A hc1A).2 hcv
            obtain ⟨_, _, hfdt⟩ := (hcalm1.2.2 t target1A ht1A).2 (by rw [ht1Av]; exact hvis1)
            rcases hcond with hcond | hcond
            · rw [hfe] at hcond
              exact absurd hcond (by decide)
            · rw [hfd, hfdt] at hcond
              exact absurd hle (not_le.mpr hcond)
          · exact ⟨_, he, rfl⟩
        obtain ⟨ev, hev, hevc⟩ := hexA
        have hsimE : Sim (examine t c child1 target1 s1) (examine t c child1A target1A a1) :=
          hsim1.set_left { target1 with toBuild := x } ht1 hg (by rw [hev]) rfl rfl rfl
        have hcalmE : Calm w1 m (fun _ => True) (examine t c child1A target1A a1) :=
          hcalm1.same_vertices (by rw [hev]) (by rw [hev])
            (by rw [hev]; simp only [cmdsOf_append, hevc, List.append_nil])
        have hlt : t < s1.graph.length := (List.getElem?_eq_some.mp ht1).1
        obtain ⟨a', ha', hsim', hcalm'⟩ := ihes (examine t c child1 target1 s1) s'
          (examine t c child1A target1A a1) { target1 with toBuild := x }
          (examine_sane c child1 hs1 ht1) (hsr.sr_trans (hx1.trans hxe).sameRules) hsimE hcalmE
          (by rw [hg, List.getElem?_set_self hlt]) hvis1 hproc1 h hL
        exact ⟨a', by rw [hstep]; exact ha', hsim', hcalm'⟩
    intro n s s' a hs hsr hsim hc h hL
    cases hfind : findNode n s.graph with
    | none => simp [postOrder, hfind] at h
    | some t =>
      obtain ⟨target, htg, hname⟩ := findNode_some hfind
      obtain ⟨targetA, htA, htAr, htAv, htAp⟩ := hsim.2 t target htg
      have hfindA : findNode n a.graph = some t := by
        rw [findNode_congr hsim.names]; exact hfind
      by_cases hvis : target.visited ≠ 0
      · rw [postOrder_visited os fuel hfind htg hvis] at h
        simp only [Outcome.ret.injEq] at h
        subst h
        exact ⟨a, postOrder_visited os fuel hfindA htA (by rw [htAv]; exact hvis), hsim, hc⟩
      · have hvis0 : target.visited = 0 := by simpa using hvis
        have hvisA : ¬ targetA.visited ≠ 0 := by rw [htAv]; exact hvis
        simp only [postOrder, hfind, htg, hvis, if_false] at h
        rw [Outcome.bind_eq_ret] at h
        obtain ⟨s1, he, h⟩ := h
        rw [Outcome.bind_eq_ret] at h
        obtain ⟨s2, hve, hb⟩ := h
        have hxb : Ext s2 s' := by
          obtain ⟨v, v', hv, hg, hvv, hl⟩ := buildStep_final (Outcome.final_ret hb)
          exact Ext.of_set hv hvv hg hl
        have hxv : Ext s1 s2 :=
          visitEdges_ext (fun n s s' h => postOrder_ext os h) _ _ _ (Outcome.final_ret hve)
        have hL2 : ∀ ev ∈ s2.log, ev ∈ L := by
          intro ev hev
          obtain ⟨l, hl⟩ := hxb.log
          exact hL ev (by rw [hl]; exact List.mem_append_left _ hev)
        have hL1 : ∀ ev ∈ s1.log, ev ∈ L := by
          intro ev hev
          obtain ⟨l, hl⟩ := hxv.log
          exact hL2 ev (by rw [hl]; exact List.mem_append_left _ hev)
        obtain ⟨v', hg1, hvv, hv1, hp1, _, _, fe, hl1⟩ := enter_final (Outcome.final_ret he)
        have hx1 : Ext s s1 := Ext.of_set htg hvv hg1 ⟨_, hl1⟩
        obtain ⟨u, hu, hrule⟩ := hsr.getElem? htg
        have hstat : os.stat a.world n = some (m t) := by
          rw [hc.1, ← hname, ← (VertexNode.rule_eq hrule).1]
          exact hfile t fe u (hL1 _ (by rw [hl1]; simp)) hu
        have hentA : enter os t n targetA a = .ret
            { a with graph := a.graph.set t
                       { targetA with visited := 1, fileExists := 1, fileDate := m t },
                     log := a.log ++ [Event.enter t 1] } := by
          simp [enter, hstat]
        have htbA := (hc.2.2 t targetA htA).1
        have hcalm1 : Calm w1 m (fun _ => True)
            { a with graph := a.graph.set t
                       { targetA with visited := 1, fileExists := 1, fileDate := m t },
                     log := a.log ++ [Event.enter t 1] } :=
          hc.set_vertex rfl rfl (by simp [cmdsOf_append, cmdsOf])
            ⟨htbA, fun _ => ⟨trivial, rfl, rfl⟩⟩
        have hsim1 : Sim s1
            { a with graph := a.graph.set t
                       { targetA with visited := 1, fileExists := 1, fileDate := m t },
                     log := a.log ++ [Event.enter t 1] } :=
          hsim.set_both v' { targetA with visited := 1, fileExists := 1, fileDate := m t }
            htg htA hg1 rfl (htAr.trans hvv.same_rule.symm) hv1.symm (htAp.trans hp1.symm)
        have hs1 : Sane s1 := enter_sane hs htg hvis0 (Outcome.final_ret he)
        have hlt : t < s.graph.length := (List.getElem?_eq_some.mp htg).1
        obtain ⟨a2, ha2, hsim2, hcalm2⟩ := loop t target.edgeList s1 s2 _ v' hs1
          (hsr.sr_trans hx1.sameRules) hsim1 hcalm1
          (by rw [hg1, List.getElem?_set_self hlt]) (by rw [hv1]; decide)
          (by rw [hp1]; exact hs.unvisited_unprocessed htg hvis0) hve hL2
        obtain ⟨w2, w2', hw2, hg', hww, hwp, hwv, _⟩ := buildStep_ret hb
        obtain ⟨w2A, hw2A, hw2Ar, hw2Av, hw2Ap⟩ := hsim2.2 t w2 hw2
        have htb2 := (hcalm2.2.2 t w2A hw2A).1
        have hbs : buildStep os t n (statBuf os a.world n targetA.edgeList) a2 =
            .ret { a2 with graph := a2.graph.set t { w2A with processed := 1 },
                           log := a2.log ++ [Event.finish t] } := by
          simp [buildStep, hw2A, htb2, finish]
        refine ⟨{ a2 with graph := a2.graph.set t { w2A with processed := 1 },
                          log := a2.log ++ [Event.finish t] }, ?_, ?_, ?_⟩
        · have ha2' : visitEdges (postOrder os fuel) t targetA.edgeList
              { a with graph := a.graph.set t
                         { targetA with visited := 1, fileExists := 1, fileDate := m t },
                       log := a.log ++ [Event.enter t 1] } = .ret a2 :=
            (congrArg (fun es => visitEdges (postOrder os fuel) t es
              { a with graph := a.graph.set t
                         { targetA with visited := 1, fileExists := 1, fileDate := m t },
                       log := a.log ++ [Event.enter t 1] })
              (VertexNode.rule_eq htAr).2.2.1).trans ha2
          simp only [postOrder, hfindA, htA, hvisA, if_false, hentA, Outcome.bind]
          rw [ha2']
          exact hbs
        · exact hsim2.set_both w2' { w2A with processed := 1 } hw2 hw2A hg' rfl
            (hw2Ar.trans hww.same_rule.symm) (hw2Av.trans hwv.symm) hwp.symm
        · exact hcalm2.set_vertex rfl rfl (by simp [cmdsOf_append, cmdsOf])
            ⟨htb2, fun hv => (hcalm2.2.2 t w2A hw2A).2 hv⟩


theorem fresh_unmarked (os : OS W) {I : W → Prop} (g : Graph) {w : W} (hI : I w) (rc : Int) :
    Fresh os I { graph := unmarkNodes g, world := w, returnCode := rc, log := [] } := by
  refine ⟨hI, ?_, ?_, ?_⟩
  · intro v u hu hv
    simp only [unmarkNodes, List.getElem?_map, Option.map_eq_some'] at hu
    obtain ⟨u0, _, rfl⟩ := hu
    simp at hv
  · intro v u hu hp
    simp only [unmarkNodes, List.getElem?_map, Option.map_eq_some'] at hu
    obtain ⟨u0, _, rfl⟩ := hu
    simp at hp
  · intro v d hmem
    simp at hmem

theorem sim_unmarked {g g2 : Graph} (h : SameRules g g2) (w w2 : W) (rc rc2 : Int) :
    Sim { graph := unmarkNodes g, world := w, returnCode := rc, log := [] }
      { graph := unmarkNodes g2, world := w2, returnCode := rc2, log := [] } := by
  refine ⟨?_, ?_⟩
  · have := congrArg List.length h.names_eq
    simpa [unmarkNodes] using this.symm
  · intro i u hu
    simp only [unmarkNodes, List.getElem?_map, Option.map_eq_some'] at hu ⊢
    obtain ⟨u0, hu0, rfl⟩ := hu
    have hi := h i
    rw [hu0] at hi
    cases hy : g2[i]? with
    | none => rw [hy] at hi; simp at hi
    | some y =>
      rw [hy] at hi
      simp only [Option.map_some', Option.some.injEq] at hi
      refine ⟨_, ⟨y, rfl, rfl⟩, ?_, rfl, rfl⟩
      simpa [VertexNode.rule] using hi

/-- A second run after a run that returned, over a graph with the same
rules, in the world that the first run left. -/
theorem second_run (os : OS W) {I : W → Prop} {fuel : Nat} {g : Graph} {w : W}
    {aTarget : String} {s1 : State W} (hwf : WF g) (hI : I w) (hupd : Updates os I g)
    (hret : build os fuel g w aTarget = .ret s1)
    (hne : ∀ v, toBuildAt s1.graph v ≠ 0 → cmdsAt g v ≠ [])
    {g2 : Graph} (h2 : SameRules g g2) :
    ∃ s2, build os fuel g2 s1.world aTarget = .ret s2 ∧ cmdsOf s2.log = [] ∧
      s2.returnCode = 0 ∧ s2.world = s1.world := by
  have hn : NamesOK g := namesOK_of_nodup hwf.1
  have hs0 := sane_unmarked g w 0
  have hsr0 := sameRules_unmarkNodes g
  have hret' : postOrder os fuel aTarget
      { graph := unmarkNodes g, world := w, returnCode := 0, log := [] } = .ret s1 := hret
  have hf1 : Fresh os I s1 := postOrder_fresh os hn hupd hs0 hsr0 (fresh_unmarked os g hI 0) hret'
  have hs1 : Sane s1 := postOrder_sane os fuel _ _ s1 (Outcome.final_ret hret') hs0
  have hx : Ext _ s1 := postOrder_ext os (Outcome.final_ret hret')
  have hsr1 : SameRules g s1.graph := hsr0.sr_trans hx.sameRules
  have hfind : ∃ i, findNode aTarget g = some i := by
    cases hf : findNode aTarget g with
    | some i => exact ⟨i, rfl⟩
    | none =>
      have hf' : findNode aTarget (unmarkNodes g) = none := by
        rw [← findNode_congr hsr0.names_eq]; exact hf
      cases fuel with
      | zero => simp [postOrder] at hret'
      | succ fuel => simp [postOrder, hf'] at hret'
  obtain ⟨i, hfind⟩ := hfind
  obtain ⟨hr1, hr2⟩ := build_reach os hwf hfind hret
  have hdone : ∀ v, visAt s1.graph v ≠ 0 → procAt s1.graph v = 1 := by
    intro v hv
    by_cases hr : Reach g i v
    · exact (hr1 v hr).1
    · exact absurd (hr2 v hr).1 hv
  have hcm : ∀ (v : Nat) (x : VertexNode), s1.graph[v]? = some x → x.toBuild ≠ 0 → x.cmdList ≠ [] := by
    intro v x hx htb
    have := hne v (by rw [toBuildAt_of_getElem? hx]; exact htb)
    rw [← hsr1.cmdsAt_eq v, cmdsAt_of_getElem? hx] at this
    exact this
  have hstat : ∀ v, procAt s1.graph v ≠ 0 → ∃ x k, s1.graph[v]? = some x ∧
      os.stat s1.world x.name = some k := by
    intro v hv
    cases hxv : s1.graph[v]? with
    | none => simp [procAt, hxv] at hv
    | some x =>
      rw [procAt_of_getElem? hxv] at hv
      by_cases hxt : x.toBuild = 0
      · exact ⟨x, _, rfl, (hf1.kept v x hxv (hs1.visited_of_processed hxv hv) hxt).2⟩
      · obtain ⟨k, hk⟩ := (hf1.built v x hxv hv hxt (hcm v x hxv hxt)).2
        exact ⟨x, k, rfl, hk⟩
  have hnoc : ∀ v, ¬ NoCmd s1.graph v := by
    intro v hno
    exact hne v hno.1 (by rw [← hsr1.cmdsAt_eq v]; exact hno.2)
  have hfile : ∀ t fe u, Event.enter t fe ∈ s1.log → g[t]? = some u →
      os.stat s1.world u.name = some ((mtime os s1.world s1.graph t).getD 0) := by
    intro t fe u hmem hu
    have hp : procAt s1.graph t ≠ 0 := by
      rw [hdone t (hs1.visAt_of_enter hmem)]; decide
    obtain ⟨x, k, hx, hk⟩ := hstat t hp
    obtain ⟨u', hu', hr⟩ := hsr1.getElem? hx
    rw [hu] at hu'
    cases hu'
    rw [mtime_of_getElem? hx, hk, (VertexNode.rule_eq hr).1]
    exact hk
  have hseen : ∀ v d, Event.seen v d ∈ s1.log →
      (mtime os s1.world s1.graph d).getD 0 ≤ (mtime os s1.world s1.graph v).getD 0 := by
    intro v d hmem
    obtain ⟨_, hv, hset⟩ := hf1.seen v d hmem
    rcases hset with hset | hset | hset | hset
    · exact absurd hset (hnoc v)
    · exact absurd hset (hnoc d)
    · rw [hdone v hv] at hset
      exact absurd hset.1 (by decide)
    · obtain ⟨md, mv, hd, hv', hle⟩ := hset
      rw [hd, hv']
      exact hle
  obtain ⟨a', ha', _, hcalm⟩ := postOrder_again os hfile hseen fuel aTarget _ s1
    { graph := unmarkNodes g2, world := s1.world, returnCode := 0, log := [] } hs0 hsr0
    (sim_unmarked h2 w s1.world 0 0) (calm_unmarked g2 s1.world _ _ 0) hret' (fun _ h => h)
  refine ⟨a', ha', hcalm.2.1, ?_, hcalm.1⟩
  obtain ⟨l, hl, hrc⟩ := postOrder_rc os ha'
  simp only [List.nil_append] at hl
  subst hl
  rw [hrc, if_pos hcalm.2.1]

theorem lookup_filter_ne (x n : String) (h : n ≠ x) : ∀ l : List (String × Int),
    (l.filter fun p => p.1 ≠ x).lookup n = l.lookup n
  | [] => rfl
  | (a, b) :: l => by
    have ih := lookup_filter_ne x n h l
    simp only [ne_eq, decide_not] at ih ⊢
    by_cases hax : a = x
    · subst hax
      have hna : (n == a) = false := by simpa using h
      simp [List.filter_cons, List.lookup_cons, hna, ih]
    · by_cases hna : n = a
      · subst hna
        simp [List.filter_cons, List.lookup_cons, hax]
      · have hna' : (n == a) = false := by simpa using hna
        simp [List.filter_cons, List.lookup_cons, hax, hna', ih]

theorem stat_touch (d : Disk) (x n : String) :
    toyOS.stat (d.touch x) n = if n = x then some d.clock else toyOS.stat d n := by
  by_cases h : n = x
  · subst h
    simp [toyOS, Disk.touch, List.lookup_cons]
  · have hnx : (n == x) = false := by simpa using h
    simp only [toyOS, Disk.touch, List.lookup_cons, hnx, if_neg h]
    exact lookup_filter_ne x n h d.files

theorem inOrder_touch (x : String) : ∀ (d : Disk), d.inOrder →
    (d.touch x).inOrder ∧
    (∃ m, toyOS.stat (d.touch x) x = some m ∧
      ∀ (n : String) (k : Int), toyOS.stat (d.touch x) n = some k → k ≤ m) ∧
    ∀ n : String, n ≠ x → toyOS.stat (d.touch x) n = toyOS.stat d n := by
  intro d hd
  have hall : ∀ (n : String) (k : Int), toyOS.stat (d.touch x) n = some k → k ≤ d.clock := by
    intro n k hk
    rw [stat_touch] at hk
    split at hk
    · cases hk; exact le_refl _
    · exact hd n k hk
  refine ⟨?_, ⟨d.clock, by rw [stat_touch, if_pos rfl], hall⟩, ?_⟩
  · intro n k hk
    have := hall n k hk
    show k ≤ d.clock + 1
    omega
  · intro n hn
    rw [stat_touch, if_neg hn]

theorem updates_appUtil : Updates toyOS Disk.inOrder appUtil := by
  intro w t u c hI hu hc _ _
  match t, hu with
  | 0, hu =>
    cases hu
    have hc' : c = "touch app" := by simpa [appUtil, mkVertex] using hc
    subst hc'
    exact inOrder_touch "app" w hI
  | 1, hu =>
    cases hu
    have hc' : c = "touch util" := by simpa [appUtil, mkVertex] using hc
    subst hc'
    exact inOrder_touch "util" w hI
  | n + 2, hu => cases hu

/-- C10 (as amended): let a build from a target of a well-formed graph return,
in an environment in which every command of a vertex that succeeds creates
or updates the file of that vertex, gives it a time stamp that no file
exceeds, and changes no other file, and let every vertex that the run marked
stale have at least one command.  Then a second run in the world that the
first run left, over the graph as the first run left it or over the graph as
it was built, returns, runs no command, leaves the world as it is and
returns 0. -/
theorem C10_second_run (os : OS W) (I : W → Prop) (fuel : Nat) (g : Graph) (w : W)
    (aTarget : String) (s1 : State W) (hwf : WF g) (hI : I w) (hupd : Updates os I g)
    (hret : build os fuel g w aTarget = .ret s1)
    (hne : ∀ v, toBuildAt s1.graph v ≠ 0 → cmdsAt g v ≠ []) :
    (∃ s2, build os fuel s1.graph s1.world aTarget = .ret s2 ∧ cmdsOf s2.log = [] ∧
      s2.returnCode = 0 ∧ s2.world = s1.world) ∧
    ∃ s2, build os fuel g s1.world aTarget = .ret s2 ∧ cmdsOf s2.log = [] ∧
      s2.returnCode = 0 ∧ s2.world = s1.world := by
  refine ⟨second_run os hwf hI hupd hret hne ?_, second_run os hwf hI hupd hret hne
    (SameRules.sr_refl g)⟩
  exact (sameRules_unmarkNodes g).sr_trans (postOrder_ext os (Outcome.final_ret hret)).sameRules

/-- C10 at a concrete input: the build of `app: util` with neither file
present, followed by a second run. -/
theorem C10_second_run_witness :
    WF appUtil ∧ Disk.inOrder ⟨[], 10⟩ ∧ Updates toyOS Disk.inOrder appUtil ∧
    build toyOS 3 appUtil ⟨[], 10⟩ "app" = .ret appUtilDone ∧
    (∀ v, toBuildAt appUtilDone.graph v ≠ 0 → cmdsAt appUtil v ≠ []) ∧
    ∃ s2, build toyOS 3 appUtilDone.graph appUtilDone.world "app" = .ret s2 ∧
      cmdsOf s2.log = [] ∧ s2.returnCode = 0 ∧ s2.world = appUtilDone.world :=
  have hne : ∀ v, toBuildAt appUtilDone.graph v ≠ 0 → cmdsAt appUtil v ≠ [] := by
    intro v
    match v with
    | 0 => decide
    | 1 => decide
    | n + 2 => intro h; exact absurd rfl h
  have hI : Disk.inOrder ⟨[], 10⟩ := by
    intro n k hk
    cases hk
  ⟨wf_appUtil, hI, updates_appUtil, appUtil_run, hne,
    (C10_second_run toyOS Disk.inOrder 3 appUtil ⟨[], 10⟩ "app" appUtilDone wf_appUtil hI
      updates_appUtil appUtil_run hne).1⟩

/-- C10 as stated fails: build `app: main.c` with the command `touch app`
when `app` does not exist and `main.c` carries the time stamp 100 while the
clock shows 10.  The command creates `app` with time stamp 10 and changes
nothing else; nothing changes between the runs; the second run finds
`main.c` newer than `app`, runs `touch app` again and returns 2. -/
theorem C10_second_run_counterexample :
    (∀ (d : Disk) (n : String), toyOS.stat (toyOS.system d "touch app").2 n =
      if n = "app" then some d.clock else toyOS.stat d n) ∧
    ∃ s1, build toyOS 3 appSrc ⟨[("main.c", 100)], 10⟩ "app" = .ret s1 ∧
      cmdsOf s1.log = ["touch app"] ∧ s1.world = ⟨[("app", 10), ("main.c", 100)], 11⟩ ∧
      ∃ s2, build toyOS 3 s1.graph s1.world "app" = .ret s2 ∧
        cmdsOf s2.log = ["touch app"] ∧ s2.returnCode = 2 :=
  ⟨fun d n => stat_touch d "app" n, _, rfl, rfl, rfl, _, rfl, rfl, rfl⟩

/-! ## C11-C16: building the graph -/

theorem findNode_eq_none {name : String} : ∀ {g : Graph},
    findNode name g = none ↔ name ∉ names g := by
  intro g
  induction g with
  | nil => simp [findNode, names]
  | cons v rest ih =>
    simp only [findNode, names, List.map_cons, List.mem_cons, not_or]
    by_cases h : v.name = name
    · simp [h]
    · simp only [h, if_false, Option.map_eq_none', false_and, iff_false]
      constructor
      · intro hn
        exact ⟨fun e => h e.symm, ih.mp hn⟩
      · intro hn
        exact ih.mpr hn.2


theorem findNode_lt {name : String} {g : Graph} {i : Nat} (h : findNode name g = some i) :
    i < g.length := by
  obtain ⟨v, hv, _⟩ := findNode_some h
  exact (List.getElem?_eq_some.mp hv).1

/-- What `addVertex` does when the name is in the graph already. -/
theorem addVertex_known {name : String} {g : Graph} {i : Nat} {v : VertexNode} (t : Int)
    (hf : findNode name g = some i) (hv : g[i]? = some v) :
    addVertex name t g = g.set i { v with isTarget := if t ≠ 0 then 1 else v.isTarget } := by
  cases g with
  | nil => simp [findNode] at hf
  | cons u rest =>
    simp only [addVertex, hf, hv]
    by_cases ht : t ≠ 0
    · simp [ht]
    · simp only [ht, if_false]
      exact (set_getElem?_self hv).symm

/-- What `addVertex` does when the name is not in the graph. -/
theorem addVertex_new {name : String} {g : Graph} (t : Int) (hf : findNode name g = none) :
    addVertex name t g = g ++ [mkVertex name t [] []] := by
  cases g with
  | nil => rfl
  | cons u rest => simp only [addVertex, hf]

/-- What `addEdge` does when both vertices exist. -/
theorem addEdge_known {name1 name2 : String} {g : Graph} {i j : Nat} {v : VertexNode}
    (h1 : findNode name1 g = some i) (h2 : findNode name2 g = some j) (hv : g[i]? = some v) :
    addEdge name1 name2 g =
      if j ∈ v.edgeList then g else g.set i { v with edgeList := v.edgeList ++ [j] } := by
  simp only [addEdge, h1, h2, hv]
  cases he : v.edgeList with
  | nil => simp
  | cons e es => rfl

/-- What `addEdge` does when a vertex is missing. -/
theorem addEdge_unknown {name1 name2 : String} {g : Graph}
    (h : findNode name1 g = none ∨ findNode name2 g = none) : addEdge name1 name2 g = g := by
  unfold addEdge
  rcases h with h | h
  · rw [h]
  · rw [h]
    cases findNode name1 g <;> rfl

/-- What `addCmd` does when the vertex exists. -/
theorem addCmd_known {name command : String} {g : Graph} {i : Nat} {v : VertexNode}
    (h : findNode name g = some i) (hv : g[i]? = some v) :
    addCmd name command g = g.set i { v with cmdList := v.cmdList ++ [command] } := by
  simp only [addCmd, h, hv]
  cases hc : v.cmdList with
  | nil => simp
  | cons c cs => rfl

/-- What `addCmd` does when the vertex is missing. -/
theorem addCmd_unknown {name command : String} {g : Graph} (h : findNode name g = none) :
    addCmd name command g = g := by
  simp only [addCmd, h]

theorem names_set {g : Graph} {i : Nat} {v v' : VertexNode} (hv : g[i]? = some v)
    (hn : v'.name = v.name) : names (g.set i v') = names g := by
  unfold names
  apply List.ext_getElem?
  intro k
  simp only [List.getElem?_map]
  by_cases hk : i = k
  · subst hk
    rw [List.getElem?_set_self (List.getElem?_eq_some.mp hv).1, hv]
    simp [hn]
  · rw [List.getElem?_set_ne hk]

/-- Every construction call other than an `addVertex` of a new name rewrites
at most one vertex, keeping its name. -/
theorem run_cases (c : Call) (g : Graph) :
    c.run g = g ∨
    (∃ i v v', g[i]? = some v ∧ c.run g = g.set i v' ∧ v'.name = v.name ∧
      (v.isTarget ≠ 0 → v'.isTarget ≠ 0) ∧ (v.isTarget = 1 → v'.isTarget = 1) ∧
      ((v'.edgeList = v.edgeList) ∨
        ∃ j, j < g.length ∧ j ∉ v.edgeList ∧ v'.edgeList = v.edgeList ++ [j])) ∨
    (∃ n t, c = Call.vertex n t ∧ findNode n g = none ∧ c.run g = g ++ [mkVertex n t [] []]) := by
  cases c with
  | vertex n t =>
    cases hf : findNode n g with
    | none => exact Or.inr (Or.inr ⟨n, t, rfl, hf, addVertex_new t hf⟩)
    | some i =>
      obtain ⟨v, hv, _⟩ := findNode_some hf
      refine Or.inr (Or.inl ⟨i, v, _, hv, addVertex_known t hf hv, rfl, ?_, ?_, Or.inl rfl⟩)
      · intro h
        by_cases ht : t ≠ 0 <;> simp [ht, h]
      · intro h
        by_cases ht : t ≠ 0 <;> simp [ht, h]
  | edge a b =>
    cases h1 : findNode a g with
    | none => exact Or.inl (addEdge_unknown (Or.inl h1))
    | some i =>
      cases h2 : findNode b g with
      | none => exact Or.inl (addEdge_unknown (Or.inr h2))
      | some j =>
        obtain ⟨v, hv, _⟩ := findNode_some h1
        have h := addEdge_known h1 h2 hv
        by_cases hj : j ∈ v.edgeList
        · rw [if_pos hj] at h
          exact Or.inl h
        · rw [if_neg hj] at h
          exact Or.inr (Or.inl ⟨i, v, _, hv, h, rfl, id, id,
            Or.inr ⟨j, findNode_lt h2, hj, rfl⟩⟩)
  | command n c =>
    cases hf : findNode n g with
    | none => exact Or.inl (addCmd_unknown hf)
    | some i =>
      obtain ⟨v, hv, _⟩ := findNode_some hf
      exact Or.inr (Or.inl ⟨i, v, _, hv, addCmd_known hf hv, rfl, id, id, Or.inl rfl⟩)


theorem construct_cons (c : Call) (cs : List Call) (g : Graph) :
    construct (c :: cs) g = construct cs (c.run g) := rfl

theorem built_nil : Built [] :=
  ⟨List.nodup_nil, fun i v h => by simp at h, fun i v h => by simp at h⟩

theorem built_run (c : Call) {g : Graph} (h : Built g) : Built (c.run g) := by
  obtain ⟨hn, he, hd⟩ := h
  rcases run_cases c g with hr | ⟨i, v, v', hv, hr, hname, _, _, hedge⟩ | ⟨n, t, _, hf, hr⟩
  · rw [hr]; exact ⟨hn, he, hd⟩
  · have hlt : i < g.length := (List.getElem?_eq_some.mp hv).1
    rw [hr]
    refine ⟨by rw [names_set hv hname]; exact hn, ?_, ?_⟩
    · intro k u hu c' hc'
      rw [List.length_set]
      by_cases hk : i = k
      · subst hk
        rw [List.getElem?_set_self hlt] at hu
        cases hu
        rcases hedge with hedge | ⟨j, hj, _, hedge⟩
        · rw [hedge] at hc'
          exact he i v hv c' hc'
        · rw [hedge, List.mem_append, List.mem_singleton] at hc'
          rcases hc' with hc' | hc'
          · exact he i v hv c' hc'
          · rw [hc']; exact hj
      · rw [List.getElem?_set_ne hk] at hu
        exact he k u hu c' hc'
    · intro k u hu
      by_cases hk : i = k
      · subst hk
        rw [List.getElem?_set_self hlt] at hu
        cases hu
        rcases hedge with hedge | ⟨j, _, hj, hedge⟩
        · rw [hedge]; exact hd i v hv
        · rw [hedge]
          exact List.Nodup.append (hd i v hv) (List.nodup_singleton j)
            (by simpa using hj)
      · rw [List.getElem?_set_ne hk] at hu
        exact hd k u hu
  · rw [hr]
    have hnew : ∀ (k : Nat) (u : VertexNode), (g ++ [mkVertex n t [] []])[k]? = some u →
        g[k]? = some u ∨ u = mkVertex n t [] [] := by
      intro k u hu
      by_cases hk : k < g.length
      · rw [List.getElem?_append_left hk] at hu
        exact Or.inl hu
      · rw [List.getElem?_append_right (not_lt.mp hk)] at hu
        cases hkk : k - g.length with
        | zero => rw [hkk] at hu; simp at hu; exact Or.inr hu.symm
        | succ m => rw [hkk] at hu; simp at hu
    refine ⟨?_, ?_, ?_⟩
    · unfold names at hn ⊢
      rw [List.map_append, List.map_singleton]
      refine List.Nodup.append hn (List.nodup_singleton _) ?_
      simp only [List.disjoint_singleton]
      exact findNode_eq_none.mp hf
    · intro k u hu c' hc'
      rw [List.length_append, List.length_singleton]
      rcases hnew k u hu with hu' | hu'
      · exact Nat.lt_succ_of_lt (he k u hu' c' hc')
      · rw [hu'] at hc'
        simp [mkVertex] at hc'
    · intro k u hu
      rcases hnew k u hu with hu' | hu'
      · exact hd k u hu'
      · rw [hu']
        exact List.nodup_nil

theorem built_construct : ∀ (calls : List Call) {g : Graph}, Built g →
    Built (construct calls g)
  | [], _, h => h
  | c :: cs, _, h => built_construct cs (built_run c h)

theorem names_run (c : Call) (g : Graph) :
    names (c.run g) = names g ++ (declared [c]).filter (· ∉ names g) := by
  rcases run_cases c g with hr | ⟨i, v, v', hv, hr, hname, _⟩ | ⟨n, t, hc, hf, hr⟩
  · rw [hr]
    cases c with
    | vertex n t =>
      have hmem : n ∈ names g := by
        by_contra hn
        have hf := findNode_eq_none.mpr hn
        have := addVertex_new t hf
        have hlen := congrArg List.length (hr.symm.trans this)
        simp at hlen
      simp [declared, hmem]
    | edge a b => simp [declared]
    | command n c => simp [declared]
  · rw [hr, names_set hv hname]
    cases c with
    | vertex n t =>
      have hmem : n ∈ names g := by
        by_contra hn
        have hf := findNode_eq_none.mpr hn
        have := addVertex_new t hf
        have hlen := congrArg List.length (hr.symm.trans this)
        simp at hlen
      simp [declared, hmem]
    | edge a b => simp [declared]
    | command n c => simp [declared]
  · subst hc
    rw [hr]
    have hn := findNode_eq_none.mp hf
    have hd : (declared [Call.vertex n t]).filter (· ∉ names g) = [n] := by
      simp [declared, hn]
    rw [hd]
    simp [names, mkVertex]

theorem names_construct : ∀ (calls : List Call) (g : Graph),
    names (construct calls g) = names g ++ (firstRefs (declared calls)).filter (· ∉ names g)
  | [], g => by simp [construct, declared, firstRefs]
  | c :: cs, g => by
    rw [construct_cons, names_construct cs (c.run g), names_run c g]
    cases c with
    | vertex n t =>
      by_cases hn : n ∈ names g
      · simp only [declared, firstRefs, List.filter_cons, hn, not_true_eq_false, decide_False,
          Bool.false_eq_true, if_false, List.filter_nil, List.append_nil, List.filter_filter]
        congr 1
        apply List.filter_congr
        intro x _
        by_cases hx : x ∈ names g
        · simp [hx]
        · have : x ≠ n := fun e => hx (e ▸ hn)
          simp [hx, this]
      · simp only [declared, firstRefs, List.filter_cons, hn, not_false_eq_true, decide_True,
          if_true, List.filter_nil, List.append_assoc, List.singleton_append,
          List.filter_filter]
        congr 2
        apply List.filter_congr
        intro x _
        simp only [List.mem_append, List.mem_singleton, not_or, ne_eq, decide_not,
          Bool.decide_and, Bool.and_comm]
    | edge a b => simp [declared]
    | command n c => simp [declared]


theorem run_keeps (c : Call) {g : Graph} {i : Nat} {v : VertexNode} (hv : g[i]? = some v) :
    ∃ v', (c.run g)[i]? = some v' ∧ v'.name = v.name ∧ (v.isTarget ≠ 0 → v'.isTarget ≠ 0) ∧
      (v.isTarget = 1 → v'.isTarget = 1) := by
  rcases run_cases c g with hr | ⟨k, u, u', hu, hr, hname, h1, h2, _⟩ | ⟨n, t, _, _, hr⟩
  · rw [hr]; exact ⟨v, hv, rfl, id, id⟩
  · rw [hr]
    by_cases hk : k = i
    · subst hk
      rw [hv] at hu
      cases hu
      exact ⟨u', List.getElem?_set_self (List.getElem?_eq_some.mp hv).1, hname, h1, h2⟩
    · exact ⟨v, by rw [List.getElem?_set_ne hk]; exact hv, rfl, id, id⟩
  · rw [hr]
    exact ⟨v, by rw [List.getElem?_append_left (List.getElem?_eq_some.mp hv).1]; exact hv,
      rfl, id, id⟩

theorem construct_keeps : ∀ (calls : List Call) {g : Graph} {i : Nat} {v : VertexNode},
    g[i]? = some v →
    ∃ v', (construct calls g)[i]? = some v' ∧ v'.name = v.name ∧
      (v.isTarget ≠ 0 → v'.isTarget ≠ 0) ∧ (v.isTarget = 1 → v'.isTarget = 1)
  | [], _, _, v, hv => ⟨v, hv, rfl, id, id⟩
  | c :: cs, _, _, _, hv => by
    obtain ⟨v1, hv1, hn1, ha1, hb1⟩ := run_keeps c hv
    obtain ⟨v2, hv2, hn2, ha2, hb2⟩ := construct_keeps cs hv1
    exact ⟨v2, hv2, hn2.trans hn1, fun h => ha2 (ha1 h), fun h => hb2 (hb1 h)⟩

theorem findNode_set {name : String} {g : Graph} {i : Nat} {v v' : VertexNode}
    (hv : g[i]? = some v) (hn : v'.name = v.name) :
    findNode name (g.set i v') = findNode name g :=
  findNode_congr (names_set hv hn)

theorem addCmd_many (n : String) : ∀ (cs : List String) {g : Graph} {i : Nat} {v : VertexNode},
    findNode n g = some i → g[i]? = some v →
    (construct (cs.map (Call.command n)) g)[i]? = some { v with cmdList := v.cmdList ++ cs }
  | [], _, _, v, _, hv => by simpa [construct] using hv
  | c :: cs, g, i, v, hf, hv => by
    have hlt : i < g.length := (List.getElem?_eq_some.mp hv).1
    rw [List.map_cons, construct_cons]
    show (construct (cs.map (Call.command n)) (addCmd n c g))[i]? = _
    rw [addCmd_known hf hv]
    have hn' : ({ v with cmdList := v.cmdList ++ [c] } : VertexNode).name = v.name := rfl
    have := addCmd_many n cs (g := g.set i { v with cmdList := v.cmdList ++ [c] }) (i := i)
      ((findNode_set hv hn').trans hf) (List.getElem?_set_self hlt)
    rw [this]
    simp

/-- C11: after any sequence of construction calls on the empty graph, the
vertex names are pairwise different, and the list of vertex names is the
list of the names passed to `addVertex`, in order, with every repetition
after the first removed. -/
theorem C11_vertex_names (calls : List Call) :
    (names (construct calls [])).Nodup ∧
    names (construct calls []) = firstRefs (declared calls) ∧
    names (construct [Call.vertex "a" 1, Call.vertex "b" 0, Call.edge "a" "b",
      Call.vertex "a" 0, Call.vertex "c" 0, Call.command "a" "cc", Call.vertex "b" 1] []) =
      ["a", "b", "c"] := by
  refine ⟨(built_construct calls built_nil).1, ?_, by decide⟩
  rw [names_construct]
  simp [names]

/-- C12: `addVertex` on a name that the graph holds rewrites only the
`isTarget` flag of that vertex, to 1 if the argument is non-zero and to what
it was otherwise, so the new flag is set exactly if the old one or the
argument is; with argument 0 the graph is unchanged.  On a name that the
graph does not hold it appends a zeroed vertex with this name and flag.  Over
any sequence of construction calls a vertex keeps its position and name, and
a target flag that is set stays set. -/
theorem C12_target_flag_merge (name : String) (t : Int) (g : Graph) :
    (∀ (i : Nat) (v : VertexNode), findNode name g = some i → g[i]? = some v →
      addVertex name t g = g.set i { v with isTarget := if t ≠ 0 then 1 else v.isTarget } ∧
      ((if t ≠ 0 then 1 else v.isTarget) ≠ 0 ↔ (v.isTarget ≠ 0 ∨ t ≠ 0))) ∧
    (findNode name g ≠ none → addVertex name 0 g = g) ∧
    (findNode name g = none → addVertex name t g = g ++ [mkVertex name t [] []]) ∧
    ∀ (calls : List Call) (i : Nat) (v : VertexNode), g[i]? = some v →
      ∃ v', (construct calls g)[i]? = some v' ∧ v'.name = v.name ∧
        (v.isTarget ≠ 0 → v'.isTarget ≠ 0) ∧ (v.isTarget = 1 → v'.isTarget = 1) := by
  refine ⟨?_, ?_, fun hf => addVertex_new t hf, fun calls i v hv => construct_keeps calls hv⟩
  · intro i v hf hv
    refine ⟨addVertex_known t hf hv, ?_⟩
    by_cases ht : t ≠ 0
    · simp [ht]
    · simp [ht]
  · intro hf
    cases hfi : findNode name g with
    | none => exact absurd hfi hf
    | some i =>
      obtain ⟨v, hv, _⟩ := findNode_some hfi
      rw [addVertex_known 0 hfi hv]
      exact set_getElem?_self hv

/-- C13: `addEdge` from a vertex whose edge list holds the second vertex
already leaves the graph unchanged, and no edge list of a graph built by
construction calls holds the same vertex twice. -/
theorem C13_duplicate_edge (a b : String) (g : Graph) (i j : Nat) (v : VertexNode)
    (h1 : findNode a g = some i) (h2 : findNode b g = some j) (hv : g[i]? = some v)
    (hj : j ∈ v.edgeList) :
    addEdge a b g = g ∧
    ∀ (calls : List Call) (k : Nat) (u : VertexNode), (construct calls [])[k]? = some u →
      u.edgeList.Nodup := by
  refine ⟨?_, fun calls k u hu => (built_construct calls built_nil).2.2 k u hu⟩
  rw [addEdge_known h1 h2 hv, if_pos hj]

/-- C13 at a concrete input: a second `addEdge("a", "b")` on the graph of
the rule `a: b`. -/
theorem C13_duplicate_edge_witness :
    findNode "a" ruleAB = some 0 ∧ findNode "b" ruleAB = some 1 ∧
    ruleAB[0]? = some (vtx "a" 0 0 1 0 0 0 [1] ["cc"]) ∧
    1 ∈ (vtx "a" 0 0 1 0 0 0 [1] ["cc"]).edgeList ∧ addEdge "a" "b" ruleAB = ruleAB :=
  ⟨by decide, by decide, by decide, by decide,
    (C13_duplicate_edge "a" "b" ruleAB 0 1 (vtx "a" 0 0 1 0 0 0 [1] ["cc"]) (by decide)
      (by decide) (by decide) (by decide)).1⟩

/-- C14: when both vertices exist and the edge list of the first does not
hold the second, `addEdge` appends the second vertex to that edge list and
changes nothing else; the two vertices may be the same. -/
theorem C14_addEdge_appends (a b : String) (g : Graph) (i j : Nat) (v : VertexNode)
    (h1 : findNode a g = some i) (h2 : findNode b g = some j) (hv : g[i]? = some v)
    (hj : j ∉ v.edgeList) :
    addEdge a b g = g.set i { v with edgeList := v.edgeList ++ [j] } := by
  rw [addEdge_known h1 h2 hv, if_neg hj]

/-- C14 at a concrete input: the self-edge `addEdge("a", "a")` on the graph
of the rule `a: b`. -/
theorem C14_addEdge_appends_witness :
    findNode "a" ruleAB = some 0 ∧ ruleAB[0]? = some (vtx "a" 0 0 1 0 0 0 [1] ["cc"]) ∧
    0 ∉ (vtx "a" 0 0 1 0 0 0 [1] ["cc"]).edgeList ∧
    addEdge "a" "a" ruleAB =
      [vtx "a" 0 0 1 0 0 0 [1, 0] ["cc"], vtx "b" 0 0 0 0 0 0 [] []] :=
  ⟨by decide, by decide, by decide,
    (C14_addEdge_appends "a" "a" ruleAB 0 0 (vtx "a" 0 0 1 0 0 0 [1] ["cc"]) (by decide)
      (by decide) (by decide) (by decide)).trans (by decide)⟩

/-- C15: `addEdge` with a name that the graph does not hold and `addCmd`
with a name that the graph does not hold leave the graph unchanged, and every
edge of a graph built by construction calls points at a vertex of the
graph. -/
theorem C15_unknown_vertex (a b n c : String) (g : Graph) :
    (findNode a g = none ∨ findNode b g = none → addEdge a b g = g) ∧
    (findNode n g = none → addCmd n c g = g) ∧
    ∀ calls : List Call, EdgesOK (construct calls []) ∧ WF (construct calls []) :=
  ⟨addEdge_unknown, addCmd_unknown, fun calls =>
    ⟨(built_construct calls built_nil).2.1,
      (built_construct calls built_nil).1, (built_construct calls built_nil).2.1⟩⟩

/-- C16: when the named vertex exists, `addCmd` appends the command to its
command list and changes nothing else, and a sequence of `addCmd` calls for
the same vertex appends the commands in the order of the calls. -/
theorem C16_addCmd_appends (n c : String) (g : Graph) (i : Nat) (v : VertexNode)
    (hf : findNode n g = some i) (hv : g[i]? = some v) :
    addCmd n c g = g.set i { v with cmdList := v.cmdList ++ [c] } ∧
    ∀ cs : List String,
      (construct (cs.map (Call.command n)) g)[i]? = some { v with cmdList := v.cmdList ++ cs } :=
  ⟨addCmd_known hf hv, fun cs => addCmd_many n cs hf hv⟩

/-- C16 at a concrete input: the same command added a second time to the
vertex `a` of the rule `a: b`. -/
theorem C16_addCmd_appends_witness :
    findNode "a" ruleAB = some 0 ∧ ruleAB[0]? = some (vtx "a" 0 0 1 0 0 0 [1] ["cc"]) ∧
    addCmd "a" "cc" ruleAB =
      [vtx "a" 0 0 1 0 0 0 [1] ["cc", "cc"], vtx "b" 0 0 0 0 0 0 [] []] :=
  ⟨by decide, by decide,
    (C16_addCmd_appends "a" "cc" ruleAB 0 (vtx "a" 0 0 1 0 0 0 [1] ["cc"]) (by decide)
      (by decide)).1.trans (by decide)⟩

/-- C17: `unmarkNodes` keeps the number and order of the vertices, sets
`visited`, `processed` and `toBuild` of every vertex to 0 and leaves every
other field as it was; applying it twice is the same as applying it once. -/
theorem C17_unmarkNodes (g : Graph) :
    (unmarkNodes g).length = g.length ∧
    (∀ (i : Nat) (v : VertexNode), g[i]? = some v →
      (unmarkNodes g)[i]? = some { v with visited := 0, processed := 0, toBuild := 0 }) ∧
    names (unmarkNodes g) = names g ∧ SameRules g (unmarkNodes g) ∧
    (∀ v ∈ unmarkNodes g, v.visited = 0 ∧ v.processed = 0 ∧ v.toBuild = 0) ∧
    unmarkNodes (unmarkNodes g) = unmarkNodes g := by
  refine ⟨by simp [unmarkNodes], ?_, ?_, sameRules_unmarkNodes g, ?_, ?_⟩
  · intro i v hv
    simp [unmarkNodes, hv]
  · simp [names, unmarkNodes]
  · intro v hv
    simp only [unmarkNodes, List.mem_map] at hv
    obtain ⟨u, _, rfl⟩ := hv
    exact ⟨rfl, rfl, rfl⟩
  · simp [unmarkNodes]

/-! ## C18-C20: what a run leaves behind -/

theorem runCmds_nil_ret (os : OS W) (t : Nat) (s : State W) : runCmds os t [] s = .ret s := rfl

/-- C18: a call of `postOrder` that ends, by returning or by `exit`, leaves
the number and order of the vertices and the name, target flag, edge list
and command list of every vertex as they were; a `visited` or `processed`
flag that was 1 is 1 afterwards; and in the state it leaves every flag is 0
or 1 and a processed vertex is visited.  The same frame holds for each step
of the function on any state: entering a vertex, examining a dependency and
building a vertex only ever replace one vertex by one with the same name,
target flag, edges and commands whose `visited`, `processed` and `toBuild`
flags are set if they were set before. -/
theorem C18_traversal_frame (os : OS W) (fuel : Nat) (n : String) (s s' : State W)
    (hs : Sane s) (h : (postOrder os fuel n s).final? = some s') :
    s'.graph.length = s.graph.length ∧ names s'.graph = names s.graph ∧
    (∀ (i : Nat) (v : VertexNode), s.graph[i]? = some v →
      ∃ v', s'.graph[i]? = some v' ∧ v'.name = v.name ∧ v'.isTarget = v.isTarget ∧
        v'.edgeList = v.edgeList ∧ v'.cmdList = v.cmdList ∧
        (v.visited = 1 → v'.visited = 1) ∧ (v.processed = 1 → v'.processed = 1)) ∧
    (∀ (i : Nat) (v' : VertexNode), s'.graph[i]? = some v' →
      (v'.visited = 0 ∨ v'.visited = 1) ∧ (v'.processed = 0 ∨ v'.processed = 1) ∧
        (v'.processed = 1 → v'.visited = 1)) ∧
    (∀ (t : Nat) (nm : String) (target : VertexNode) (a a' : State W),
      a.graph[t]? = some target → (enter os t nm target a).final? = some a' → Ext a a') ∧
    (∀ (t c : Nat) (child target : VertexNode) (a : State W),
      a.graph[t]? = some target → Ext a (examine t c child target a)) ∧
    (∀ (t : Nat) (nm : String) (buf : Option Int) (a a' : State W),
      (buildStep os t nm buf a).final? = some a' → Ext a a') := by
  have hx : Ext s s' := postOrder_ext os h
  have hs' : Sane s' := postOrder_sane os fuel n s s' h hs
  refine ⟨hx.len, (hx.sameRules.names_eq).symm, ?_, hs'.flags, ?_, ?_, ?_⟩
  · intro i v hv
    obtain ⟨v', hv', e⟩ := hx.vert i v hv
    obtain ⟨f1, f2, _⟩ := hs'.flags i v' hv'
    refine ⟨v', hv', e.name, e.isTarget, e.edgeList, e.cmdList, ?_, ?_⟩
    · intro h1
      rcases f1 with f1 | f1
      · exact absurd f1 (e.visited (by rw [h1]; decide))
      · exact f1
    · intro h1
      rcases f2 with f2 | f2
      · exact absurd f2 (e.processed (by rw [h1]; decide))
      · exact f2
  · intro t nm target a a' ht he
    obtain ⟨v', hg, hvv, _, _, _, _, fe, hl⟩ := enter_final he
    exact Ext.of_set ht hvv hg ⟨_, hl⟩
  · intro t c child target a ht
    exact examine_ext c child ht
  · intro t nm buf a a' hb
    obtain ⟨v, v', hv, hg, hvv, hl⟩ := buildStep_final hb
    exact Ext.of_set hv hvv hg hl

/-- C18 at a concrete input: the build of `app: util` with neither file
present. -/
theorem C18_traversal_frame_witness :
    Sane ({ graph := unmarkNodes appUtil, world := Disk.mk [] 10, returnCode := 0, log := [] } :
      State Disk) ∧
    (build toyOS 3 appUtil ⟨[], 10⟩ "app").final? = some appUtilDone ∧
    names appUtilDone.graph = names (unmarkNodes appUtil) :=
  ⟨sane_unmarked appUtil _ 0, Outcome.final_ret appUtil_run,
    (C18_traversal_frame toyOS 3 "app"
      { graph := unmarkNodes appUtil, world := Disk.mk [] 10, returnCode := 0, log := [] }
      appUtilDone (sane_unmarked appUtil _ 0) (Outcome.final_ret appUtil_run)).2.1⟩

/-- C19, what the code does: the second `stat` stores 0 in `fileExists` when
the file exists and leaves `fileDate` as it was, and stores -1 in
`fileExists` when the file does not exist and then assigns `fileDate` from
the buffer that `stat` did not fill.  In the build of the rule `app:` with
the command `touch app` and no file present, the file `app` exists after the
command with time stamp 10, and the vertex ends with `fileExists = 0` and
`fileDate = 0`. -/
theorem C19_restat_inverted :
    (∀ (os : OS W) (nm : String) (buf : Int) (w : W) (v : VertexNode) (m : Int),
      os.stat w nm = some m →
      (restat os nm buf w v).fileExists = 0 ∧ (restat os nm buf w v).fileDate = v.fileDate) ∧
    (∀ (os : OS W) (nm : String) (buf : Int) (w : W) (v : VertexNode), os.stat w nm = none →
      (restat os nm buf w v).fileExists = -1 ∧ (restat os nm buf w v).fileDate = buf) ∧
    ∃ s', build toyOS 2 appOnly ⟨[], 10⟩ "app" = .ret s' ∧ cmdsOf s'.log = ["touch app"] ∧
      toyOS.stat s'.world "app" = some 10 ∧ fileExistsAt s'.graph 0 = 0 ∧
      fileDateAt s'.graph 0 = 0 := by
  refine ⟨?_, ?_, _, rfl, rfl, rfl, rfl, rfl⟩
  · intro os nm buf w v m hm
    simp [restat, hm]
  · intro os nm buf w v hm
    simp [restat, hm]

/-- C20 (as amended): the build step of a vertex with an empty command list
returns, whether the vertex is stale or not: it runs no command, leaves the
world and `returnCode` as they are, and marks the vertex processed.  The
value a run returns is 2 if a command was run during the run and 0 if not,
also when a target without commands had no file. -/
theorem C20_zero_command_stale (os : OS W) (t : Nat) (nm : String) (buf : Option Int)
    (s : State W) (u : VertexNode) (hu : s.graph[t]? = some u) (hc : u.cmdList = []) :
    (∃ x, buildStep os t nm buf s =
        .ret { s with graph := s.graph.set t x, log := s.log ++ [Event.finish t] } ∧
      x.processed = 1 ∧ x.rule = u.rule ∧ x.visited = u.visited ∧ x.toBuild = u.toBuild) ∧
    ∀ (fuel : Nat) (g : Graph) (w : W) (aTarget : String) (s' : State W),
      build os fuel g w aTarget = .ret s' →
      s'.returnCode = if cmdsOf s'.log = [] then 0 else 2 := by
  constructor
  · by_cases htb : u.toBuild = 0
    · exact ⟨{ u with processed := 1 }, by simp [buildStep, hu, htb, finish], rfl, rfl, rfl, rfl⟩
    · refine ⟨{ (restat os nm (buf.getD (os.uninit s.world)) s.world u) with processed := 1 },
        by simp [buildStep, hu, htb, hc, runCmds, Outcome.bind, finish], rfl, ?_, ?_, ?_⟩
      · unfold restat; split <;> rfl
      · unfold restat; split <;> rfl
      · unfold restat; split <;> rfl
  · intro fuel g w aTarget s' h
    obtain ⟨l, hl, hrc⟩ := postOrder_rc os h
    simp only [List.nil_append] at hl
    subst hl
    exact hrc

/-- C20 at a concrete input: the build step of the vertex of the rule
`app:`, which has no commands and has been marked stale on entry. -/
theorem C20_zero_command_stale_witness :
    ([vtx "app" 1 0 1 0 1 0 [] []] : Graph)[0]? = some (vtx "app" 1 0 1 0 1 0 [] []) ∧
    (vtx "app" 1 0 1 0 1 0 [] []).cmdList = [] ∧
    ∃ x, buildStep toyOS 0 "app" none
        { graph := [vtx "app" 1 0 1 0 1 0 [] []], world := ⟨[], 0⟩, returnCode := 0,
          log := [Event.enter 0 0] } =
        .ret { graph := [x], world := ⟨[], 0⟩, returnCode := 0,
               log := [Event.enter 0 0, Event.finish 0] } ∧ x.processed = 1 :=
  ⟨rfl, rfl,
    (C20_zero_command_stale toyOS 0 "app" none
      { graph := [vtx "app" 1 0 1 0 1 0 [] []], world := ⟨[], 0⟩, returnCode := 0,
        log := [Event.enter 0 0] } (vtx "app" 1 0 1 0 1 0 [] []) rfl rfl).1.imp
      fun _ h => ⟨h.1, h.2.1⟩⟩

/-- C20 as stated fails: in the build of the single rule `app:` without
commands and with no file present, the target is entered without a file,
is marked stale, runs no command and ends processed, and the run returns 0,
the value for up to date, not 2. -/
theorem C20_zero_command_stale_counterexample :
    build toyOS 2 phony ⟨[], 0⟩ "app" = .ret phonyDone ∧ cmdsAt phony 0 = [] ∧
    Event.enter 0 0 ∈ phonyDone.log ∧ toBuildAt phonyDone.graph 0 = 1 ∧
    procAt phonyDone.graph 0 = 1 ∧ cmdsOf phonyDone.log = [] ∧ phonyDone.returnCode = 0 :=
  ⟨phony_run, by decide, by decide, by decide, by decide, by decide, rfl⟩

/-! ## C21: the staleness rule -/

theorem visitEdges_cons_eq {self : String → State W → Outcome W} {t c : Nat} (es : List Nat)
    {s s1 : State W} {child child1 target1 : VertexNode} (hc : s.graph[c]? = some child)
    (h1 : self child.name s = .ret s1) (hc1 : s1.graph[c]? = some child1)
    (ht1 : s1.graph[t]? = some target1) :
    visitEdges self t (c :: es) s = visitEdges self t es (examine t c child1 target1 s1) := by
  simp only [visitEdges, hc, h1, Outcome.bind, hc1, ht1]

theorem moment_cons {self : String → State W → Outcome W} {t c : Nat} (es : List Nat)
    {s s1 : State W} {child child1 target1 : VertexNode} (hc : s.graph[c]? = some child)
    (h1 : self child.name s = .ret s1) (hc1 : s1.graph[c]? = some child1)
    (ht1 : s1.graph[t]? = some target1) (c' : Nat) (sM : State W) :
    Moment self t (c :: es) s c' sM ↔
      (c' = c ∧ sM = s1) ∨ Moment self t es (examine t c child1 target1 s1) c' sM := by
  constructor
  · rintro ⟨pre, post, sB, ch, hes, hpre, hch, hself⟩
    cases pre with
    | nil =>
      simp only [List.nil_append, List.cons.injEq] at hes
      obtain ⟨rfl, _⟩ := hes
      simp only [visitEdges, Outcome.ret.injEq] at hpre
      subst hpre
      rw [hc] at hch
      cases hch
      rw [h1] at hself
      cases hself
      exact Or.inl ⟨rfl, rfl⟩
    | cons p pre =>
      simp only [List.cons_append, List.cons.injEq] at hes
      obtain ⟨rfl, hes⟩ := hes
      rw [visitEdges_cons_eq pre hc h1 hc1 ht1] at hpre
      exact Or.inr ⟨pre, post, sB, ch, hes, hpre, hch, hself⟩
  · rintro (⟨rfl, rfl⟩ | ⟨pre, post, sB, ch, hes, hpre, hch, hself⟩)
    · exact ⟨[], es, s, child, rfl, rfl, hc, h1⟩
    · refine ⟨c :: pre, post, sB, ch, by rw [hes]; rfl, ?_, hch, hself⟩
      rw [visitEdges_cons_eq pre hc h1 hc1 ht1]
      exact hpre

/-- The dependency loop marks the vertex stale exactly if it was marked
already or some dependency came back processed and without file or newer. -/
theorem visitEdges_toBuild (os : OS W) (fuel : Nat) (t : Nat) :
    ∀ (es : List Nat) (s s' : State W) (v : VertexNode), s.graph[t]? = some v →
      v.visited ≠ 0 → visitEdges (postOrder os fuel) t es s = .ret s' →
      (∃ x, s'.graph[t]? = some { v with toBuild := x } ∧
        (x = v.toBuild ∨ (v.toBuild = 0 ∧ x = 1))) ∧
      (toBuildAt s'.graph t ≠ 0 ↔ v.toBuild ≠ 0 ∨
        ∃ c sM childM, Moment (postOrder os fuel) t es s c sM ∧ sM.graph[c]? = some childM ∧
          childM.processed ≠ 0 ∧ (childM.fileExists = 0 ∨ childM.fileDate > v.fileDate)) := by
  intro es
  induction es with
  | nil =>
    intro s s' v hv _ h
    simp only [visitEdges, Outcome.ret.injEq] at h
    subst h
    refine ⟨⟨v.toBuild, hv, Or.inl rfl⟩, ?_⟩
    rw [toBuildAt_of_getElem? hv]
    constructor
    · exact Or.inl
    · rintro (h | ⟨c, sM, childM, ⟨pre, post, _, _, hes, _⟩, _⟩)
      · exact h
      · simp at hes
  | cons c es ih =>
    intro s s' v hv hvis h
    obtain ⟨child, s1, child1, target1, hcg, h1, hc1, ht1, h⟩ := visitEdges_cons_ret h
    have hv1 := postOrder_unt os (Outcome.final_ret h1) t v hv hvis
    have heq : target1 = v := Option.some.inj (ht1.symm.trans hv1)
    subst heq
    have hlt : t < s1.graph.length := (List.getElem?_eq_some.mp ht1).1
    -- the examination of `c`
    have hex : ∃ x, (examine t c child1 target1 s1).graph[t]? = some { target1 with toBuild := x } ∧
        (x = target1.toBuild ∨ (target1.toBuild = 0 ∧ x = 1)) ∧
        (x ≠ 0 ↔ target1.toBuild ≠ 0 ∨ (child1.processed ≠ 0 ∧
          (child1.fileExists = 0 ∨ child1.fileDate > target1.fileDate))) := by
      rcases examine_cases t c child1 target1 s1 with ⟨hp, he⟩ | ⟨hp, htb, hcond, he⟩ |
        ⟨hp, hcond, he⟩
      · refine ⟨target1.toBuild, by rw [he]; exact ht1, Or.inl rfl, ?_⟩
        constructor
        · exact Or.inl
        · rintro (h | ⟨h, _⟩)
          · exact h
          · exact absurd hp h
      · refine ⟨1, by rw [he]; exact List.getElem?_set_self hlt, Or.inr ⟨htb, rfl⟩, ?_⟩
        constructor
        · intro _; exact Or.inr ⟨hp, hcond⟩
        · intro _; decide
      · refine ⟨target1.toBuild, by rw [he]; exact ht1, Or.inl rfl, ?_⟩
        constructor
        · exact Or.inl
        · rintro (h | ⟨_, h⟩)
          · exact h
          · rcases hcond with hcond | hcond
            · exact hcond
            · rcases h with h | h
              · exact absurd h hcond.1
              · exact absurd hcond.2 (not_le.mpr h)
    obtain ⟨x, hxg, hx, hxiff⟩ := hex
    obtain ⟨⟨y, hyg, hy⟩, hiff⟩ := ih _ s' { target1 with toBuild := x } hxg hvis h
    refine ⟨⟨y, hyg, ?_⟩, ?_⟩
    · rcases hy with hy | ⟨hy0, hy1⟩
      · rcases hx with hx | hx
        · exact Or.inl (hy.trans hx)
        · exact Or.inr ⟨hx.1, hy.trans hx.2⟩
      · rcases hx with hx | hx
        · exact Or.inr ⟨hx ▸ hy0, hy1⟩
        · exact Or.inr ⟨hx.1, hy1⟩
    · rw [hiff]
      show x ≠ 0 ∨ _ ↔ _
      rw [hxiff]
      constructor
      · rintro ((h | h) | ⟨c', sM, childM, hm, hrest⟩)
        · exact Or.inl h
        · exact Or.inr ⟨c, s1, child1, (moment_cons es hcg h1 hc1 ht1 c s1).mpr
            (Or.inl ⟨rfl, rfl⟩), hc1, h⟩
        · exact Or.inr ⟨c', sM, childM, (moment_cons es hcg h1 hc1 ht1 c' sM).mpr (Or.inr hm),
            hrest⟩
      · rintro (h | ⟨c', sM, childM, hm, hcm, hrest⟩)
        · exact Or.inl (Or.inl h)
        · rcases (moment_cons es hcg h1 hc1 ht1 c' sM).mp hm with ⟨rfl, rfl⟩ | hm
          · rw [hc1] at hcm
            cases hcm
            exact Or.inl (Or.inr hrest)
          · exact Or.inr ⟨c', sM, childM, hm, hcm, hrest⟩


/-- C21: in a call of `postOrder` that enters a vertex `t` (not visited, not
marked stale, as every unvisited vertex is after `unmarkNodes`) and returns,
let `s2` be the state in which the dependency loop of `t` ends.  There the
time stamp recorded for `t` is the one found on entry (0 if there was no
file), `toBuild` of `t` is 0 or 1, it is the value `t` keeps when it is
processed, and it is 1 exactly if the file of `t` did not exist on entry or
some dependency `c` of `t` was processed in the state `sM` in which the
recursive call on it returned, and in `sM` its `fileExists` was 0 or its
`fileDate` was strictly greater than the time stamp recorded for `t`. -/
theorem C21_exact_staleness (os : OS W) (fuel : Nat) (n : String) (s s' : State W) (t : Nat)
    (target : VertexNode) (hfind : findNode n s.graph = some t)
    (htg : s.graph[t]? = some target) (hvis : target.visited = 0) (htb : target.toBuild = 0)
    (hret : postOrder os (fuel + 1) n s = .ret s') :
    ∃ s1 s2, enter os t n target s = .ret s1 ∧
      visitEdges (postOrder os fuel) t target.edgeList s1 = .ret s2 ∧
      buildStep os t n (statBuf os s.world n target.edgeList) s2 = .ret s' ∧
      fileDateAt s2.graph t = (os.stat s.world n).getD 0 ∧
      (toBuildAt s2.graph t = 0 ∨ toBuildAt s2.graph t = 1) ∧
      toBuildAt s'.graph t = toBuildAt s2.graph t ∧
      (toBuildAt s2.graph t = 1 ↔ os.stat s.world n = none ∨
        ∃ c sM childM, Moment (postOrder os fuel) t target.edgeList s1 c sM ∧
          sM.graph[c]? = some childM ∧ childM.processed ≠ 0 ∧
          (childM.fileExists = 0 ∨ childM.fileDate > (os.stat s.world n).getD 0)) := by
  have hv0 : ¬ target.visited ≠ 0 := by simpa using hvis
  simp only [postOrder, hfind, htg, hv0, if_false] at hret
  rw [Outcome.bind_eq_ret] at hret
  obtain ⟨s1, he, hret⟩ := hret
  rw [Outcome.bind_eq_ret] at hret
  obtain ⟨s2, hve, hb⟩ := hret
  refine ⟨s1, s2, he, hve, hb, ?_⟩
  have hlt : t < s.graph.length := (List.getElem?_eq_some.mp htg).1
  -- the vertex after `enter`
  have hent : ∃ v1, s1.graph[t]? = some v1 ∧ v1.visited ≠ 0 ∧
      v1.fileDate = (os.stat s.world n).getD 0 ∧ (v1.toBuild = 0 ∨ v1.toBuild = 1) ∧
      (v1.toBuild ≠ 0 ↔ os.stat s.world n = none) := by
    rcases enter_ret_cases he with ⟨m, hm, rfl⟩ | ⟨hm, _, rfl⟩
    · refine ⟨_, List.getElem?_set_self hlt, by simp, by simp [hm], Or.inl htb, ?_⟩
      simp [htb, hm]
    · refine ⟨_, List.getElem?_set_self hlt, by simp, by simp [hm], Or.inr rfl, ?_⟩
      simp [hm]
  obtain ⟨v1, hv1, hv1vis, hv1d, hv1b, hv1iff⟩ := hent
  obtain ⟨⟨x, hxg, hx⟩, hiff⟩ := visitEdges_toBuild os fuel t target.edgeList s1 s2 v1 hv1
    hv1vis hve
  have htb2 : toBuildAt s2.graph t = x := by rw [toBuildAt_of_getElem? hxg]
  have h01 : toBuildAt s2.graph t = 0 ∨ toBuildAt s2.graph t = 1 := by
    rw [htb2]
    rcases hx with hx | hx
    · rw [hx]; exact hv1b
    · exact Or.inr hx.2
  refine ⟨by rw [fileDateAt_of_getElem? hxg]; exact hv1d, h01, ?_, ?_⟩
  · obtain ⟨w2, w2', hw2, hg', _, _, _, hwt⟩ := buildStep_ret hb
    rw [hg', toBuildAt_set hw2, if_pos rfl, hwt, toBuildAt_of_getElem? hw2]
  · have h1 : toBuildAt s2.graph t = 1 ↔ toBuildAt s2.graph t ≠ 0 := by
      rcases h01 with h | h <;> simp [h]
    rw [h1, hiff, hv1iff, hv1d]

/-- C21 at a concrete input: the call that enters `app` in the build of
`app: util` with neither file present. -/
theorem C21_exact_staleness_witness :
    findNode "app" (unmarkNodes appUtil) = some 0 ∧
    (unmarkNodes appUtil)[0]? = some (mkVertex "app" 1 [1] ["touch app"]) ∧
    (mkVertex "app" 1 [1] ["touch app"]).visited = 0 ∧
    (mkVertex "app" 1 [1] ["touch app"]).toBuild = 0 ∧
    build toyOS 3 appUtil ⟨[], 10⟩ "app" = .ret appUtilDone ∧
    ∃ s1 s2 : State Disk,
      visitEdges (postOrder toyOS 2) 0 [1] s1 = .ret s2 ∧ toBuildAt s2.graph 0 = 1 :=
  ⟨by decide, by decide, rfl, rfl, appUtil_run,
    (C21_exact_staleness toyOS 2 "app"
      { graph := unmarkNodes appUtil, world := Disk.mk [] 10, returnCode := 0, log := [] }
      appUtilDone 0 (mkVertex "app" 1 [1] ["touch app"]) (by decide) (by decide) rfl rfl
      appUtil_run).imp fun _ h => h.imp fun _ h =>
        ⟨h.2.1, h.2.2.2.2.2.2.mpr (Or.inl rfl)⟩⟩

/-! ## C22: dependency-cycle diagnostics -/

theorem Walk.then_edge {g : Graph} {u v w : Nat} (h : Walk g u v) (hw : w ∈ depsOf g v) :
    Walk g u w := by
  induction h with
  | edge h => exact Walk.cons h (Walk.edge hw)
  | cons h _ ih => exact Walk.cons h (ih hw)

theorem mem_cyclesOf {t c : Nat} : ∀ {l : List Event},
    (t, c) ∈ cyclesOf l ↔ Event.cycle t c ∈ l
  | [] => by simp [cyclesOf]
  | ev :: l => by
    have ih := mem_cyclesOf (t := t) (c := c) (l := l)
    cases ev <;> simp [cyclesOf, ih]

theorem cyclesOf_ne_nil {l : List Event} :
    cyclesOf l ≠ [] ↔ ∃ t c, Event.cycle t c ∈ l := by
  constructor
  · intro h
    obtain ⟨⟨t, c⟩, hm⟩ := List.exists_mem_of_ne_nil _ h
    exact ⟨t, c, mem_cyclesOf.mp hm⟩
  · rintro ⟨t, c, hm⟩ h
    have := mem_cyclesOf.mpr hm
    rw [h] at this
    cases this

/-- A call on a vertex that is not visited returns with that vertex
processed. -/
theorem postOrder_processes (os : OS W) {fuel : Nat} {n : String} {s s' : State W} {t : Nat}
    {target : VertexNode} (hfind : findNode n s.graph = some t)
    (htg : s.graph[t]? = some target) (hvis : target.visited = 0)
    (h : postOrder os fuel n s = .ret s') : procAt s'.graph t = 1 := by
  cases fuel with
  | zero => simp [postOrder] at h
  | succ fuel =>
    have hv0 : ¬ target.visited ≠ 0 := by simpa using hvis
    simp only [postOrder, hfind, htg, hv0, if_false] at h
    rw [Outcome.bind_eq_ret] at h
    obtain ⟨s1, _, h⟩ := h
    rw [Outcome.bind_eq_ret] at h
    obtain ⟨s2, _, hb⟩ := h
    obtain ⟨w2, w2', hw2, hg', _, hwp, _, _⟩ := buildStep_ret hb
    rw [hg', procAt_set hw2, if_pos rfl, hwp]

/-- A dependency comes back from its recursive call unprocessed exactly if
it was entered and not processed when the call was made. -/
theorem child_unprocessed (os : OS W) {fuel : Nat} {c : Nat} {sB sM : State W}
    {child childM : VertexNode} (hn : NamesOK sB.graph) (hc : sB.graph[c]? = some child)
    (h : postOrder os fuel child.name sB = .ret sM) (hcM : sM.graph[c]? = some childM) :
    childM.processed = 0 ↔ (child.visited ≠ 0 ∧ child.processed = 0) := by
  by_cases hvis : child.visited = 0
  · have hp := postOrder_processes os (hn c child hc) hc hvis h
    rw [procAt_of_getElem? hcM] at hp
    constructor
    · intro h0
      rw [hp] at h0
      exact absurd h0 (by decide)
    · intro h0
      exact absurd hvis h0.1
  · have hu := postOrder_unt os (Outcome.final_ret h) c child hc hvis
    rw [hcM] at hu
    cases hu
    exact ⟨fun h0 => ⟨hvis, h0⟩, fun h0 => h0.2⟩


theorem runCmds_ret_events {os : OS W} {t : Nat} : ∀ {cs : List String} {s s' : State W},
    runCmds os t cs s = .ret s' →
    s'.graph = s.graph ∧
      ∃ l, s'.log = s.log ++ l ∧ ∀ ev ∈ l, ∃ c rt pre, ev = Event.cmd t c rt pre := by
  intro cs
  induction cs with
  | nil =>
    intro s s' h
    simp only [runCmds, Outcome.ret.injEq] at h
    subst h
    exact ⟨rfl, [], by simp, by simp⟩
  | cons c cs ih =>
    intro s s' h
    simp only [runCmds] at h
    split at h
    · simp at h
    · obtain ⟨hg, l, hl, hev⟩ := ih h
      refine ⟨hg, Event.cmd t c (os.system s.world c).1 s.graph :: l, by rw [hl]; simp, ?_⟩
      intro ev hmem
      simp only [List.mem_cons] at hmem
      rcases hmem with hmem | hmem
      · exact ⟨_, _, _, hmem⟩
      · exact hev ev hmem

/-- The build step logs no diagnostic. -/
theorem buildStep_no_cycle {os : OS W} {t : Nat} {n : String} {buf : Option Int}
    {s s' : State W} (h : buildStep os t n buf s = .ret s') {a b : Nat}
    (hm : Event.cycle a b ∈ s'.log) : Event.cycle a b ∈ s.log := by
  obtain ⟨u, _, hu, _⟩ := buildStep_ret h
  rcases buildStep_ret_cases hu h with ⟨_, rfl⟩ | ⟨_, s3, h3, rfl⟩
  · simp only [List.mem_append, List.mem_singleton] at hm
    rcases hm with hm | hm
    · exact hm
    · cases hm
  · obtain ⟨_, l, hl, hev⟩ := runCmds_ret_events h3
    simp only [List.mem_append, List.mem_singleton] at hm
    rcases hm with hm | hm
    · rw [hl, List.mem_append] at hm
      rcases hm with hm | hm
      · exact hm
      · obtain ⟨_, _, _, he⟩ := hev _ hm
        cases he
    · cases hm

/-- Every diagnostic is about a dependency that is the reporting vertex
itself or a vertex from which the reporting vertex is reached, and a call
leaves no vertex entered and unprocessed that was not so before. -/
theorem postOrder_stack (os : OS W) {g : Graph} (hn : NamesOK g) :
    ∀ (fuel : Nat) (n : String) (s s' : State W) (t : Nat), SameRules g s.graph →
      findNode n s.graph = some t → (∀ u, Open s u → u = t ∨ Walk g u t) → CycOK g s.log →
      postOrder os fuel n s = .ret s' →
      CycOK g s'.log ∧ ∀ u, Open s' u → Open s u := by
  intro fuel
  induction fuel with
  | zero => intro n s s' t _ _ _ _ h; simp [postOrder] at h
  | succ fuel ih =>
    have loop : ∀ (t : Nat) (es : List Nat) (sK s2 : State W), SameRules g sK.graph →
        (∀ c ∈ es, c ∈ depsOf g t) → (∀ u, Open sK u → u = t ∨ Walk g u t) →
        CycOK g sK.log → visitEdges (postOrder os fuel) t es sK = .ret s2 →
        CycOK g s2.log ∧ ∀ u, Open s2 u → Open sK u := by
      intro t es
      induction es with
      | nil =>
        intro sK s2 _ _ _ hcy h
        simp only [visitEdges, Outcome.ret.injEq] at h
        subst h
        exact ⟨hcy, fun _ h => h⟩
      | cons c es ihes =>
        intro sK s2 hsr hes hP hcy h
        obtain ⟨child, sM, childM, targetM, hcg, h1, hcM, htM, h⟩ := visitEdges_cons_ret h
        have hct : c ∈ depsOf g t := hes c (List.mem_cons_self _ _)
        have hfc : findNode child.name sK.graph = some c := (hsr.namesOK hn) c child hcg
        have hxM : Ext sK sM := postOrder_ext os (Outcome.final_ret h1)
        obtain ⟨hcyM, hopM⟩ := ih child.name sK sM c hsr hfc
          (fun u hu => by
            rcases hP u hu with rfl | hw
            · exact Or.inr (Walk.edge hct)
            · exact Or.inr (hw.then_edge hct))
          hcy h1
        have hopE : ∀ u, Open (examine t c childM targetM sM) u → Open sM u := by
          intro u hu
          obtain ⟨hv, hp⟩ := examine_flags t c childM htM u
          exact ⟨hv ▸ hu.1, hp ▸ hu.2⟩
        have hcyE : CycOK g (examine t c childM targetM sM).log := by
          intro a b hm
          rcases examine_cases t c childM targetM sM with ⟨hp, he⟩ | ⟨_, _, _, he⟩ |
            ⟨_, _, he⟩
          · rw [he] at hm
            simp only [List.mem_append, List.mem_singleton] at hm
            rcases hm with hm | hm
            · exact hcyM a b hm
            · simp only [Event.cycle.injEq] at hm
              obtain ⟨rfl, rfl⟩ := hm
              refine ⟨hct, hP b (hopM b ⟨postOrder_target_visited os h1 hfc, ?_⟩)⟩
              rw [procAt_of_getElem? hcM]
              exact hp
          · rw [he] at hm
            simp only [List.mem_append, List.mem_singleton] at hm
            rcases hm with hm | hm
            · exact hcyM a b hm
            · cases hm
          · rw [he] at hm
            simp only [List.mem_append, List.mem_singleton] at hm
            rcases hm with hm | hm
            · exact hcyM a b hm
            · cases hm
        obtain ⟨hcy2, hop2⟩ := ihes _ s2
          (hsr.sr_trans (hxM.trans (examine_ext c childM htM)).sameRules)
          (fun c' hc' => hes c' (List.mem_cons_of_mem _ hc'))
          (fun u hu => hP u (hopM u (hopE u hu))) hcyE h
        exact ⟨hcy2, fun u hu => hopM u (hopE u (hop2 u hu))⟩
    intro n s s' t hsr hfind hP hcy h
    obtain ⟨target, htg, _⟩ := findNode_some hfind
    by_cases hvis : target.visited ≠ 0
    · rw [postOrder_visited os fuel hfind htg hvis] at h
      simp only [Outcome.ret.injEq] at h
      subst h
      exact ⟨hcy, fun _ h => h⟩
    · have hvis0 : target.visited = 0 := by simpa using hvis
      simp only [postOrder, hfind, htg, hvis, if_false] at h
      rw [Outcome.bind_eq_ret] at h
      obtain ⟨s1, he, h⟩ := h
      rw [Outcome.bind_eq_ret] at h
      obtain ⟨s2, hve, hb⟩ := h
      obtain ⟨v', hg1, hvv, hv1, hp1, _, _, fe, hl1⟩ := enter_final (Outcome.final_ret he)
      have hx1 : Ext s s1 := Ext.of_set htg hvv hg1 ⟨_, hl1⟩
      have hop1 : ∀ u, Open s1 u → Open s u ∨ u = t := by
        intro u hu
        by_cases hut : u = t
        · exact Or.inr hut
        · left
          unfold Open at hu ⊢
          rw [hg1, visAt_set htg, procAt_set htg, if_neg hut, if_neg hut] at hu
          exact hu
      have hcy1 : CycOK g s1.log := by
        intro a b hm
        rw [hl1] at hm
        simp only [List.mem_append, List.mem_singleton] at hm
        rcases hm with hm | hm
        · exact hcy a b hm
        · cases hm
      have hdeps : ∀ c ∈ target.edgeList, c ∈ depsOf g t := by
        intro c hc
        rw [← hsr.depsOf_eq t, depsOf_of_getElem? htg]
        exact hc
      obtain ⟨hcy2, hop2⟩ := loop t target.edgeList s1 s2 (hsr.sr_trans hx1.sameRules) hdeps
        (fun u hu => by
          rcases hop1 u hu with h0 | h0
          · exact hP u h0
          · exact Or.inl h0)
        hcy1 hve
      refine ⟨fun a b hm => hcy2 a b (buildStep_no_cycle hb hm), ?_⟩
      intro u hu
      obtain ⟨w2, w2', hw2, hg', _, hwp, _, _⟩ := buildStep_ret hb
      have hut : u ≠ t := by
        intro hut
        subst hut
        have := hu.2
        rw [hg', procAt_set hw2, if_pos rfl, hwp] at this
        exact absurd this (by decide)
      have hu2 : Open s2 u := by
        unfold Open at hu ⊢
        rw [hg', visAt_set hw2, procAt_set hw2, if_neg hut, if_neg hut] at hu
        exact hu
      rcases hop1 u (hop2 u hu2) with h0 | h0
      · exact h0
      · exact absurd h0 hut


/-- Without diagnostics every dependency of a processed vertex is processed
and was finished before it. -/
theorem finish_before {g : Graph} {s : State W} (hs : Sane s) (hh : Hist g s)
    (hnc : ∀ a b, Event.cycle a b ∉ s.log) {t d : Nat} (ht : procAt s.graph t ≠ 0)
    (hd : d ∈ depsOf g t) :
    procAt s.graph d ≠ 0 ∧
      s.log.indexOf (Event.finish d) < s.log.indexOf (Event.finish t) := by
  obtain ⟨l1, l2, hlog⟩ := List.append_of_mem (hs.finish_mem ht)
  have hstep := hh l1 _ l2 hlog
  have hd1 : Event.finish d ∈ l1 := by
    rcases hstep.2 d hd with h | h
    · exact h
    · exact absurd (by rw [hlog]; exact List.mem_append_left _ h) (hnc t d)
  have hcount := hs.finished t
  rw [if_neg ht, hlog, List.count_append, List.count_cons_self] at hcount
  have ht1 : Event.finish t ∉ l1 := by
    intro hmem
    have := List.count_pos_iff.mpr hmem
    omega
  refine ⟨?_, ?_⟩
  · intro h0
    exact hs.finish_not_mem h0 (by rw [hlog]; exact List.mem_append_left _ hd1)
  · rw [hlog, List.indexOf_append_of_mem hd1, List.indexOf_append_of_not_mem ht1,
      List.indexOf_cons_self]
    exact List.indexOf_lt_length.mpr hd1

theorem walk_finish_before {g : Graph} {s : State W} (hs : Sane s) (hh : Hist g s)
    (hnc : ∀ a b, Event.cycle a b ∉ s.log) {u v : Nat} (hw : Walk g u v) :
    procAt s.graph u ≠ 0 →
    procAt s.graph v ≠ 0 ∧
      s.log.indexOf (Event.finish v) < s.log.indexOf (Event.finish u) := by
  induction hw with
  | edge h => exact fun hu => finish_before hs hh hnc hu h
  | cons h _ ih =>
    intro hu
    obtain ⟨hv, hlt⟩ := finish_before hs hh hnc hu h
    obtain ⟨hw', hlt'⟩ := ih hv
    exact ⟨hw', lt_trans hlt' hlt⟩

/-- C22: in a run started by `build` on a well-formed graph that returns, a
dependency-cycle diagnostic for the edge from `t` to `c` is logged exactly
when `c` was entered and not processed in the state in which `t` made the
recursive call on it; at that point of the log `c` has been entered and not
finished, and `c` is `t` itself or a vertex from which `t` is reached.  At
least one diagnostic is logged exactly if the part of the graph that can be
reached from the start holds a directed cycle; on the diamond `a: b c`,
`b: d`, `c: d` none is logged although `d` is reached along two paths. -/
theorem C22_cycle_diagnostics (os : OS W) (fuel : Nat) (g : Graph) (w : W) (aTarget : String)
    (i : Nat) (s' : State W) (hwf : WF g) (hfind : findNode aTarget g = some i)
    (hret : build os fuel g w aTarget = .ret s') :
    (∀ (k t c : Nat) (sB sM : State W) (child childM targetM : VertexNode),
      NamesOK sB.graph → sB.graph[c]? = some child →
      postOrder os k child.name sB = .ret sM → sM.graph[c]? = some childM →
      ((examine t c childM targetM sM).log = sM.log ++ [Event.cycle t c] ↔
        (child.visited ≠ 0 ∧ child.processed = 0))) ∧
    (∀ (l1 : List Event) (t c : Nat) (l2 : List Event), s'.log = l1 ++ Event.cycle t c :: l2 →
      c ∈ depsOf g t ∧ (∃ fe, Event.enter c fe ∈ l1) ∧ Event.finish c ∉ l1 ∧
        (c = t ∨ Walk g c t)) ∧
    (cyclesOf s'.log ≠ [] ↔ HasCycle g i) ∧
    ∃ s2, build toyOS 4 diamond ⟨[], 0⟩ "a" = .ret s2 ∧ cyclesOf s2.log = [] := by
  have hn : NamesOK g := namesOK_of_nodup hwf.1
  obtain ⟨hs', hh⟩ := build_hist os hwf (Outcome.final_ret hret)
  have hsr0 := sameRules_unmarkNodes g
  have hfind0 : findNode aTarget (unmarkNodes g) = some i := by
    rw [← findNode_congr hsr0.names_eq]; exact hfind
  have hstack := (postOrder_stack os hn fuel aTarget _ s' i hsr0 hfind0
    (fun u hu => absurd (visAt_unmarked g u) hu.1) (fun a b hm => by simp at hm) hret).1
  obtain ⟨hr1, hr2⟩ := build_reach os hwf hfind hret
  refine ⟨?_, ?_, ?_, _, rfl, rfl⟩
  · intro k t c sB sM child childM targetM hnB hc h hcM
    rw [← child_unprocessed os hnB hc h hcM]
    rcases examine_cases t c childM targetM sM with ⟨hp, he⟩ | ⟨hp, _, _, he⟩ | ⟨hp, _, he⟩
    · rw [he]
      exact ⟨fun _ => hp, fun _ => rfl⟩
    · rw [he]
      constructor
      · intro hl
        simp at hl
      · intro h0
        exact absurd h0 hp
    · rw [he]
      constructor
      · intro hl
        simp at hl
      · intro h0
        exact absurd h0 hp
  · intro l1 t c l2 hlog
    have hm : Event.cycle t c ∈ s'.log := by rw [hlog]; simp
    obtain ⟨hd, hw⟩ := hstack t c hm
    obtain ⟨he, hf⟩ := hh l1 _ l2 hlog
    exact ⟨hd, he, hf, hw⟩
  · rw [cyclesOf_ne_nil]
    constructor
    · rintro ⟨t, c, hm⟩
      obtain ⟨hd, hw⟩ := hstack t c hm
      obtain ⟨l1, l2, hlog⟩ := List.append_of_mem hm
      obtain ⟨⟨fe, he⟩, _⟩ := hh l1 _ l2 hlog
      have hvis : visAt s'.graph c ≠ 0 :=
        hs'.visAt_of_enter (by rw [hlog]; exact List.mem_append_left _ he)
      have hreach : Reach g i c := by
        by_contra hr
        exact hvis (hr2 c hr).1
      refine ⟨c, hreach, ?_⟩
      rcases hw with rfl | hw
      · exact Walk.edge hd
      · exact hw.then_edge hd
    · rintro ⟨v, hr, hw⟩
      by_contra hnone
      have hnc : ∀ a b, Event.cycle a b ∉ s'.log := fun a b hm => hnone ⟨a, b, hm⟩
      have hp : procAt s'.graph v ≠ 0 := by rw [(hr1 v hr).1]; decide
      exact lt_irrefl _ (walk_finish_before hs' hh hnc hw hp).2

/-- C22 at a concrete input: the build of `a: b`, `b: a` from `a`, which
reports one cycle. -/
theorem C22_cycle_diagnostics_witness :
    WF cycleCmds ∧ findNode "a" cycleCmds = some 0 ∧
    build toyOS 3 cycleCmds ⟨[], 0⟩ "a" = .ret cycleCmdsDone ∧
    cyclesOf cycleCmdsDone.log = [(1, 0)] ∧ HasCycle cycleCmds 0 :=
  ⟨wf_cycleCmds, by decide, cycleCmds_run, by decide,
    (C22_cycle_diagnostics toyOS 3 cycleCmds ⟨[], 0⟩ "a" 0 cycleCmdsDone wf_cycleCmds
      (by decide) cycleCmds_run).2.2.1.mp (by decide)⟩

/-! ## C7: the value returned, for any run of a process -/

/-- C7 (as amended): let a traversal run start after `unmarkNodes` with the
static `returnCode` holding `rc0`, and let it return.  The value returned is
2 if at least one command was run during the run, and `rc0` if none was; it
is not 1 unless `rc0` was, and it is 0 or 2 if `rc0` was.  For the first run
of a process, which is the run that `build` (the two lines of `main`) makes,
`rc0` is 0: the value returned is 2 if a command was run and 0 if none
was, and never 1. -/
theorem C7_aggregate_result (os : OS W) (fuel : Nat) (g : Graph) (w : W) (aTarget : String)
    (rc0 : Int) (s' : State W)
    (h : postOrder os fuel aTarget
      { graph := unmarkNodes g, world := w, returnCode := rc0, log := [] } = .ret s') :
    (cmdsOf s'.log ≠ [] → s'.returnCode = 2) ∧ (cmdsOf s'.log = [] → s'.returnCode = rc0) ∧
    (rc0 ≠ 1 → s'.returnCode ≠ 1) ∧
    (rc0 = 0 ∨ rc0 = 2 → s'.returnCode = 0 ∨ s'.returnCode = 2) ∧
    ∀ s1 : State W, build os fuel g w aTarget = .ret s1 →
      (cmdsOf s1.log ≠ [] → s1.returnCode = 2) ∧ (cmdsOf s1.log = [] → s1.returnCode = 0) ∧
        s1.returnCode ≠ 1 := by
  have key : ∀ (r : Int) (t : State W),
      postOrder os fuel aTarget
        { graph := unmarkNodes g, world := w, returnCode := r, log := [] } = .ret t →
      t.returnCode = if cmdsOf t.log = [] then r else 2 := by
    intro r t ht
    obtain ⟨l, hl, hrc⟩ := postOrder_rc os ht
    simp only [List.nil_append] at hl
    subst hl
    exact hrc
  have hrc := key rc0 s' h
  refine ⟨?_, ?_, ?_, ?_, ?_⟩
  · intro hc
    rw [hrc, if_neg hc]
  · intro hc
    rw [hrc, if_pos hc]
  · intro h0
    rw [hrc]
    by_cases hc : cmdsOf s'.log = []
    · simpa [hc] using h0
    · simp [hc]
  · intro h0
    rw [hrc]
    by_cases hc : cmdsOf s'.log = []
    · simpa [hc] using h0
    · simp [hc]
  · intro s1 h1
    have h1rc := key 0 s1 h1
    rw [h1rc]
    by_cases hc : cmdsOf s1.log = [] <;> simp [hc]

/-- C7 at a concrete input: the build of `app: util` with neither file
present, the first run of its process, runs two commands and returns 2. -/
theorem C7_aggregate_result_witness :
    postOrder toyOS 3 "app"
      { graph := unmarkNodes appUtil, world := Disk.mk [] 10, returnCode := 0, log := [] } =
      .ret appUtilDone ∧
    cmdsOf appUtilDone.log = ["touch util", "touch app"] ∧ appUtilDone.returnCode = 2 :=
  ⟨appUtil_run, by decide,
    (C7_aggregate_result toyOS 3 appUtil (Disk.mk [] 10) "app" 0 appUtilDone appUtil_run).1
      (by decide)⟩

/-- C7 as stated fails for a second run in the same process: after the
build of `app: util` has run its two commands and left `returnCode` at 2, a
second traversal of the same graph, started after `unmarkNodes`, runs no
command and returns 2, not 0. -/
theorem C7_aggregate_result_counterexample :
    build toyOS 3 appUtil ⟨[], 10⟩ "app" = .ret appUtilDone ∧ appUtilDone.returnCode = 2 ∧
    ∃ s2, postOrder toyOS 3 "app"
        { graph := unmarkNodes appUtilDone.graph, world := appUtilDone.world,
          returnCode := appUtilDone.returnCode, log := [] } = .ret s2 ∧
      cmdsOf s2.log = [] ∧ s2.returnCode = 2 :=
  ⟨appUtil_run, rfl, _, rfl, rfl, rfl⟩

end JMake
